import Mathlib

/-!
# Minesweeper rules engine: shallow embedding of `minesweeper.c`

A cell is a `uint16_t`, modelled as a natural number below `2 ^ 16`:
the upper 8 bits hold the value byte, the lower 4 bits the number of
neighbouring mines, bit value 16 is the revealed bit and bit value 32 the
flag bit.  A board `uint16_t board[rows][cols]` is modelled as a function
from row and column to the cell stored there; only positions with
`row < rows` and `col < cols` belong to the grid.

`size_t` is 64 bits wide: an index `i + d` with `d` an `int` is computed
modulo `2 ^ 64`.  `int` is 32 bits wide: counters are wrapped to the
two's-complement range.

`MIN_SIZE` and `MAX_SIZE` come from `minesweeper.h`; they are parameters of
`postprocess` and of everything that calls it.
-/

set_option maxRecDepth 100000

namespace Minesweeper

/-! ## Constants -/

/-- The shift of the value byte. -/
def E_BITS : Nat := 8

/-- The mask of the stored neighbour count. -/
def LOWER_4_BITS : Nat := 15

/-- The flag bit. -/
def BIT_6 : Nat := 32

/-- The revealed bit. -/
def BIT_5 : Nat := 16

/-- The sentinel `INT16_MIN`. -/
def INT16_MIN : Int := -32768

/-- A board: the cell stored at a row and a column. -/
abbrev Board := Nat → Nat → Nat

/-- The assignment `board[i][j] = v`. -/
def Board.set (board : Board) (i j v : Nat) : Board :=
  fun r c => if r = i ∧ c = j then v else board r c

/-- Conversion of a sum `i + d` (with `i` a `size_t` and `d` an `int`) to `size_t`. -/
def size_add (i : Nat) (d : Int) : Nat :=
  (((i : Int) + d) % (2 ^ 64 : Int)).toNat

/-- Two's-complement wrap of an `int` result. -/
def wrap32 (x : Int) : Int :=
  (x + 2147483648) % 4294967296 - 2147483648

/-- The values taken by the loop variables `drow` and `dcol`. -/
def offsets : List Int := [-1, 0, 1]

/-! ## Help functions -/

/-- The value byte `(char)(cell >> E_BITS)` of a 16-bit cell, as its code in
`0 .. 255`; the source only compares it with `'M'` and tests it for a digit. -/
def get_val (cell : Nat) : Nat :=
  cell >>> E_BITS

/-- The stored neighbour count: the lower 4 bits of the cell. -/
def get_neighbour_mins (cell : Nat) : Nat :=
  cell &&& LOWER_4_BITS

/-- The flag bit of the cell is set. -/
def is_flag (cell : Nat) : Bool :=
  cell &&& BIT_6 != 0

/-- The value byte of the cell is `'M'`. -/
def is_mine (cell : Nat) : Bool :=
  get_val cell == 77

/-- The revealed bit of the cell is set. -/
def is_revealed (cell : Nat) : Bool :=
  cell &&& BIT_5 != 0

/-- The function `get_number`: 0 for a mine, the stored count otherwise. -/
def get_number (cell : Nat) : Nat :=
  if get_val cell == 77 then 0 else get_neighbour_mins cell

/-! ## Input functions -/

/-- The C library function `toupper` on ASCII codes. -/
def toupper (ch : Nat) : Nat :=
  if 97 ≤ ch ∧ ch ≤ 122 then ch - 32 else ch

/-- The C library function `isdigit` on ASCII codes. -/
def isdigit (ch : Nat) : Bool :=
  decide (48 ≤ ch ∧ ch ≤ 57)

/-- The accepted character codes: `'X'`, `'M'`, `'F'`, `'W'`, `'.'`, `'0'` to `'8'`. -/
def is_valid (ch : Nat) : Bool :=
  ch == 88 || ch == 77 || ch == 70 || ch == 87 || ch == 46 || (decide (ch ≥ 48) && decide (ch ≤ 56))

/-- The function `set_cell` past its `NULL` check, as every caller in the
program reaches it with `&board[i][j]`: the returned pair is the status and the
content of `*cell` afterwards (`cell` is its content before).  The whole
function, `NULL` check included, is `set_cell_ptr`.  The last branch is the
`default` case falling through with `*cell = 0`. -/
def set_cell (cell : Nat) (val : Nat) : Bool × Nat :=
  let upper := toupper val
  if !is_valid upper then (false, cell)
  else
    let cell0 := 0
    if upper = 70 then (true, (77 <<< E_BITS) ||| BIT_6)
    else if upper = 77 then (true, 77 <<< E_BITS)
    else if upper = 88 then (true, 88 <<< E_BITS)
    else if upper = 87 then (true, (46 <<< E_BITS) ||| BIT_6)
    else if upper = 46 then (true, (46 <<< E_BITS) ||| BIT_5)
    else if upper ≥ 48 ∧ upper ≤ 56 then (true, (upper <<< E_BITS) ||| BIT_5)
    else (true, cell0)

/-- The function `set_cell` with its pointer argument: `none` is the `NULL`
pointer, for which the first statement returns false, and `some content` is a
pointer to a cell holding `content`.  The returned pair is the status and what
the pointer refers to afterwards. -/
def set_cell_ptr (cell : Option Nat) (val : Nat) : Bool × Option Nat :=
  match cell with
  | none => (false, none)
  | some content =>
    let upper := toupper val
    if !is_valid upper then (false, some content)
    else
      let cell0 := 0
      if upper = 70 then (true, some ((77 <<< E_BITS) ||| BIT_6))
      else if upper = 77 then (true, some (77 <<< E_BITS))
      else if upper = 88 then (true, some (88 <<< E_BITS))
      else if upper = 87 then (true, some ((46 <<< E_BITS) ||| BIT_6))
      else if upper = 46 then (true, some ((46 <<< E_BITS) ||| BIT_5))
      else if upper ≥ 48 ∧ upper ≤ 56 then (true, some ((upper <<< E_BITS) ||| BIT_5))
      else (true, some cell0)

/-- The function `valid_pos` on `size_t` indices. -/
def valid_pos (rows cols i j : Nat) : Bool :=
  decide (i < rows) && decide (j < cols)

/-- The function `get_mins`: the result is converted to `uint8_t`. -/
def get_mins (rows cols i j : Nat) (board : Board) : Nat :=
  let min_count : Int :=
    offsets.foldl (fun acc drow =>
      offsets.foldl (fun acc dcol =>
        if drow = 0 ∧ dcol = 0 then acc
        else if !valid_pos rows cols (size_add i drow) (size_add j dcol) then acc
        else if get_val (board (size_add i drow) (size_add j dcol)) = 77 then wrap32 (acc + 1)
        else acc) acc) 0
  (min_count % 256).toNat

/-- The body of the inner loop of `postprocess` at position `(i, j)`: the
state is the counter `mine_count` and the board; `Except.error` is the early
`return -1`, carrying the board as it is at that moment. -/
def postprocess_body (rows cols i j : Nat) (st : Int × Board) : Except Board (Int × Board) :=
  let mine_count := if is_mine (st.2 i j) then wrap32 (st.1 + 1) else st.1
  let real_min_count := get_mins rows cols i j st.2
  if is_revealed (st.2 i j) && isdigit (get_val (st.2 i j))
      && decide ((get_val (st.2 i j) : Int) - 48 ≠ (real_min_count : Int)) then
    Except.error st.2
  else
    Except.ok (mine_count, st.2.set i j (st.2 i j ||| real_min_count))

/-- The two nested loops of `postprocess`. -/
def postprocess_loop (rows cols : Nat) (board : Board) : Except Board (Int × Board) :=
  (List.range rows).foldlM (fun st i =>
    (List.range cols).foldlM (fun st j => postprocess_body rows cols i j st) st) (0, board)

/-- The function `postprocess`: the returned pair is the return value and the
board afterwards. -/
def postprocess (MIN_SIZE MAX_SIZE rows cols : Nat) (board : Board) : Int × Board :=
  if rows < MIN_SIZE ∨ rows > MAX_SIZE ∨ cols < MIN_SIZE ∨ cols > MAX_SIZE then (-1, board)
  else if is_mine (board 0 0) || is_mine (board (size_add rows (-1)) 0) ||
      is_mine (board 0 (size_add cols (-1))) ||
      is_mine (board (size_add rows (-1)) (size_add cols (-1))) then (-1, board)
  else
    match postprocess_loop rows cols board with
    | Except.error b => (-1, b)
    | Except.ok (mine_count, b) => if mine_count = 0 then (-1, b) else (mine_count, b)

/-! ## Game mechanic functions -/

/-- The function `reveal_single`: the returned pair is the return value and
the content of `*cell` afterwards.  Its `NULL` check (return -1) is not
reached: every call site passes the address of a cell of the board. -/
def reveal_single (cell : Nat) : Int × Nat :=
  if is_revealed cell || is_flag cell then (-1, cell)
  else if is_mine cell then (1, cell ||| BIT_5)
  else (0, cell ||| 16)

/-- The function `reveal_floodfill`.  The first argument bounds the depth of
nested invocations: `none` is returned when it is exhausted. -/
def reveal_floodfill : Nat → Nat → Nat → Board → Nat → Nat → Option Board
  | 0, _, _, _, _, _ => none
  | fuel + 1, rows, cols, board, row, col =>
    offsets.foldlM (fun board drow =>
      offsets.foldlM (fun board dcol =>
        if dcol = 0 ∧ drow = 0 then some board
        else if !valid_pos rows cols (size_add row drow) (size_add col dcol) then some board
        else if is_revealed (board (size_add row drow) (size_add col dcol)) then some board
        else if get_number (board (size_add row drow) (size_add col dcol)) ≠ 0 then
          if is_flag (board (size_add row drow) (size_add col dcol)) then
            some (board.set (size_add row drow) (size_add col dcol)
              (board (size_add row drow) (size_add col dcol) ||| BIT_5))
          else
            some (board.set (size_add row drow) (size_add col dcol)
              (reveal_single (board (size_add row drow) (size_add col dcol))).2)
        else
          let board1 :=
            if is_flag (board (size_add row drow) (size_add col dcol)) then
              board.set (size_add row drow) (size_add col dcol)
                (board (size_add row drow) (size_add col dcol) ||| BIT_5)
            else
              board.set (size_add row drow) (size_add col dcol)
                (reveal_single (board (size_add row drow) (size_add col dcol))).2
          reveal_floodfill fuel rows cols board1 (size_add row drow) (size_add col dcol))
        board) board

/-- The function `reveal_cell`: the returned pair is the return value and the
board afterwards; `fuel` is passed to `reveal_floodfill`. -/
def reveal_cell (fuel rows cols : Nat) (board : Board) (row col : Nat) : Option (Int × Board) :=
  if row ≥ rows then some (-1, board)
  else if col ≥ cols then some (-1, board)
  else if is_revealed (board row col) || is_flag (board row col) then some (-1, board)
  else if get_number (board row col) ≠ 0 || is_mine (board row col) then
    some ((reveal_single (board row col)).1, board.set row col (reveal_single (board row col)).2)
  else
    (reveal_floodfill fuel rows cols board row col).map (fun b => (0, b))

/-- The mask `~(BIT_6)` restricted to the 16 bits of a cell. -/
def NOT_BIT_6 : Nat := 65503

/-- The counting loops of `flag_cell`: the state is the pair `(mins, flags)`. -/
def flag_count (rows cols : Nat) (board : Board) : Int × Int :=
  (List.range rows).foldl (fun st i =>
    (List.range cols).foldl (fun st j =>
      let mins := if is_mine (board i j) then wrap32 (st.1 + 1) else st.1
      let flags := if is_flag (board i j) then wrap32 (st.2 + 1) else st.2
      (mins, flags)) st) (0, 0)

/-- The function `flag_cell`: the returned pair is the return value and the
board afterwards. -/
def flag_cell (rows cols : Nat) (board : Board) (row col : Nat) : Int × Board :=
  if is_revealed (board row col) then (INT16_MIN, board)
  else
    let board1 :=
      if is_flag (board row col) then board.set row col (board row col &&& NOT_BIT_6)
      else board.set row col (board row col ||| BIT_6)
    let counts := flag_count rows cols board1
    (wrap32 (counts.1 - counts.2), board1)

/-- The counting loops of `is_solved`: the state is the pair `(unrevealed, mins)`. -/
def solved_count (rows cols : Nat) (board : Board) : Int × Int :=
  (List.range rows).foldl (fun st i =>
    (List.range cols).foldl (fun st j =>
      let unrevealed := if !is_revealed (board i j) then wrap32 (st.1 + 1) else st.1
      let mins := if is_mine (board i j) then wrap32 (st.2 + 1) else st.2
      (unrevealed, mins)) st) (0, 0)

/-- The function `is_solved`: the two counters are equal. -/
def is_solved (rows cols : Nat) (board : Board) : Bool :=
  decide ((solved_count rows cols board).2 = (solved_count rows cols board).1)

/-! ## Output functions -/

/-- The function `show_cell`: the returned character as its code; the cast
`(char)(get_neighbour_mins(cell) + '0')` keeps the low 8 bits. -/
def show_cell (cell : Nat) : Nat :=
  let val := get_val cell
  if is_mine cell && is_revealed cell then 77
  else if is_revealed cell then
    if get_neighbour_mins cell = 0 then 32
    else (get_neighbour_mins cell + 48) % 256
  else if is_flag cell then 70
  else if !is_revealed cell then 88
  else if isdigit val then val
  else if val = 46 then 32
  else val

/-! ## Loading a board -/

/-- The loop of `load_board`.  The list is what `getchar` returns from the
current character `ch` on, the empty list standing for `EOF`; the state is
`chars_to_load`, `row`, `col` and the board (`row` and `col` stay below `rows`
and `cols`, so their increments do not wrap); the result is `chars_to_load`
and the board when the loop is left. -/
def load_loop (cols : Nat) : List Nat → Nat → Nat → Nat → Board → Nat × Board
  | [], chars_to_load, _, _, board => (chars_to_load, board)
  | ch :: rest, chars_to_load, row, col, board =>
    if chars_to_load = 0 then (chars_to_load, board)
    else if !is_valid (toupper ch) then load_loop cols rest chars_to_load row col board
    else
      let status := (set_cell (board row col) ch).1
      let board1 := board.set row col (set_cell (board row col) ch).2
      let col1 := col + 1
      let row2 := if col1 ≥ cols then row + 1 else row
      let col2 := if col1 ≥ cols then 0 else col1
      load_loop cols rest (if status then chars_to_load - 1 else chars_to_load) row2 col2 board1

/-- The function `load_board` on the characters `input` of standard input: the
returned pair is the return value and the board afterwards. -/
def load_board (MIN_SIZE MAX_SIZE rows cols : Nat) (board : Board) (input : List Nat) :
    Int × Board :=
  let chars_to_load := (rows * cols) % 18446744073709551616
  let r := load_loop cols input chars_to_load 0 0 board
  if r.1 ≠ 0 then (-1, r.2) else postprocess MIN_SIZE MAX_SIZE rows cols r.2

/-! ## Generating a board -/

/-- The function `mine_already_planted`: the arrays `mine_rows` and
`mine_cols` are functions of the index, of which the first `index` entries are
compared with the new position. -/
def mine_already_planted (index : Nat) (mine_rows mine_cols : Nat → Nat)
    (new_row new_col : Nat) : Bool :=
  (List.range index).any (fun i => mine_rows i == new_row && mine_cols i == new_col)

/-- The sampling loop of `generate_random_board`.  Each element of the list is
the pair of results of the two consecutive calls of `rand` of one iteration;
the state is `index` and the two arrays.  There is no result when the draws
run out before `index` reaches `mines`. -/
def sample_loop (rows cols mines : Nat) :
    List (Nat × Nat) → Nat → (Nat → Nat) → (Nat → Nat) → Option ((Nat → Nat) × (Nat → Nat))
  | [], index, mine_rows, mine_cols =>
    if index < mines then none else some (mine_rows, mine_cols)
  | draw :: rest, index, mine_rows, mine_cols =>
    if ¬ index < mines then some (mine_rows, mine_cols)
    else
      let new_row := draw.1 % rows
      let new_col := draw.2 % cols
      if mine_already_planted index mine_rows mine_cols new_row new_col then
        sample_loop rows cols mines rest index mine_rows mine_cols
      else if new_row = 0 ∧ new_col = 0 then
        sample_loop rows cols mines rest index mine_rows mine_cols
      else if new_row = size_add rows (-1) ∧ new_col = 0 then
        sample_loop rows cols mines rest index mine_rows mine_cols
      else if new_row = size_add rows (-1) ∧ new_col = size_add cols (-1) then
        sample_loop rows cols mines rest index mine_rows mine_cols
      else if new_row = 0 ∧ new_col = size_add cols (-1) then
        sample_loop rows cols mines rest index mine_rows mine_cols
      else
        sample_loop rows cols mines rest (index + 1)
          (fun k => if k = index then new_row else mine_rows k)
          (fun k => if k = index then new_col else mine_cols k)

/-- The first loops of `generate_random_board`: `set_cell` with `'X'` on every cell. -/
def init_board (rows cols : Nat) (board : Board) : Board :=
  (List.range rows).foldl (fun b i =>
    (List.range cols).foldl (fun b j => b.set i j (set_cell (b i j) 88).2) b) board

/-- The last loop of `generate_random_board`: `set_cell` with `'M'` on the
sampled positions. -/
def plant_mines (mines : Nat) (mine_rows mine_cols : Nat → Nat) (board : Board) : Board :=
  (List.range mines).foldl (fun b i =>
    b.set (mine_rows i) (mine_cols i) (set_cell (b (mine_rows i) (mine_cols i)) 77).2) board

/-- The function `generate_random_board` on the sequence `draws` of pairs of
results of `rand`: the returned pair is the return value and the board
afterwards; there is no result when the sampling loop does not finish on
`draws`. -/
def generate_random_board (MIN_SIZE MAX_SIZE rows cols : Nat) (board : Board) (mines : Nat)
    (draws : List (Nat × Nat)) : Option (Int × Board) :=
  match sample_loop rows cols mines draws 0 (fun _ => 0) (fun _ => 0) with
  | none => none
  | some arrays =>
    some (postprocess MIN_SIZE MAX_SIZE rows cols
      (plant_mines mines arrays.1 arrays.2 (init_board rows cols board)))

/-! ## Sequences of player moves -/

/-- A call of `reveal_cell` or of `flag_cell` with its coordinates. -/
inductive Move where
  | reveal (row col : Nat) : Move
  | flag (row col : Nat) : Move

/-- The call has defined behaviour: `flag_cell` indexes the board without a
bounds check, so its coordinates must lie inside the grid. -/
def Move.defined (rows cols : Nat) : Move → Bool
  | Move.reveal _ _ => true
  | Move.flag row col => decide (row < rows) && decide (col < cols)

/-- The board after one call; there is none when the call has no defined
behaviour or when `reveal_cell` runs out of fuel. -/
def play_move (fuel rows cols : Nat) (board : Board) (m : Move) : Option Board :=
  if m.defined rows cols = false then none
  else
    match m with
    | Move.reveal row col => (reveal_cell fuel rows cols board row col).map Prod.snd
    | Move.flag row col => some (flag_cell rows cols board row col).2

/-- The revealed bit and the flag bit of the cell are both set. -/
def revealed_and_flagged (cell : Nat) : Bool :=
  is_revealed cell && is_flag cell

/-- The board after a sequence of calls. -/
def play (fuel rows cols : Nat) (board : Board) (moves : List Move) : Option Board :=
  moves.foldlM (play_move fuel rows cols) board

/-! ## Concrete boards -/

/-- The character code at row `i`, column `j` of `codes` (`'X'` outside). -/
def code_at (codes : List (List Nat)) (i j : Nat) : Nat :=
  (codes.getD i []).getD j 88

/-- The board holding `set_cell` of each character code of `codes`, row by row. -/
def board_of (codes : List (List Nat)) : Board :=
  fun i j => (set_cell 0 (code_at codes i j)).2

/-- A 5 x 5 board as loaded from the characters
`XXMXX / XXXXX / MXXXM / XXXXX / XXMXX`. -/
def ring_codes : List (List Nat) :=
  [[88, 88, 77, 88, 88], [88, 88, 88, 88, 88], [77, 88, 88, 88, 77],
   [88, 88, 88, 88, 88], [88, 88, 77, 88, 88]]

/-- The board of `ring_codes` before validation. -/
def ring_board : Board := board_of ring_codes

/-- A 3 x 3 board as loaded from the characters `111 / 1MX / 111`. -/
def small_codes : List (List Nat) :=
  [[49, 49, 49], [49, 77, 88], [49, 49, 49]]

/-- The board of `small_codes` after validation by `postprocess` (which returns 1). -/
def small_validated : Board := (postprocess 3 99 3 3 (board_of small_codes)).2

/-- The board holding the cell values `cells`, row by row (0 outside). -/
def board_of_cells (cells : List (List Nat)) : Board :=
  fun i j => (cells.getD i []).getD j 0

/-- The board `small_validated` after `reveal_cell` on the mine `(1, 1)`: every
cell is revealed except the non-mine cell `(1, 2)`. -/
def small_lost : Board :=
  board_of_cells [[12561, 12561, 12561], [12561, 19728, 22529], [12561, 12561, 12561]]

/-- A 3 x 3 board as loaded from the characters `XMX / XXX / XXX`. -/
def top_codes : List (List Nat) :=
  [[88, 77, 88], [88, 88, 88], [88, 88, 88]]

/-- The board of `top_codes` after validation by `postprocess` (which returns 1):
the cells of the last row have count 0. -/
def top_validated : Board := (postprocess 3 99 3 3 (board_of top_codes)).2

/-- The board `ring_board` after validation by `postprocess` (which returns 4):
the cell `(2, 2)` has count 0 and each of its 8 neighbours has a nonzero count. -/
def ring_validated : Board := (postprocess 3 99 5 5 ring_board).2

/-- The board `top_validated` after `set_cell(&board[1][0], 'M')`: the
neighbour counts stored by the first `postprocess` are still in the cells. -/
def replanted_board : Board :=
  top_validated.set 1 0 (set_cell (top_validated 1 0) 77).2

/-- A 3 x 3 board as loaded from the characters `XXX / XXX / XX5`: no mine, and
the revealed digit at `(2, 2)` differs from its true count 0. -/
def mineless_wrong_digit_codes : List (List Nat) :=
  [[88, 88, 88], [88, 88, 88], [88, 88, 53]]

/-! ## Specification-level definitions -/

/-- The positions of a `rows` x `cols` grid, in row-major order. -/
def positions (rows cols : Nat) : List (Nat × Nat) :=
  List.range rows ×ˢ List.range cols

/-- The pairs `(dr, dc)` of `{-1, 0, 1}^2` other than `(0, 0)`. -/
def neighbour_offsets : List (Int × Int) :=
  [(-1, -1), (-1, 0), (-1, 1), (0, -1), (0, 1), (1, -1), (1, 0), (1, 1)]

/-- The position `(i + d.1, j + d.2)`, computed in the integers without
wraparound, lies inside the grid and holds a mine. -/
def mine_at_offset (rows cols : Nat) (board : Board) (i j : Nat) (d : Int × Int) : Bool :=
  decide (0 ≤ (i : Int) + d.1) && decide ((i : Int) + d.1 < (rows : Int)) &&
  decide (0 ≤ (j : Int) + d.2) && decide ((j : Int) + d.2 < (cols : Int)) &&
  is_mine (board ((i : Int) + d.1).toNat ((j : Int) + d.2).toNat)

/-- The true neighbour-mine count of `(i, j)`: the number of in-bounds
positions among its up-to-8 neighbours whose cell is a mine. -/
def adjacent_mines (rows cols : Nat) (board : Board) (i j : Nat) : Nat :=
  neighbour_offsets.countP (mine_at_offset rows cols board i j)

/-- The number of cells of the grid whose value is `'M'`. -/
def mine_total (rows cols : Nat) (board : Board) : Nat :=
  (positions rows cols).countP (fun p => is_mine (board p.1 p.2))

/-- The number of cells of the grid whose flag bit is set. -/
def flag_total (rows cols : Nat) (board : Board) : Nat :=
  (positions rows cols).countP (fun p => is_flag (board p.1 p.2))

/-- The number of cells of the grid whose revealed bit is clear. -/
def unrevealed_total (rows cols : Nat) (board : Board) : Nat :=
  (positions rows cols).countP (fun p => !is_revealed (board p.1 p.2))

/-- The revealed cell at `(i, j)` carries a digit that differs from `count i j`. -/
def digit_differs (board : Board) (count : Nat → Nat → Nat) (i j : Nat) : Bool :=
  is_revealed (board i j) && isdigit (get_val (board i j)) &&
    decide ((get_val (board i j) : Int) - 48 ≠ (count i j : Int))

/-- One of `rows`, `cols` lies outside `[MIN_SIZE, MAX_SIZE]`. -/
def size_out_of_range (MIN_SIZE MAX_SIZE rows cols : Nat) : Bool :=
  decide (rows < MIN_SIZE) || decide (rows > MAX_SIZE) ||
    decide (cols < MIN_SIZE) || decide (cols > MAX_SIZE)

/-- One of the four corner cells of the grid is a mine. -/
def corner_mine (rows cols : Nat) (board : Board) : Bool :=
  is_mine (board 0 0) || is_mine (board (rows - 1) 0) ||
    is_mine (board 0 (cols - 1)) || is_mine (board (rows - 1) (cols - 1))

/-- Some revealed cell of the grid carries a digit that differs from its true
neighbour-mine count. -/
def digit_mismatch (rows cols : Nat) (board : Board) : Prop :=
  ∃ i < rows, ∃ j < cols, digit_differs board (adjacent_mines rows cols board) i j = true

/-- The characters of the input whose upper-case code is in the vocabulary. -/
def valid_chars (input : List Nat) : List Nat :=
  input.filter (fun c => is_valid (toupper c))

/-- The board in which, for each `k` below the length of `valid`, the position
number `base + k` in row-major order (row `(base + k) / cols`, column
`(base + k) % cols`) holds `set_cell` of the `k`-th character of `valid`. -/
def grid_from (cols : Nat) (board : Board) (base : Nat) (valid : List Nat) : Board :=
  fun r c =>
    if c < cols ∧ base ≤ r * cols + c ∧ r * cols + c < base + valid.length then
      (set_cell 0 (valid.getD (r * cols + c - base) 0)).2
    else board r c

/-! ## Auxiliary definitions used in the proofs -/

/-- The board in which every position of `L` holds its cell of `b0` with the
result of `get_mins` on `b0` or-ed in, and every other position its cell of `b`. -/
def counts_written (rows cols : Nat) (b0 b : Board) (L : List (Nat × Nat)) : Board :=
  fun r c => if (r, c) ∈ L then b0 r c ||| get_mins rows cols r c b0 else b r c

/-- The pairs `(drow, dcol)` in the order in which the nested loops visit them. -/
def offset_pairs : List (Int × Int) :=
  [(-1, -1), (-1, 0), (-1, 1), (0, -1), (0, 0), (0, 1), (1, -1), (1, 0), (1, 1)]

/-- The body of the loops of `reveal_floodfill` at the offset `d`, with the
nested invocation running on `fuel`. -/
def floodfill_step (fuel rows cols row col : Nat) (board : Board) (d : Int × Int) : Option Board :=
  if d = (0, 0) then some board
  else if valid_pos rows cols (size_add row d.1) (size_add col d.2) = false then some board
  else if is_revealed (board (size_add row d.1) (size_add col d.2)) = true then some board
  else if get_number (board (size_add row d.1) (size_add col d.2)) ≠ 0 then
    some (board.set (size_add row d.1) (size_add col d.2)
      (board (size_add row d.1) (size_add col d.2) ||| 16))
  else
    reveal_floodfill fuel rows cols
      (board.set (size_add row d.1) (size_add col d.2)
        (board (size_add row d.1) (size_add col d.2) ||| 16))
      (size_add row d.1) (size_add col d.2)

/-- The body of the loops of `reveal_floodfill` with a log: before each nested
invocation the position it starts from and the content of that cell when it
was examined are appended to the log. -/
def traced_step (rows cols row col : Nat)
    (nested : Board × List (Nat × Nat × Nat) → Nat → Nat → Option (Board × List (Nat × Nat × Nat)))
    (st : Board × List (Nat × Nat × Nat)) (d : Int × Int) :
    Option (Board × List (Nat × Nat × Nat)) :=
  if d = (0, 0) then some st
  else if valid_pos rows cols (size_add row d.1) (size_add col d.2) = false then some st
  else if is_revealed (st.1 (size_add row d.1) (size_add col d.2)) = true then some st
  else if get_number (st.1 (size_add row d.1) (size_add col d.2)) ≠ 0 then
    some (st.1.set (size_add row d.1) (size_add col d.2)
      (st.1 (size_add row d.1) (size_add col d.2) ||| 16), st.2)
  else
    nested
      (st.1.set (size_add row d.1) (size_add col d.2)
        (st.1 (size_add row d.1) (size_add col d.2) ||| 16),
       st.2 ++ [(size_add row d.1, size_add col d.2,
          st.1 (size_add row d.1) (size_add col d.2))])
      (size_add row d.1) (size_add col d.2)

/-- The cascade `reveal_floodfill` run on a board paired with a log of its
nested invocations. -/
def reveal_floodfill_traced (rows cols : Nat) :
    Nat → Board × List (Nat × Nat × Nat) → Nat → Nat → Option (Board × List (Nat × Nat × Nat))
  | 0, _, _, _ => none
  | fuel + 1, st, row, col =>
    offset_pairs.foldlM
      (traced_step rows cols row col (reveal_floodfill_traced rows cols fuel)) st

/-- The log grows by one entry per nested invocation, each paid for by a cell
that was unrevealed when examined and is revealed before the invocation. -/
def log_bounded (rows cols : Nat) (st st' : Board × List (Nat × Nat × Nat)) : Prop :=
  st'.2.length + unrevealed_total rows cols st'.1 ≤ st.2.length + unrevealed_total rows cols st.1 ∧
  ∀ e ∈ st'.2, e ∈ st.2 ∨ (e.1 < rows ∧ e.2.1 < cols ∧ is_revealed e.2.2 = false)

/-- The number of cells of the grid that are revealed in `b2` and were not in `b1`. -/
def newly_revealed (rows cols : Nat) (b1 b2 : Board) : Nat :=
  (positions rows cols).countP (fun p => is_revealed (b2 p.1 p.2) && !is_revealed (b1 p.1 p.2))

/-- Every cell of `b2` is its cell of `b1`, or is a cell of the grid that was
unrevealed in `b1` with the revealed bit set. -/
def reveals (rows cols : Nat) (b1 b2 : Board) : Prop :=
  ∀ r c, b2 r c = b1 r c ∨
    (r < rows ∧ c < cols ∧ is_revealed (b1 r c) = false ∧ b2 r c = b1 r c ||| 16)

/-- The body of the loops of `get_mins` for an offset other than `(0, 0)`. -/
def mins_step (rows cols i j : Nat) (board : Board) (acc : Int) (d : Int × Int) : Int :=
  if !valid_pos rows cols (size_add i d.1) (size_add j d.2) then acc
  else if get_val (board (size_add i d.1) (size_add j d.2)) = 77 then wrap32 (acc + 1)
  else acc

/-- The body of a loop that counts, in two `int` counters, the positions
satisfying `p` and the positions satisfying `q`. -/
def count_step (p q : Nat × Nat → Bool) (st : Int × Int) (x : Nat × Nat) : Int × Int :=
  (if p x then wrap32 (st.1 + 1) else st.1, if q x then wrap32 (st.2 + 1) else st.2)

/-- The condition under which `get_mins` counts the offset `d`. -/
def mins_counts (rows cols i j : Nat) (board : Board) (d : Int × Int) : Bool :=
  valid_pos rows cols (size_add i d.1) (size_add j d.2) &&
  is_mine (board (size_add i d.1) (size_add j d.2))

/-- The first `index` sampled positions lie inside the grid, are no corners
and are pairwise distinct. -/
def sampled_ok (rows cols index : Nat) (mine_rows mine_cols : Nat → Nat) : Prop :=
  ∀ k < index, mine_rows k < rows ∧ mine_cols k < cols ∧
    ¬ (mine_rows k = 0 ∧ mine_cols k = 0) ∧
    ¬ (mine_rows k = rows - 1 ∧ mine_cols k = 0) ∧
    ¬ (mine_rows k = rows - 1 ∧ mine_cols k = cols - 1) ∧
    ¬ (mine_rows k = 0 ∧ mine_cols k = cols - 1) ∧
    ∀ l < k, ¬ (mine_rows l = mine_rows k ∧ mine_cols l = mine_cols k)

/-! ## The cascade with an arbitrary scan order, and the zero region -/

/-- The body of the loops of `reveal_floodfill` at the offset `d`, with the
nested invocation given as `nested`. -/
def order_step (rows cols row col : Nat) (nested : Board → Nat → Nat → Option Board)
    (board : Board) (d : Int × Int) : Option Board :=
  if d = (0, 0) then some board
  else if valid_pos rows cols (size_add row d.1) (size_add col d.2) = false then some board
  else if is_revealed (board (size_add row d.1) (size_add col d.2)) = true then some board
  else if get_number (board (size_add row d.1) (size_add col d.2)) ≠ 0 then
    some (board.set (size_add row d.1) (size_add col d.2)
      (board (size_add row d.1) (size_add col d.2) ||| 16))
  else
    nested
      (board.set (size_add row d.1) (size_add col d.2)
        (board (size_add row d.1) (size_add col d.2) ||| 16))
      (size_add row d.1) (size_add col d.2)

/-- The cascade `reveal_floodfill` with its neighbours scanned in the order
`order` instead of the order of the two nested loops. -/
def reveal_floodfill_order (order : List (Int × Int)) (rows cols : Nat) :
    Nat → Board → Nat → Nat → Option Board
  | 0, _, _, _ => none
  | fuel + 1, board, row, col =>
    order.foldlM (order_step rows cols row col (reveal_floodfill_order order rows cols fuel)) board

/-- The positions `p` and `q` are 8-adjacent: distinct, with rows and columns
at most 1 apart. -/
def adjacent8 (p q : Nat × Nat) : Prop :=
  p ≠ q ∧ p.1 ≤ q.1 + 1 ∧ q.1 ≤ p.1 + 1 ∧ p.2 ≤ q.2 + 1 ∧ q.2 ≤ p.2 + 1

/-- The position `q` is a cell of the grid that is unrevealed in `board` and
has `get_number` 0. -/
def passable (rows cols : Nat) (board : Board) (q : Nat × Nat) : Prop :=
  q.1 < rows ∧ q.2 < cols ∧ is_revealed (board q.1 q.2) = false ∧ get_number (board q.1 q.2) = 0

/-- The set Z of a start cell: the cells reachable from the start (start
included) by 8-adjacent steps through cells that are unrevealed in `board` and
have `get_number` 0. -/
inductive zero_region (rows cols : Nat) (board : Board) (start : Nat × Nat) : Nat × Nat → Prop
  | base : zero_region rows cols board start start
  | step (p q : Nat × Nat) : zero_region rows cols board start p → adjacent8 p q →
      passable rows cols board q → zero_region rows cols board start q

/-- The position `q` is a cell of the grid, unrevealed in `board`, that is
8-adjacent to some cell of the set Z of `start`. -/
def cascade_reaches (rows cols : Nat) (board : Board) (start q : Nat × Nat) : Prop :=
  q.1 < rows ∧ q.2 < cols ∧ is_revealed (board q.1 q.2) = false ∧
    ∃ z, zero_region rows cols board start z ∧ adjacent8 z q

/-- All cells of the grid that are 8-adjacent to `p` are revealed in `board`. -/
def neighbours_revealed (rows cols : Nat) (board : Board) (p : Nat × Nat) : Prop :=
  ∀ q : Nat × Nat, q.1 < rows → q.2 < cols → adjacent8 p q → is_revealed (board q.1 q.2) = true

/-! # Theorems -/

/-! ## Bit-level facts about cells -/

theorem and_or_right (x y z : Nat) : (x ||| y) &&& z = (x &&& z) ||| (y &&& z) := by
  apply Nat.eq_of_testBit_eq
  intro i
  simp only [Nat.testBit_and, Nat.testBit_or]
  cases x.testBit i <;> cases y.testBit i <;> cases z.testBit i <;> rfl

theorem shr_or (x y i : Nat) : (x ||| y) >>> i = (x >>> i) ||| (y >>> i) := by
  apply Nat.eq_of_testBit_eq
  intro j
  simp only [Nat.testBit_shiftRight, Nat.testBit_or]

theorem small_and_16 (k : Nat) (hk : k < 16) : k &&& 16 = 0 := by
  interval_cases k <;> rfl

theorem small_and_32 (k : Nat) (hk : k < 32) : k &&& 32 = 0 := by
  interval_cases k <;> rfl

theorem small_and_15 (k : Nat) (hk : k < 16) : k &&& 15 = k := by
  interval_cases k <;> rfl

theorem small_shift (k : Nat) (hk : k < 256) : k >>> 8 = 0 := by
  rw [Nat.shiftRight_eq_div_pow]; exact Nat.div_eq_of_lt (by simpa using hk)

theorem get_val_or (c k : Nat) (hk : k < 256) : get_val (c ||| k) = get_val c := by
  unfold get_val E_BITS
  rw [shr_or, small_shift k hk, Nat.or_zero]

theorem is_mine_or (c k : Nat) (hk : k < 256) : is_mine (c ||| k) = is_mine c := by
  unfold is_mine; rw [get_val_or c k hk]

theorem is_revealed_or (c k : Nat) (hk : k < 16) : is_revealed (c ||| k) = is_revealed c := by
  unfold is_revealed BIT_5
  rw [and_or_right, small_and_16 k hk, Nat.or_zero]

theorem is_flag_or (c k : Nat) (hk : k < 32) : is_flag (c ||| k) = is_flag c := by
  unfold is_flag BIT_6
  rw [and_or_right, small_and_32 k hk, Nat.or_zero]

theorem mins_or (c k : Nat) (hk : k < 16) :
    get_neighbour_mins (c ||| k) = get_neighbour_mins c ||| k := by
  unfold get_neighbour_mins LOWER_4_BITS
  rw [and_or_right, small_and_15 k hk]

theorem and_two_pow_ne_zero (c n : Nat) : (c &&& 2 ^ n != 0) = c.testBit n := by
  cases h : c.testBit n
  · have : c &&& 2 ^ n = 0 := by
      apply Nat.eq_of_testBit_eq
      intro i
      rw [Nat.testBit_and, Nat.testBit_two_pow, Nat.zero_testBit]
      by_cases hi : n = i
      · subst hi; simp [h]
      · simp [hi]
    simp [this]
  · have : (c &&& 2 ^ n).testBit n = true := by
      rw [Nat.testBit_and, Nat.testBit_two_pow, h]; simp
    have h0 : c &&& 2 ^ n ≠ 0 := by
      intro h0
      rw [h0, Nat.zero_testBit] at this
      exact Bool.noConfusion this
    simpa using h0

theorem is_revealed_testBit (c : Nat) : is_revealed c = c.testBit 4 :=
  and_two_pow_ne_zero c 4

theorem is_flag_testBit (c : Nat) : is_flag c = c.testBit 5 :=
  and_two_pow_ne_zero c 5

theorem is_revealed_or16 (c : Nat) : is_revealed (c ||| 16) = true := by
  rw [is_revealed_testBit, Nat.testBit_or]
  have : (16 : Nat).testBit 4 = true := by decide
  rw [this, Bool.or_true]

theorem is_flag_or16 (c : Nat) : is_flag (c ||| 16) = is_flag c := is_flag_or c 16 (by norm_num)

theorem mins_or16 (c : Nat) : get_neighbour_mins (c ||| 16) = get_neighbour_mins c := by
  unfold get_neighbour_mins LOWER_4_BITS
  rw [and_or_right]
  have : (16 : Nat) &&& 15 = 0 := rfl
  rw [this, Nat.or_zero]

theorem is_revealed_or32 (c : Nat) : is_revealed (c ||| 32) = is_revealed c := by
  unfold is_revealed BIT_5
  rw [and_or_right]
  have : (32 : Nat) &&& 16 = 0 := rfl
  rw [this, Nat.or_zero]

theorem is_flag_or32 (c : Nat) : is_flag (c ||| 32) = true := by
  rw [is_flag_testBit, Nat.testBit_or]
  have : (32 : Nat).testBit 5 = true := by decide
  rw [this, Bool.or_true]

theorem get_val_or32 (c : Nat) : get_val (c ||| 32) = get_val c := get_val_or c 32 (by norm_num)

theorem mins_or32 (c : Nat) : get_neighbour_mins (c ||| 32) = get_neighbour_mins c := by
  unfold get_neighbour_mins LOWER_4_BITS
  rw [and_or_right]
  have : (32 : Nat) &&& 15 = 0 := rfl
  rw [this, Nat.or_zero]

theorem testBit_65503 (i : Nat) : (65503 : Nat).testBit i = (decide (i < 16) && decide (i ≠ 5)) := by
  by_cases hi : i < 16
  · interval_cases i <;> decide
  · have h1 : (65503 : Nat) < 2 ^ i :=
      lt_of_lt_of_le (by norm_num : (65503 : Nat) < 2 ^ 16) (Nat.pow_le_pow_right (by norm_num) (by omega))
    rw [Nat.testBit_lt_two_pow h1]
    simp [hi]

theorem testBit_cell_high (c i : Nat) (hc : c < 65536) (hi : 16 ≤ i) : c.testBit i = false :=
  Nat.testBit_lt_two_pow (lt_of_lt_of_le hc (by
    have : (65536 : Nat) = 2 ^ 16 := rfl
    rw [this]; exact Nat.pow_le_pow_right (by norm_num) hi))

theorem testBit_32 (i : Nat) : (32 : Nat).testBit i = decide (5 = i) := by
  have : (32 : Nat) = 2 ^ 5 := rfl
  rw [this, Nat.testBit_two_pow]

/-- On an unflagged cell, setting the flag bit is the exclusive or with 32. -/
theorem or32_eq_xor (c : Nat) (h : is_flag c = false) : c ||| 32 = c ^^^ 32 := by
  rw [is_flag_testBit] at h
  apply Nat.eq_of_testBit_eq
  intro i
  rw [Nat.testBit_or, Nat.testBit_xor, testBit_32]
  by_cases hi : 5 = i
  · subst hi; simp [h]
  · simp [hi]

/-- On a flagged 16-bit cell, clearing the flag bit is the exclusive or with 32. -/
theorem and_not_eq_xor (c : Nat) (hc : c < 65536) (h : is_flag c = true) :
    c &&& 65503 = c ^^^ 32 := by
  rw [is_flag_testBit] at h
  apply Nat.eq_of_testBit_eq
  intro i
  rw [Nat.testBit_and, Nat.testBit_xor, testBit_32, testBit_65503]
  by_cases hi : 5 = i
  · subst hi; simp [h]
  · by_cases h16 : i < 16
    · have : i ≠ 5 := fun e => hi e.symm
      simp [hi, h16, this]
    · simp [hi, h16, testBit_cell_high c i hc (by omega)]

theorem xor32_xor32 (c : Nat) : (c ^^^ 32) ^^^ 32 = c := by
  rw [Nat.xor_assoc, Nat.xor_self, Nat.xor_zero]

theorem is_flag_xor32 (c : Nat) : is_flag (c ^^^ 32) = !is_flag c := by
  rw [is_flag_testBit, is_flag_testBit, Nat.testBit_xor]
  have : (32 : Nat).testBit 5 = true := by decide
  rw [this]; cases c.testBit 5 <;> rfl

theorem is_revealed_xor32 (c : Nat) : is_revealed (c ^^^ 32) = is_revealed c := by
  rw [is_revealed_testBit, is_revealed_testBit, Nat.testBit_xor]
  have : (32 : Nat).testBit 4 = false := by decide
  rw [this]; cases c.testBit 4 <;> rfl

theorem get_val_xor32 (c : Nat) : get_val (c ^^^ 32) = get_val c := by
  unfold get_val E_BITS
  apply Nat.eq_of_testBit_eq
  intro i
  rw [Nat.testBit_shiftRight, Nat.testBit_shiftRight, Nat.testBit_xor, testBit_32]
  have : ¬ (5 = 8 + i) := by omega
  simp [this]

theorem xor32_lt (c : Nat) (hc : c < 65536) : c ^^^ 32 < 65536 := by
  have : (65536 : Nat) = 2 ^ 16 := rfl
  rw [this] at hc ⊢
  exact Nat.xor_lt_two_pow hc (by norm_num)

/-! ## The neighbour scan -/

theorem wrap32_id (x : Int) (h0 : -2147483648 ≤ x) (h1 : x < 2147483648) : wrap32 x = x := by
  unfold wrap32; omega

theorem get_mins_eq_fold (rows cols i j : Nat) (board : Board) :
    get_mins rows cols i j board =
      ((neighbour_offsets.foldl (mins_step rows cols i j board) 0) % 256).toNat := by
  rfl

theorem mins_fold_count (rows cols i j : Nat) (board : Board) (L : List (Int × Int)) :
    ∀ acc : Int, 0 ≤ acc → acc + L.length < 2147483648 →
      L.foldl (mins_step rows cols i j board) acc
        = acc + (L.countP (mins_counts rows cols i j board) : Nat) := by
  induction L with
  | nil => intro acc _ _; simp
  | cons d L ih =>
    intro acc h0 h1
    rw [List.foldl_cons, List.countP_cons]
    simp only [List.length_cons, Nat.cast_add, Nat.cast_one] at h1
    by_cases hv : valid_pos rows cols (size_add i d.1) (size_add j d.2) = true
    · by_cases hm : get_val (board (size_add i d.1) (size_add j d.2)) = 77
      · have hs : mins_step rows cols i j board acc d = acc + 1 := by
          simp only [mins_step, hv, hm]
          simpa using wrap32_id (acc + 1) (by omega) (by omega)
        have hc : mins_counts rows cols i j board d = true := by simp [mins_counts, is_mine, hv, hm]
        rw [hs, ih (acc + 1) (by omega) (by omega), hc]
        simp; ring
      · have hs : mins_step rows cols i j board acc d = acc := by
          simp [mins_step, hv, hm]
        have hc : mins_counts rows cols i j board d = false := by simp [mins_counts, is_mine, hv, hm]
        rw [hs, ih acc h0 (by omega), hc]
        simp
    · have hs : mins_step rows cols i j board acc d = acc := by
        simp [mins_step, hv]
      have hc : mins_counts rows cols i j board d = false := by simp [mins_counts, hv]
      rw [hs, ih acc h0 (by omega), hc]
      simp

theorem get_mins_eq_countP (rows cols i j : Nat) (board : Board) :
    get_mins rows cols i j board = neighbour_offsets.countP (mins_counts rows cols i j board) := by
  rw [get_mins_eq_fold, mins_fold_count rows cols i j board neighbour_offsets 0 (le_refl 0)
    (by simp [neighbour_offsets])]
  have h8 : neighbour_offsets.countP (mins_counts rows cols i j board) ≤ 8 :=
    List.countP_le_length _
  omega

theorem get_mins_le (rows cols i j : Nat) (board : Board) : get_mins rows cols i j board ≤ 8 := by
  rw [get_mins_eq_countP]
  exact List.countP_le_length _

theorem size_add_valid (n i : Nat) (d : Int) (hd : d = -1 ∨ d = 0 ∨ d = 1)
    (hi : i < n) (hn : n < 18446744073709551616) :
    (size_add i d < n ↔ (0 ≤ (i : Int) + d ∧ (i : Int) + d < (n : Int))) ∧
    ((0 ≤ (i : Int) + d ∧ (i : Int) + d < (n : Int)) → size_add i d = ((i : Int) + d).toNat) := by
  unfold size_add
  norm_num
  rcases hd with h | h | h <;> subst h <;> omega

theorem mins_counts_eq (rows cols i j : Nat) (board : Board)
    (hi : i < rows) (hj : j < cols)
    (hr : rows < 18446744073709551616) (hc : cols < 18446744073709551616)
    (d : Int × Int) (hd : d ∈ neighbour_offsets) :
    mins_counts rows cols i j board d = mine_at_offset rows cols board i j d := by
  have h1 : d.1 = -1 ∨ d.1 = 0 ∨ d.1 = 1 := by
    simp [neighbour_offsets] at hd
    rcases hd with h | h | h | h | h | h | h | h <;> subst h <;> simp
  have h2 : d.2 = -1 ∨ d.2 = 0 ∨ d.2 = 1 := by
    simp [neighbour_offsets] at hd
    rcases hd with h | h | h | h | h | h | h | h <;> subst h <;> simp
  obtain ⟨a1, a2⟩ := size_add_valid rows i d.1 h1 hi hr
  obtain ⟨b1, b2⟩ := size_add_valid cols j d.2 h2 hj hc
  unfold mins_counts mine_at_offset valid_pos
  by_cases ha : 0 ≤ (i : Int) + d.1 ∧ (i : Int) + d.1 < (rows : Int)
  · by_cases hb : 0 ≤ (j : Int) + d.2 ∧ (j : Int) + d.2 < (cols : Int)
    · rw [a2 ha, b2 hb] at *
      simp [ha.1, ha.2, hb.1, hb.2, a1.mpr ha, b1.mpr hb]
    · have : ¬ size_add j d.2 < cols := fun h => hb (b1.mp h)
      have hb2 : ¬ (0 ≤ (j : Int) + d.2 ∧ (j : Int) + d.2 < (cols : Int)) := hb
      simp only [this, decide_False, Bool.and_false, Bool.false_and]
      rw [not_and] at hb2
      by_cases h0 : 0 ≤ (j : Int) + d.2
      · simp [hb2 h0]
      · simp [h0]
  · have : ¬ size_add i d.1 < rows := fun h => ha (a1.mp h)
    simp only [this, decide_False, Bool.false_and]
    rw [not_and] at ha
    by_cases h0 : 0 ≤ (i : Int) + d.1
    · simp [ha h0]
    · simp [h0]

/-- The neighbour scan `get_mins` returns the true neighbour-mine count. -/
theorem get_mins_eq_adjacent (rows cols i j : Nat) (board : Board)
    (hi : i < rows) (hj : j < cols)
    (hr : rows < 18446744073709551616) (hc : cols < 18446744073709551616) :
    get_mins rows cols i j board = adjacent_mines rows cols board i j := by
  rw [get_mins_eq_countP]
  unfold adjacent_mines
  exact List.countP_congr (fun d hd => by
    rw [mins_counts_eq rows cols i j board hi hj hr hc d hd])

theorem get_mins_congr (rows cols i j : Nat) (b1 b2 : Board)
    (h : ∀ r c, get_val (b1 r c) = get_val (b2 r c)) :
    get_mins rows cols i j b1 = get_mins rows cols i j b2 := by
  rw [get_mins_eq_countP, get_mins_eq_countP]
  congr 1
  funext d
  simp [mins_counts, is_mine, h]

/-! ## The validator `postprocess` -/

theorem foldlM_product {m : Type → Type} [Monad m] [LawfulMonad m] {σ α β : Type}
    (f : α → β → σ → m σ) (xs : List α) (ys : List β) :
    ∀ init : σ, xs.foldlM (fun s x => ys.foldlM (fun s y => f x y s) s) init
      = (xs ×ˢ ys).foldlM (fun s p => f p.1 p.2 s) init := by
  induction xs with
  | nil => intro init; rfl
  | cons x xs ih =>
    intro init
    rw [List.product_cons, List.foldlM_append, List.foldlM_cons, List.foldlM_map]
    congr 1
    funext s
    exact ih s

theorem foldl_product {σ α β : Type} (f : α → β → σ → σ) (xs : List α) (ys : List β) :
    ∀ init : σ, xs.foldl (fun s x => ys.foldl (fun s y => f x y s) s) init
      = (xs ×ˢ ys).foldl (fun s p => f p.1 p.2 s) init := by
  induction xs with
  | nil => intro init; rfl
  | cons x xs ih =>
    intro init
    rw [List.product_cons, List.foldl_append, List.foldl_cons, List.foldl_map]
    exact ih _

theorem mem_positions (rows cols r c : Nat) : (r, c) ∈ positions rows cols ↔ r < rows ∧ c < cols := by
  unfold positions
  rw [List.mem_product, List.mem_range, List.mem_range]

theorem nodup_positions (rows cols : Nat) : (positions rows cols).Nodup :=
  List.Nodup.product (List.nodup_range rows) (List.nodup_range cols)

theorem length_positions (rows cols : Nat) : (positions rows cols).length = rows * cols := by
  unfold positions
  rw [List.length_product, List.length_range, List.length_range]

theorem postprocess_body_eq (rows cols i j : Nat) (b0 : Board) (st : Int × Board)
    (hval : ∀ r c, get_val (st.2 r c) = get_val (b0 r c)) (hij : st.2 i j = b0 i j) :
    postprocess_body rows cols i j st =
      if digit_differs b0 (fun r c => get_mins rows cols r c b0) i j then Except.error st.2
      else Except.ok (if is_mine (b0 i j) then wrap32 (st.1 + 1) else st.1,
        st.2.set i j (b0 i j ||| get_mins rows cols i j b0)) := by
  unfold postprocess_body digit_differs
  rw [get_mins_congr rows cols i j st.2 b0 hval, hij]

/-- The loops of `postprocess` over positions not yet visited, none of which
holds a mismatching digit: the counter grows by the number of mines and each
position receives its neighbour count. -/
theorem postprocess_fold_ok (rows cols : Nat) (b0 : Board) (L : List (Nat × Nat)) :
    ∀ st : Int × Board, L.Nodup →
      (∀ r c, get_val (st.2 r c) = get_val (b0 r c)) →
      (∀ p ∈ L, st.2 p.1 p.2 = b0 p.1 p.2) →
      0 ≤ st.1 → st.1 + L.length < 2147483648 →
      (∀ p ∈ L, digit_differs b0 (fun r c => get_mins rows cols r c b0) p.1 p.2 = false) →
      L.foldlM (fun st p => postprocess_body rows cols p.1 p.2 st) st
        = Except.ok (st.1 + (L.countP (fun p => is_mine (b0 p.1 p.2)) : Nat),
            counts_written rows cols b0 st.2 L) := by
  induction L with
  | nil =>
    intro st _ _ _ _ _ _
    simp [counts_written]
    rfl
  | cons p L ih =>
    intro st hnd hval hL h0 h1 hd
    obtain ⟨i, j⟩ := p
    rw [List.foldlM_cons, postprocess_body_eq rows cols i j b0 st hval (hL (i, j) (List.mem_cons_self _ _))]
    have hdp := hd (i, j) (List.mem_cons_self _ _)
    simp only at hdp
    rw [hdp]
    simp only [Bool.false_eq_true, if_false]
    simp only [List.length_cons, Nat.cast_add, Nat.cast_one] at h1
    have hnotin : (i, j) ∉ L := (List.nodup_cons.mp hnd).1
    have hset : ∀ r c, (r, c) ≠ (i, j) →
        (st.2.set i j (b0 i j ||| get_mins rows cols i j b0)) r c = st.2 r c := by
      intro r c hne
      unfold Board.set
      rw [if_neg]
      intro h; exact hne (by rw [h.1, h.2])
    have hk : get_mins rows cols i j b0 < 256 := lt_of_le_of_lt (get_mins_le _ _ _ _ _) (by norm_num)
    have step := ih
      (if is_mine (b0 i j) then wrap32 (st.1 + 1) else st.1,
        st.2.set i j (b0 i j ||| get_mins rows cols i j b0))
      (List.nodup_cons.mp hnd).2
      (by
        intro r c
        by_cases hrc : (r, c) = (i, j)
        · have hr : r = i := congrArg Prod.fst hrc
          have hc : c = j := congrArg Prod.snd hrc
          subst hr; subst hc
          simp only [Board.set, and_self, if_true]
          exact get_val_or _ _ hk
        · simp only [hset r c hrc]; exact hval r c)
      (by
        intro q hq
        have hne : (q.1, q.2) ≠ (i, j) := by
          intro h; apply hnotin; rw [← h]; exact hq
        simp only [hset q.1 q.2 hne]
        exact hL q (List.mem_cons_of_mem _ hq))
      (by
        simp only
        split
        · rw [wrap32_id _ (by omega) (by omega)]; omega
        · exact h0)
      (by
        simp only
        split
        · rw [wrap32_id _ (by omega) (by omega)]; omega
        · omega)
      (fun q hq => hd q (List.mem_cons_of_mem _ hq))
    have hbind : ∀ (x : Int × Board) (g : Int × Board → Except Board (Int × Board)),
        (Except.ok x >>= g) = g x := fun _ _ => rfl
    rw [hbind, step]
    congr 1
    refine Prod.ext ?_ ?_
    · simp only [List.countP_cons]
      by_cases hm : is_mine (b0 i j) = true
      · simp only [hm, if_true]
        rw [wrap32_id _ (by omega) (by omega)]
        push_cast; ring
      · simp only [hm]
        simp
    · simp only
      funext r c
      unfold counts_written
      by_cases hrc : (r, c) = (i, j)
      · have hr : r = i := congrArg Prod.fst hrc
        have hc : c = j := congrArg Prod.snd hrc
        subst hr; subst hc
        simp [hnotin, Board.set]
      · have : (r, c) ∈ (i, j) :: L ↔ (r, c) ∈ L := by
          rw [List.mem_cons]; exact ⟨fun h => h.resolve_left hrc, Or.inr⟩
        by_cases hin : (r, c) ∈ L
        · simp [hin]
        · rw [if_neg hin, if_neg (fun h => hin (this.mp h))]
          exact hset r c hrc

/-- The loops of `postprocess` stop with the early `return -1` as soon as a
position holds a mismatching digit. -/
theorem postprocess_fold_error (rows cols : Nat) (b0 : Board) (L : List (Nat × Nat)) :
    ∀ st : Int × Board, L.Nodup →
      (∀ r c, get_val (st.2 r c) = get_val (b0 r c)) →
      (∀ p ∈ L, st.2 p.1 p.2 = b0 p.1 p.2) →
      (∃ p ∈ L, digit_differs b0 (fun r c => get_mins rows cols r c b0) p.1 p.2 = true) →
      ∃ b, L.foldlM (fun st p => postprocess_body rows cols p.1 p.2 st) st = Except.error b := by
  induction L with
  | nil =>
    intro st _ _ _ hex
    obtain ⟨p, hp, _⟩ := hex
    exact absurd hp (List.not_mem_nil p)
  | cons p L ih =>
    intro st hnd hval hL hex
    obtain ⟨i, j⟩ := p
    rw [List.foldlM_cons, postprocess_body_eq rows cols i j b0 st hval (hL (i, j) (List.mem_cons_self _ _))]
    by_cases hdp : digit_differs b0 (fun r c => get_mins rows cols r c b0) i j = true
    · rw [if_pos hdp]
      exact ⟨st.2, rfl⟩
    · rw [if_neg hdp]
      have hnotin : (i, j) ∉ L := (List.nodup_cons.mp hnd).1
      have hset : ∀ r c, (r, c) ≠ (i, j) →
          (st.2.set i j (b0 i j ||| get_mins rows cols i j b0)) r c = st.2 r c := by
        intro r c hne
        unfold Board.set
        rw [if_neg]
        intro h; exact hne (by rw [h.1, h.2])
      have hk : get_mins rows cols i j b0 < 256 :=
        lt_of_le_of_lt (get_mins_le _ _ _ _ _) (by norm_num)
      have hbind : ∀ (x : Int × Board) (g : Int × Board → Except Board (Int × Board)),
          (Except.ok x >>= g) = g x := fun _ _ => rfl
      rw [hbind]
      apply ih _ (List.nodup_cons.mp hnd).2
      · intro r c
        by_cases hrc : (r, c) = (i, j)
        · have hr : r = i := congrArg Prod.fst hrc
          have hc : c = j := congrArg Prod.snd hrc
          subst hr; subst hc
          simp only [Board.set, and_self, if_true]
          exact get_val_or _ _ hk
        · simp only [hset r c hrc]; exact hval r c
      · intro q hq
        have hne : (q.1, q.2) ≠ (i, j) := by
          intro h; apply hnotin; rw [← h]; exact hq
        simp only [hset q.1 q.2 hne]
        exact hL q (List.mem_cons_of_mem _ hq)
      · obtain ⟨q, hq, hqd⟩ := hex
        rcases List.mem_cons.mp hq with h | h
        · subst h; exact absurd hqd hdp
        · exact ⟨q, h, hqd⟩

theorem postprocess_loop_eq (rows cols : Nat) (board : Board) :
    postprocess_loop rows cols board =
      (positions rows cols).foldlM (fun st p => postprocess_body rows cols p.1 p.2 st) (0, board) := by
  unfold postprocess_loop positions
  exact foldlM_product (fun i j st => postprocess_body rows cols i j st) _ _ _

theorem postprocess_loop_ok (rows cols : Nat) (board : Board)
    (hsz : rows * cols < 2147483648)
    (hd : ∀ i < rows, ∀ j < cols,
      digit_differs board (fun r c => get_mins rows cols r c board) i j = false) :
    postprocess_loop rows cols board =
      Except.ok ((mine_total rows cols board : Int),
        counts_written rows cols board board (positions rows cols)) := by
  rw [postprocess_loop_eq]
  have h := postprocess_fold_ok rows cols board (positions rows cols) (0, board)
    (nodup_positions rows cols) (fun _ _ => rfl) (fun _ _ => rfl) (le_refl 0)
    (by rw [length_positions]; simp only; omega)
    (fun p hp => by
      have := (mem_positions rows cols p.1 p.2).mp hp
      exact hd p.1 this.1 p.2 this.2)
  rw [h]
  simp [mine_total]

theorem postprocess_loop_error (rows cols : Nat) (board : Board)
    (hd : ∃ i < rows, ∃ j < cols,
      digit_differs board (fun r c => get_mins rows cols r c board) i j = true) :
    ∃ b, postprocess_loop rows cols board = Except.error b := by
  rw [postprocess_loop_eq]
  obtain ⟨i, hi, j, hj, hij⟩ := hd
  exact postprocess_fold_error rows cols board (positions rows cols) (0, board)
    (nodup_positions rows cols) (fun _ _ => rfl) (fun _ _ => rfl)
    ⟨(i, j), (mem_positions rows cols i j).mpr ⟨hi, hj⟩, hij⟩

theorem size_add_pred (n : Nat) (h1 : 1 ≤ n) (h2 : n < 18446744073709551616) :
    size_add n (-1) = n - 1 := by
  unfold size_add
  norm_num
  omega

theorem digit_differs_congr (board : Board) (f g : Nat → Nat → Nat) (i j : Nat)
    (h : f i j = g i j) : digit_differs board f i j = digit_differs board g i j := by
  unfold digit_differs
  rw [h]

theorem counts_written_grid (rows cols : Nat) (board : Board) (i j : Nat)
    (hi : i < rows) (hj : j < cols) :
    counts_written rows cols board board (positions rows cols) i j
      = board i j ||| get_mins rows cols i j board := by
  unfold counts_written
  rw [if_pos ((mem_positions rows cols i j).mpr ⟨hi, hj⟩)]

theorem counts_written_val (rows cols : Nat) (board : Board) (L : List (Nat × Nat)) (r c : Nat) :
    get_val (counts_written rows cols board board L r c) = get_val (board r c) := by
  unfold counts_written
  split
  · exact get_val_or _ _ (lt_of_le_of_lt (get_mins_le _ _ _ _ _) (by norm_num))
  · rfl

theorem adjacent_mines_congr (rows cols : Nat) (b1 b2 : Board) (i j : Nat)
    (h : ∀ r c, get_val (b1 r c) = get_val (b2 r c)) :
    adjacent_mines rows cols b1 i j = adjacent_mines rows cols b2 i j := by
  unfold adjacent_mines
  congr 1
  funext d
  simp [mine_at_offset, is_mine, h]

theorem set_cell_low_bits (old val c : Nat) (h : set_cell old val = (true, c)) :
    get_neighbour_mins c = 0 := by
  unfold set_cell at h
  simp only at h
  split at h
  · exact absurd (congrArg Prod.fst h) (by simp)
  · split at h
    · obtain ⟨-, rfl⟩ := Prod.mk.inj h; decide
    · split at h
      · obtain ⟨-, rfl⟩ := Prod.mk.inj h; decide
      · split at h
        · obtain ⟨-, rfl⟩ := Prod.mk.inj h; decide
        · split at h
          · obtain ⟨-, rfl⟩ := Prod.mk.inj h; decide
          · split at h
            · obtain ⟨-, rfl⟩ := Prod.mk.inj h; decide
            · split at h
              · rename_i hu
                obtain ⟨-, rfl⟩ := Prod.mk.inj h
                generalize toupper val = u at hu
                obtain ⟨h1, h2⟩ := hu
                interval_cases u <;> decide
              · obtain ⟨-, rfl⟩ := Prod.mk.inj h; decide

theorem postprocess_of_size (MIN_SIZE MAX_SIZE rows cols : Nat) (board : Board)
    (h : size_out_of_range MIN_SIZE MAX_SIZE rows cols = true) :
    postprocess MIN_SIZE MAX_SIZE rows cols board = (-1, board) := by
  unfold postprocess
  rw [if_pos]
  simpa [size_out_of_range, or_assoc] using h

theorem size_in_range (MIN_SIZE MAX_SIZE rows cols : Nat)
    (h : size_out_of_range MIN_SIZE MAX_SIZE rows cols = false) :
    MIN_SIZE ≤ rows ∧ rows ≤ MAX_SIZE ∧ MIN_SIZE ≤ cols ∧ cols ≤ MAX_SIZE := by
  simp [size_out_of_range] at h
  omega

theorem size_guard_false (MIN_SIZE MAX_SIZE rows cols : Nat)
    (h : size_out_of_range MIN_SIZE MAX_SIZE rows cols = false) :
    ¬ (rows < MIN_SIZE ∨ rows > MAX_SIZE ∨ cols < MIN_SIZE ∨ cols > MAX_SIZE) := by
  have := size_in_range _ _ _ _ h
  omega

theorem size_bounds (MAX_SIZE rows cols : Nat) (hmax : MAX_SIZE * MAX_SIZE < 2147483648)
    (hr : rows ≤ MAX_SIZE) (hc : cols ≤ MAX_SIZE) :
    rows * cols < 2147483648 ∧ rows < 18446744073709551616 ∧ cols < 18446744073709551616 := by
  have h1 : rows * cols ≤ MAX_SIZE * MAX_SIZE := Nat.mul_le_mul hr hc
  have h2 : MAX_SIZE < 2147483648 := by nlinarith
  omega

theorem corner_eq (MIN_SIZE MAX_SIZE rows cols : Nat) (board : Board)
    (hmin : 1 ≤ MIN_SIZE) (hmax : MAX_SIZE * MAX_SIZE < 2147483648)
    (h : size_out_of_range MIN_SIZE MAX_SIZE rows cols = false) :
    (is_mine (board 0 0) || is_mine (board (size_add rows (-1)) 0) ||
      is_mine (board 0 (size_add cols (-1))) ||
      is_mine (board (size_add rows (-1)) (size_add cols (-1)))) = corner_mine rows cols board := by
  obtain ⟨h1, h2, h3, h4⟩ := size_in_range _ _ _ _ h
  obtain ⟨-, hr, hc⟩ := size_bounds MAX_SIZE rows cols hmax h2 h4
  rw [size_add_pred rows (by omega) hr, size_add_pred cols (by omega) hc]
  rfl

theorem postprocess_of_corner (MIN_SIZE MAX_SIZE rows cols : Nat) (board : Board)
    (hmin : 1 ≤ MIN_SIZE) (hmax : MAX_SIZE * MAX_SIZE < 2147483648)
    (h : size_out_of_range MIN_SIZE MAX_SIZE rows cols = false)
    (hc : corner_mine rows cols board = true) :
    postprocess MIN_SIZE MAX_SIZE rows cols board = (-1, board) := by
  unfold postprocess
  rw [if_neg (size_guard_false _ _ _ _ h),
    corner_eq MIN_SIZE MAX_SIZE rows cols board hmin hmax h, if_pos hc]

theorem digit_mismatch_iff (MAX_SIZE rows cols : Nat) (board : Board)
    (hmax : MAX_SIZE * MAX_SIZE < 2147483648) (hr : rows ≤ MAX_SIZE) (hc : cols ≤ MAX_SIZE) :
    digit_mismatch rows cols board ↔
      ∃ i < rows, ∃ j < cols,
        digit_differs board (fun r c => get_mins rows cols r c board) i j = true := by
  obtain ⟨-, h1, h2⟩ := size_bounds MAX_SIZE rows cols hmax hr hc
  unfold digit_mismatch
  constructor
  · rintro ⟨i, hi, j, hj, h⟩
    refine ⟨i, hi, j, hj, ?_⟩
    rw [← h]
    exact digit_differs_congr _ _ _ _ _ (get_mins_eq_adjacent rows cols i j board hi hj h1 h2)
  · rintro ⟨i, hi, j, hj, h⟩
    refine ⟨i, hi, j, hj, ?_⟩
    rw [← h]
    exact digit_differs_congr _ _ _ _ _ (get_mins_eq_adjacent rows cols i j board hi hj h1 h2).symm

theorem postprocess_of_mismatch (MIN_SIZE MAX_SIZE rows cols : Nat) (board : Board)
    (hmin : 1 ≤ MIN_SIZE) (hmax : MAX_SIZE * MAX_SIZE < 2147483648)
    (h : size_out_of_range MIN_SIZE MAX_SIZE rows cols = false)
    (hc : corner_mine rows cols board = false)
    (hd : digit_mismatch rows cols board) :
    (postprocess MIN_SIZE MAX_SIZE rows cols board).1 = -1 := by
  obtain ⟨h1, h2, h3, h4⟩ := size_in_range _ _ _ _ h
  obtain ⟨b, hb⟩ := postprocess_loop_error rows cols board
    ((digit_mismatch_iff MAX_SIZE rows cols board hmax h2 h4).mp hd)
  unfold postprocess
  rw [if_neg (size_guard_false _ _ _ _ h),
    corner_eq MIN_SIZE MAX_SIZE rows cols board hmin hmax h, if_neg (by simp [hc]), hb]

theorem postprocess_of_consistent (MIN_SIZE MAX_SIZE rows cols : Nat) (board : Board)
    (hmin : 1 ≤ MIN_SIZE) (hmax : MAX_SIZE * MAX_SIZE < 2147483648)
    (h : size_out_of_range MIN_SIZE MAX_SIZE rows cols = false)
    (hc : corner_mine rows cols board = false)
    (hd : ¬ digit_mismatch rows cols board) :
    postprocess MIN_SIZE MAX_SIZE rows cols board =
      (if mine_total rows cols board = 0 then -1 else (mine_total rows cols board : Int),
        counts_written rows cols board board (positions rows cols)) := by
  obtain ⟨h1, h2, h3, h4⟩ := size_in_range _ _ _ _ h
  obtain ⟨hsz, -, -⟩ := size_bounds MAX_SIZE rows cols hmax h2 h4
  have hloop := postprocess_loop_ok rows cols board hsz (by
    intro i hi j hj
    by_contra hne
    apply hd
    rw [digit_mismatch_iff MAX_SIZE rows cols board hmax h2 h4]
    exact ⟨i, hi, j, hj, by simpa using hne⟩)
  unfold postprocess
  rw [if_neg (size_guard_false _ _ _ _ h),
    corner_eq MIN_SIZE MAX_SIZE rows cols board hmin hmax h, if_neg (by simp [hc]), hloop]
  simp only
  by_cases hm : mine_total rows cols board = 0
  · simp [hm]
  · have : (mine_total rows cols board : Int) ≠ 0 := by exact_mod_cast hm
    simp [hm, this]

theorem postprocess_accepts (MIN_SIZE MAX_SIZE rows cols : Nat) (board : Board)
    (hmin : 1 ≤ MIN_SIZE) (hmax : MAX_SIZE * MAX_SIZE < 2147483648)
    (hret : (postprocess MIN_SIZE MAX_SIZE rows cols board).1 ≠ -1) :
    size_out_of_range MIN_SIZE MAX_SIZE rows cols = false ∧
    corner_mine rows cols board = false ∧
    ¬ digit_mismatch rows cols board ∧
    mine_total rows cols board ≠ 0 ∧
    postprocess MIN_SIZE MAX_SIZE rows cols board =
      ((mine_total rows cols board : Int),
        counts_written rows cols board board (positions rows cols)) := by
  have hs : size_out_of_range MIN_SIZE MAX_SIZE rows cols = false := by
    by_contra h
    exact hret (by rw [postprocess_of_size _ _ _ _ _ (by simpa using h)])
  have hc : corner_mine rows cols board = false := by
    by_contra h
    exact hret (by rw [postprocess_of_corner _ _ _ _ _ hmin hmax hs (by simpa using h)])
  have hd : ¬ digit_mismatch rows cols board := fun h =>
    hret (postprocess_of_mismatch _ _ _ _ _ hmin hmax hs hc h)
  have heq := postprocess_of_consistent _ _ _ _ _ hmin hmax hs hc hd
  have hm : mine_total rows cols board ≠ 0 := by
    intro h
    apply hret
    rw [heq, if_pos h]
  rw [if_neg hm] at heq
  exact ⟨hs, hc, hd, hm, heq⟩

/-- C1: on a grid whose cells were all produced by `set_cell`, when
`postprocess` returns a value other than -1, afterwards the stored count
`get_neighbour_mins` of every position equals the number of in-bounds
positions among its up-to-8 neighbours whose cell is a mine. -/
theorem postprocess_stores_adjacent_mines (MIN_SIZE MAX_SIZE rows cols : Nat) (board : Board)
    (hmin : 1 ≤ MIN_SIZE) (hmax : MAX_SIZE * MAX_SIZE < 2147483648)
    (hset : ∀ i < rows, ∀ j < cols, ∃ old val, set_cell old val = (true, board i j))
    (hret : (postprocess MIN_SIZE MAX_SIZE rows cols board).1 ≠ -1) :
    ∀ i < rows, ∀ j < cols,
      get_neighbour_mins ((postprocess MIN_SIZE MAX_SIZE rows cols board).2 i j)
        = adjacent_mines rows cols (postprocess MIN_SIZE MAX_SIZE rows cols board).2 i j := by
  intro i hi j hj
  obtain ⟨hs, -, -, -, heq⟩ := postprocess_accepts _ _ _ _ _ hmin hmax hret
  obtain ⟨-, h2, -, h4⟩ := size_in_range _ _ _ _ hs
  obtain ⟨-, hr, hc⟩ := size_bounds MAX_SIZE rows cols hmax h2 h4
  obtain ⟨old, val, hsc⟩ := hset i hi j hj
  rw [heq]
  simp only
  rw [adjacent_mines_congr rows cols _ board i j (counts_written_val rows cols board _),
    counts_written_grid rows cols board i j hi hj,
    mins_or _ _ (lt_of_le_of_lt (get_mins_le _ _ _ _ _) (by norm_num)),
    set_cell_low_bits old val _ hsc, Nat.zero_or,
    get_mins_eq_adjacent rows cols i j board hi hj hr hc]

theorem postprocess_stores_adjacent_mines_witness :
    (∀ i < 5, ∀ j < 5, ∃ old val, set_cell old val = (true, ring_board i j)) ∧
    (postprocess 3 99 5 5 ring_board).1 ≠ -1 ∧
    ∀ i < 5, ∀ j < 5,
      get_neighbour_mins ((postprocess 3 99 5 5 ring_board).2 i j)
        = adjacent_mines 5 5 (postprocess 3 99 5 5 ring_board).2 i j :=
  ⟨fun i hi j hj => ⟨0, code_at ring_codes i j, by
      revert i j; decide⟩,
   by decide,
   postprocess_stores_adjacent_mines 3 99 5 5 ring_board (by decide) (by decide)
    (fun i hi j hj => ⟨0, code_at ring_codes i j, by
      revert i j; decide⟩)
    (by decide)⟩

/-- C2: `postprocess` returns -1 exactly when `rows` or `cols` lies outside
`[MIN_SIZE, MAX_SIZE]`, or a corner cell is a mine, or some revealed cell
carries a digit different from its true neighbour-mine count, or the grid
holds no mine; in every other case it returns the number of cells whose value
is `'M'`, which is at least 1. -/
theorem postprocess_return_value (MIN_SIZE MAX_SIZE rows cols : Nat) (board : Board)
    (hmin : 1 ≤ MIN_SIZE) (hmax : MAX_SIZE * MAX_SIZE < 2147483648) :
    ((postprocess MIN_SIZE MAX_SIZE rows cols board).1 = -1 ↔
      (size_out_of_range MIN_SIZE MAX_SIZE rows cols = true ∨
        corner_mine rows cols board = true ∨
        digit_mismatch rows cols board ∨
        mine_total rows cols board = 0)) ∧
    ((postprocess MIN_SIZE MAX_SIZE rows cols board).1 ≠ -1 →
      (postprocess MIN_SIZE MAX_SIZE rows cols board).1 = (mine_total rows cols board : Int) ∧
      1 ≤ mine_total rows cols board) := by
  constructor
  · constructor
    · intro h
      by_contra hne
      simp only [not_or] at hne
      obtain ⟨h1, h2, h3, h4⟩ := hne
      have heq := postprocess_of_consistent MIN_SIZE MAX_SIZE rows cols board hmin hmax
        (by simpa using h1) (by simpa using h2) h3
      rw [heq, if_neg h4] at h
      simp only at h
      omega
    · intro h
      by_contra hne
      obtain ⟨h1, h2, h3, h4, -⟩ := postprocess_accepts _ _ _ _ _ hmin hmax hne
      rcases h with h | h | h | h
      · rw [h1] at h; exact Bool.noConfusion h
      · rw [h2] at h; exact Bool.noConfusion h
      · exact h3 h
      · exact h4 h
  · intro hne
    obtain ⟨-, -, -, h4, heq⟩ := postprocess_accepts _ _ _ _ _ hmin hmax hne
    rw [heq]
    exact ⟨rfl, Nat.one_le_iff_ne_zero.mpr h4⟩

theorem postprocess_return_value_witness :
    (postprocess 3 99 5 5 ring_board).1 = (mine_total 5 5 ring_board : Int) ∧
      1 ≤ mine_total 5 5 ring_board :=
  (postprocess_return_value 3 99 5 5 ring_board (by decide) (by decide)).2 (by decide)

/-! ## The cascade `reveal_floodfill` -/

theorem reveal_unrevealed (c : Nat) (h : is_revealed c = false) :
    (if is_flag c then c ||| BIT_5 else (reveal_single c).2) = c ||| 16 := by
  unfold reveal_single
  by_cases hf : is_flag c = true
  · simp [hf, BIT_5]
  · by_cases hm : is_mine c = true
    · simp [hf, hm, h, BIT_5]
    · simp [hf, hm, h]

theorem floodfill_body_eq (fuel rows cols row col : Nat) (board : Board) (drow dcol : Int) :
    (if dcol = 0 ∧ drow = 0 then some board
      else if !valid_pos rows cols (size_add row drow) (size_add col dcol) then some board
      else if is_revealed (board (size_add row drow) (size_add col dcol)) then some board
      else if get_number (board (size_add row drow) (size_add col dcol)) ≠ 0 then
        if is_flag (board (size_add row drow) (size_add col dcol)) then
          some (board.set (size_add row drow) (size_add col dcol)
            (board (size_add row drow) (size_add col dcol) ||| BIT_5))
        else
          some (board.set (size_add row drow) (size_add col dcol)
            (reveal_single (board (size_add row drow) (size_add col dcol))).2)
      else
        let board1 :=
          if is_flag (board (size_add row drow) (size_add col dcol)) then
            board.set (size_add row drow) (size_add col dcol)
              (board (size_add row drow) (size_add col dcol) ||| BIT_5)
          else
            board.set (size_add row drow) (size_add col dcol)
              (reveal_single (board (size_add row drow) (size_add col dcol))).2
        reveal_floodfill fuel rows cols board1 (size_add row drow) (size_add col dcol))
      = floodfill_step fuel rows cols row col board (drow, dcol) := by
  unfold floodfill_step
  by_cases h0 : dcol = 0 ∧ drow = 0
  · have : (drow, dcol) = ((0 : Int), (0 : Int)) := by rw [h0.1, h0.2]
    rw [if_pos h0, if_pos this]
  · have : ¬ (drow, dcol) = ((0 : Int), (0 : Int)) := by
      intro h
      exact h0 ⟨congrArg Prod.snd h, congrArg Prod.fst h⟩
    rw [if_neg h0, if_neg this]
    by_cases hv : valid_pos rows cols (size_add row drow) (size_add col dcol) = true
    · by_cases hr : is_revealed (board (size_add row drow) (size_add col dcol)) = true
      · simp [hv, hr]
      · have hr2 : is_revealed (board (size_add row drow) (size_add col dcol)) = false := by
          simpa using hr
        have key := reveal_unrevealed _ hr2
        simp only [hv, hr2, Bool.not_true, Bool.false_eq_true, if_false]
        by_cases hf : is_flag (board (size_add row drow) (size_add col dcol)) = true
        · rw [if_pos hf] at key
          simp only [hf, if_true, key]
          rw [if_neg (by decide : ¬ (true = false))]
        · rw [if_neg hf] at key
          simp only [hf, Bool.false_eq_true, if_false, key]
          rw [if_neg (by decide : ¬ (true = false))]
    · simp [hv]

theorem reveal_floodfill_succ (fuel rows cols : Nat) (board : Board) (row col : Nat) :
    reveal_floodfill (fuel + 1) rows cols board row col
      = offset_pairs.foldlM (floodfill_step fuel rows cols row col) board := by
  have h : reveal_floodfill (fuel + 1) rows cols board row col
      = offsets.foldlM (fun board drow =>
          offsets.foldlM (fun board dcol =>
            floodfill_step fuel rows cols row col board (drow, dcol)) board) board := by
    rw [reveal_floodfill]
    simp only [floodfill_body_eq]
  rw [h]
  exact foldlM_product (fun drow dcol board => floodfill_step fuel rows cols row col board (drow, dcol))
    offsets offsets board

theorem reveals_refl (rows cols : Nat) (b : Board) : reveals rows cols b b :=
  fun _ _ => Or.inl rfl

theorem reveals_trans (rows cols : Nat) (b1 b2 b3 : Board)
    (h12 : reveals rows cols b1 b2) (h23 : reveals rows cols b2 b3) : reveals rows cols b1 b3 := by
  intro r c
  rcases h23 r c with h | ⟨hr, hc, hu, h⟩
  · rw [h]; exact h12 r c
  · rcases h12 r c with h' | ⟨-, -, -, h'⟩
    · rw [h'] at hu h
      exact Or.inr ⟨hr, hc, hu, h⟩
    · rw [h', is_revealed_or16] at hu
      exact Bool.noConfusion hu

theorem reveals_set (rows cols : Nat) (b : Board) (r c : Nat) (hr : r < rows) (hc : c < cols)
    (hu : is_revealed (b r c) = false) : reveals rows cols b (b.set r c (b r c ||| 16)) := by
  intro r' c'
  unfold Board.set
  by_cases h : r' = r ∧ c' = c
  · rw [if_pos h, h.1, h.2]
    exact Or.inr ⟨hr, hc, hu, rfl⟩
  · rw [if_neg h]
    exact Or.inl rfl

theorem valid_pos_iff (rows cols i j : Nat) : valid_pos rows cols i j = true ↔ i < rows ∧ j < cols := by
  simp [valid_pos]

/-- The three ways in which one iteration of the loops of `reveal_floodfill` ends. -/
theorem floodfill_step_cases (fuel rows cols row col : Nat) (board : Board) (d : Int × Int) :
    floodfill_step fuel rows cols row col board d = some board ∨
    (size_add row d.1 < rows ∧ size_add col d.2 < cols ∧
      is_revealed (board (size_add row d.1) (size_add col d.2)) = false ∧
      (floodfill_step fuel rows cols row col board d =
          some (board.set (size_add row d.1) (size_add col d.2)
            (board (size_add row d.1) (size_add col d.2) ||| 16)) ∨
        (get_number (board (size_add row d.1) (size_add col d.2)) = 0 ∧
         floodfill_step fuel rows cols row col board d =
          reveal_floodfill fuel rows cols
            (board.set (size_add row d.1) (size_add col d.2)
              (board (size_add row d.1) (size_add col d.2) ||| 16))
            (size_add row d.1) (size_add col d.2)))) := by
  unfold floodfill_step
  by_cases h0 : d = (0, 0)
  · exact Or.inl (by rw [if_pos h0])
  · rw [if_neg h0]
    by_cases hv : valid_pos rows cols (size_add row d.1) (size_add col d.2) = false
    · exact Or.inl (by rw [if_pos hv])
    · rw [if_neg hv]
      by_cases hr : is_revealed (board (size_add row d.1) (size_add col d.2)) = true
      · exact Or.inl (by rw [if_pos hr])
      · rw [if_neg hr]
        have hv2 := (valid_pos_iff _ _ _ _).mp (by simpa using hv)
        refine Or.inr ⟨hv2.1, hv2.2, by simpa using hr, ?_⟩
        by_cases hn : get_number (board (size_add row d.1) (size_add col d.2)) ≠ 0
        · exact Or.inl (by rw [if_pos hn])
        · exact Or.inr ⟨by simpa using hn, by rw [if_neg hn]⟩

theorem option_bind_some {α β : Type} (x : Option α) (g : α → Option β) (b : β)
    (h : (x >>= g) = some b) : ∃ a, x = some a ∧ g a = some b := by
  cases x with
  | none => exact Option.noConfusion h
  | some a => exact ⟨a, rfl, h⟩

theorem floodfill_fold_reveals (fuel rows cols row col : Nat)
    (ih : ∀ board row col b', reveal_floodfill fuel rows cols board row col = some b' →
      reveals rows cols board b')
    (L : List (Int × Int)) :
    ∀ board b', L.foldlM (floodfill_step fuel rows cols row col) board = some b' →
      reveals rows cols board b' := by
  induction L with
  | nil =>
    intro board b' h
    have : board = b' := Option.some.inj h
    rw [this]; exact reveals_refl _ _ _
  | cons d L ihL =>
    intro board b' h
    rw [List.foldlM_cons] at h
    obtain ⟨b1, h1, h2⟩ := option_bind_some _ _ _ h
    have hrest := ihL b1 b' h2
    refine reveals_trans _ _ _ _ _ ?_ hrest
    rcases floodfill_step_cases fuel rows cols row col board d with hc | ⟨hr, hc, hu, hc2 | ⟨-, hc3⟩⟩
    · rw [hc] at h1
      rw [← Option.some.inj h1]; exact reveals_refl _ _ _
    · rw [hc2] at h1
      rw [← Option.some.inj h1]; exact reveals_set _ _ _ _ _ hr hc hu
    · rw [hc3] at h1
      exact reveals_trans _ _ _ _ _ (reveals_set _ _ _ _ _ hr hc hu) (ih _ _ _ _ h1)

/-- The cascade only sets revealed bits of unrevealed cells of the grid. -/
theorem reveal_floodfill_reveals (rows cols : Nat) (fuel : Nat) :
    ∀ board row col b', reveal_floodfill fuel rows cols board row col = some b' →
      reveals rows cols board b' := by
  induction fuel with
  | zero =>
    intro board row col b' h
    rw [reveal_floodfill] at h
    exact Option.noConfusion h
  | succ fuel ih =>
    intro board row col b' h
    rw [reveal_floodfill_succ] at h
    exact floodfill_fold_reveals fuel rows cols row col ih offset_pairs board b' h

theorem countP_lt_of_imp {α : Type} (p q : α → Bool) (l : List α)
    (himp : ∀ x ∈ l, p x = true → q x = true)
    (hex : ∃ x ∈ l, q x = true ∧ p x = false) : l.countP p < l.countP q := by
  induction l with
  | nil =>
    obtain ⟨x, hx, _⟩ := hex
    exact absurd hx (List.not_mem_nil x)
  | cons a l ih =>
    rw [List.countP_cons, List.countP_cons]
    have hle : l.countP p ≤ l.countP q :=
      List.countP_mono_left (fun x hx => himp x (List.mem_cons_of_mem _ hx))
    obtain ⟨x, hx, hq, hp⟩ := hex
    rcases List.mem_cons.mp hx with hxa | hxl
    · subst hxa
      simp only [hq, hp, if_true, Bool.false_eq_true, if_false]
      omega
    · have hlt := ih (fun y hy => himp y (List.mem_cons_of_mem _ hy)) ⟨x, hxl, hq, hp⟩
      by_cases hpa : p a = true
      · have := himp a (List.mem_cons_self _ _) hpa
        simp only [hpa, this, if_true]
        omega
      · simp only [hpa, Bool.false_eq_true, if_false]
        split <;> omega

theorem unrevealed_total_mono (rows cols : Nat) (b1 b2 : Board) (h : reveals rows cols b1 b2) :
    unrevealed_total rows cols b2 ≤ unrevealed_total rows cols b1 := by
  unfold unrevealed_total
  apply List.countP_mono_left
  intro p _ hp
  rcases h p.1 p.2 with h' | ⟨-, -, -, h'⟩
  · rw [h'] at hp; exact hp
  · rw [h', is_revealed_or16] at hp
    exact Bool.noConfusion hp

theorem unrevealed_total_set (rows cols : Nat) (b : Board) (r c : Nat) (hr : r < rows)
    (hc : c < cols) (hu : is_revealed (b r c) = false) :
    unrevealed_total rows cols (b.set r c (b r c ||| 16)) < unrevealed_total rows cols b := by
  unfold unrevealed_total
  apply countP_lt_of_imp
  · intro p _ hp
    rcases reveals_set rows cols b r c hr hc hu p.1 p.2 with h' | ⟨-, -, -, h'⟩
    · rw [h'] at hp; exact hp
    · rw [h', is_revealed_or16] at hp
      exact Bool.noConfusion hp
  · refine ⟨(r, c), (mem_positions rows cols r c).mpr ⟨hr, hc⟩, ?_, ?_⟩
    · simp [hu]
    · simp [Board.set, is_revealed_or16]

theorem unrevealed_total_le (rows cols : Nat) (b : Board) :
    unrevealed_total rows cols b ≤ rows * cols := by
  unfold unrevealed_total
  rw [← length_positions rows cols]
  exact List.countP_le_length _

theorem floodfill_fold_returns (fuel rows cols row col : Nat)
    (ih : ∀ board row col, unrevealed_total rows cols board < fuel →
      ∃ b', reveal_floodfill fuel rows cols board row col = some b')
    (L : List (Int × Int)) :
    ∀ board, unrevealed_total rows cols board < fuel + 1 →
      ∃ b', L.foldlM (floodfill_step fuel rows cols row col) board = some b' := by
  induction L with
  | nil => intro board _; exact ⟨board, rfl⟩
  | cons d L ihL =>
    intro board hb
    rw [List.foldlM_cons]
    have hbind : ∀ (x : Board) (g : Board → Option Board), (some x >>= g) = g x := fun _ _ => rfl
    rcases floodfill_step_cases fuel rows cols row col board d with hc | ⟨hr, hc, hu, hc2 | ⟨-, hc3⟩⟩
    · rw [hc, hbind]; exact ihL board hb
    · rw [hc2, hbind]
      exact ihL _ (lt_trans (unrevealed_total_set rows cols board _ _ hr hc hu) hb)
    · have hlt := unrevealed_total_set rows cols board _ _ hr hc hu
      obtain ⟨b1, hb1⟩ := ih (board.set (size_add row d.1) (size_add col d.2)
        (board (size_add row d.1) (size_add col d.2) ||| 16))
        (size_add row d.1) (size_add col d.2) (by omega)
      rw [hc3, hb1, hbind]
      have hmono := unrevealed_total_mono rows cols _ _
        (reveal_floodfill_reveals rows cols fuel _ _ _ _ hb1)
      exact ihL b1 (by omega)

/-- The cascade returns as soon as the fuel exceeds the number of unrevealed
cells of the grid. -/
theorem reveal_floodfill_returns (rows cols : Nat) (fuel : Nat) :
    ∀ board row col, unrevealed_total rows cols board < fuel →
      ∃ b', reveal_floodfill fuel rows cols board row col = some b' := by
  induction fuel with
  | zero => intro board row col h; exact absurd h (Nat.not_lt_zero _)
  | succ fuel ih =>
    intro board row col h
    rw [reveal_floodfill_succ]
    exact floodfill_fold_returns fuel rows cols row col ih offset_pairs board h

/-! ## Revealing a cell -/

/-- C3, evaluated on the validated 5 x 5 board with mines at `(0,2)`, `(2,0)`,
`(2,4)`, `(4,2)`: the first `reveal_cell` on the unrevealed, unflagged
zero-count cell `(2, 2)` returns 0 and leaves `(2, 2)` unrevealed (only its 8
neighbours are revealed), and the second call on `(2, 2)` returns 0 again
instead of the rejection -1. -/
theorem reveal_cell_twice_not_rejected :
    (postprocess 3 99 5 5 ring_board).1 = 4 ∧
    is_revealed (ring_validated 2 2) = false ∧ is_flag (ring_validated 2 2) = false ∧
    (reveal_cell 26 5 5 ring_validated 2 2).map
      (fun p => (p.1, is_revealed (p.2 2 2), (reveal_cell 26 5 5 p.2 2 2).map Prod.fst))
      = some (0, false, some 0) := by
  decide

theorem reveal_single_fresh (c : Nat) (hu : is_revealed c = false) (hf : is_flag c = false) :
    reveal_single c = (if is_mine c then 1 else 0, c ||| BIT_5) := by
  unfold reveal_single
  by_cases hm : is_mine c = true
  · simp [hu, hf, hm]
  · simp [hu, hf, hm, BIT_5]

/-- The outcome of `reveal_cell`: it returns, with -1 exactly in its four
rejection cases, and a rejected call leaves the board as it was. -/
theorem reveal_cell_outcome (fuel rows cols : Nat) (board : Board) (row col : Nat)
    (hfuel : unrevealed_total rows cols board < fuel) :
    ∃ ret b', reveal_cell fuel rows cols board row col = some (ret, b') ∧
      (ret = -1 ↔ (row ≥ rows ∨ col ≥ cols ∨ is_revealed (board row col) = true ∨
        is_flag (board row col) = true)) ∧
      (ret = -1 → b' = board) := by
  unfold reveal_cell
  by_cases h1 : row ≥ rows
  · rw [if_pos h1]
    exact ⟨-1, board, rfl, ⟨fun _ => Or.inl h1, fun _ => rfl⟩, fun _ => rfl⟩
  · rw [if_neg h1]
    by_cases h2 : col ≥ cols
    · rw [if_pos h2]
      exact ⟨-1, board, rfl, ⟨fun _ => Or.inr (Or.inl h2), fun _ => rfl⟩, fun _ => rfl⟩
    · rw [if_neg h2]
      by_cases h3 : (is_revealed (board row col) || is_flag (board row col)) = true
      · rw [if_pos h3]
        refine ⟨-1, board, rfl, ⟨fun _ => ?_, fun _ => rfl⟩, fun _ => rfl⟩
        rcases Bool.or_eq_true_iff.mp h3 with h | h
        · exact Or.inr (Or.inr (Or.inl h))
        · exact Or.inr (Or.inr (Or.inr h))
      · rw [if_neg h3]
        have hu : is_revealed (board row col) = false := by
          cases h : is_revealed (board row col)
          · rfl
          · exact absurd (by rw [h]; rfl) h3
        have hf : is_flag (board row col) = false := by
          cases h : is_flag (board row col)
          · rfl
          · exact absurd (by rw [h, Bool.or_true]) h3
        have hcond : ¬ (row ≥ rows ∨ col ≥ cols ∨ is_revealed (board row col) = true ∨
            is_flag (board row col) = true) := by
          rw [hu, hf]
          rintro (h | h | h | h)
          · exact h1 h
          · exact h2 h
          · exact Bool.noConfusion h
          · exact Bool.noConfusion h
        by_cases h4 : (decide (get_number (board row col) ≠ 0) || is_mine (board row col)) = true
        · rw [if_pos h4, reveal_single_fresh _ hu hf]
          have hne : (if is_mine (board row col) = true then (1 : Int) else 0) ≠ -1 := by
            split <;> decide
          exact ⟨_, _, rfl, ⟨fun h => absurd h hne, fun h => absurd h hcond⟩,
            fun h => absurd h hne⟩
        · rw [if_neg h4]
          obtain ⟨b', hb'⟩ := reveal_floodfill_returns rows cols fuel board row col hfuel
          rw [hb']
          exact ⟨0, b', rfl, ⟨fun h => absurd h (by decide), fun h => absurd h hcond⟩,
            fun h => absurd h (by decide)⟩

/-- C4: `reveal_cell` returns -1 if and only if `row >= rows`, or
`col >= cols`, or the target cell is already revealed, or the target cell is
flagged; and whenever it returns -1 the board is exactly as before the call.
The call returns as soon as the fuel exceeds the number of unrevealed cells. -/
theorem reveal_cell_rejects (fuel rows cols : Nat) (board : Board) (row col : Nat)
    (hfuel : unrevealed_total rows cols board < fuel) :
    ∃ ret b', reveal_cell fuel rows cols board row col = some (ret, b') ∧
      (ret = -1 ↔ (row ≥ rows ∨ col ≥ cols ∨ is_revealed (board row col) = true ∨
        is_flag (board row col) = true)) ∧
      (ret = -1 → b' = board) :=
  reveal_cell_outcome fuel rows cols board row col hfuel

theorem reveal_cell_rejects_witness :
    ∃ ret b', reveal_cell 26 5 5 ring_validated 2 2 = some (ret, b') ∧
      (ret = -1 ↔ (2 ≥ 5 ∨ 2 ≥ 5 ∨ is_revealed (ring_validated 2 2) = true ∨
        is_flag (ring_validated 2 2) = true)) ∧
      (ret = -1 → b' = ring_validated) :=
  reveal_cell_rejects 26 5 5 ring_validated 2 2
    (lt_of_le_of_lt (unrevealed_total_le 5 5 ring_validated) (by decide))

/-- C5: on an in-range cell that is unrevealed, unflagged and is a mine or has
a nonzero neighbour count, `reveal_cell` does not cascade: it sets the revealed
bit of that one cell, leaves every other cell and every other bit unchanged,
and returns 1 if the cell is a mine and 0 otherwise. -/
theorem reveal_cell_no_cascade (fuel rows cols : Nat) (board : Board) (row col : Nat)
    (hr : row < rows) (hc : col < cols)
    (hu : is_revealed (board row col) = false) (hf : is_flag (board row col) = false)
    (hk : is_mine (board row col) = true ∨ get_neighbour_mins (board row col) ≠ 0) :
    ∃ b', reveal_cell fuel rows cols board row col
        = some (if is_mine (board row col) then 1 else 0, b') ∧
      b' row col = board row col ||| BIT_5 ∧
      (∀ r c, ¬ (r = row ∧ c = col) → b' r c = board r c) ∧
      is_revealed (b' row col) = true ∧
      get_val (b' row col) = get_val (board row col) ∧
      is_flag (b' row col) = is_flag (board row col) ∧
      get_neighbour_mins (b' row col) = get_neighbour_mins (board row col) := by
  have h4 : (decide (get_number (board row col) ≠ 0) || is_mine (board row col)) = true := by
    rcases hk with h | h
    · rw [h, Bool.or_true]
    · by_cases hm : is_mine (board row col) = true
      · rw [hm, Bool.or_true]
      · have hv : (get_val (board row col) == 77) = false := by simpa [is_mine] using hm
        have : get_number (board row col) ≠ 0 := by
          unfold get_number
          rw [hv]
          exact h
        simp [this]
  refine ⟨board.set row col (board row col ||| BIT_5), ?_, ?_, ?_, ?_, ?_, ?_, ?_⟩
  · unfold reveal_cell
    rw [if_neg (by omega), if_neg (by omega), if_neg (by simp [hu, hf]), if_pos h4,
      reveal_single_fresh _ hu hf]
  · simp [Board.set]
  · intro r c hne
    simp [Board.set, hne]
  · simp only [Board.set, and_self, if_true, BIT_5]; exact is_revealed_or16 _
  · simp only [Board.set, and_self, if_true, BIT_5]; exact get_val_or _ _ (by norm_num)
  · simp only [Board.set, and_self, if_true, BIT_5]; exact is_flag_or16 _
  · simp only [Board.set, and_self, if_true, BIT_5]; exact mins_or16 _

theorem reveal_cell_no_cascade_witness :
    ∃ b', reveal_cell 26 5 5 ring_validated 0 2 = some (1, b') ∧
      b' 0 2 = ring_validated 0 2 ||| BIT_5 ∧
      (∀ r c, ¬ (r = 0 ∧ c = 2) → b' r c = ring_validated r c) ∧
      is_revealed (b' 0 2) = true ∧
      get_val (b' 0 2) = get_val (ring_validated 0 2) ∧
      is_flag (b' 0 2) = is_flag (ring_validated 0 2) ∧
      get_neighbour_mins (b' 0 2) = get_neighbour_mins (ring_validated 0 2) :=
  reveal_cell_no_cascade 26 5 5 ring_validated 0 2 (by decide) (by decide) (by decide)
    (by decide) (Or.inl (by decide))

/-! ## Counting loops -/

theorem count_fold (p q : Nat × Nat → Bool) (L : List (Nat × Nat)) :
    ∀ st : Int × Int, 0 ≤ st.1 → 0 ≤ st.2 →
      st.1 + L.length < 2147483648 → st.2 + L.length < 2147483648 →
      L.foldl (count_step p q) st = (st.1 + (L.countP p : Nat), st.2 + (L.countP q : Nat)) := by
  induction L with
  | nil => intro st _ _ _ _; simp
  | cons x L ih =>
    intro st h1 h2 h3 h4
    simp only [List.length_cons, Nat.cast_add, Nat.cast_one] at h3 h4
    rw [List.foldl_cons, List.countP_cons, List.countP_cons]
    have e1 : (count_step p q st x).1 = st.1 + (if p x = true then 1 else 0) := by
      unfold count_step
      by_cases hp : p x = true
      · simp only [hp, if_true]; exact wrap32_id _ (by omega) (by omega)
      · simp [hp]
    have e2 : (count_step p q st x).2 = st.2 + (if q x = true then 1 else 0) := by
      unfold count_step
      by_cases hq : q x = true
      · simp only [hq, if_true]; exact wrap32_id _ (by omega) (by omega)
      · simp [hq]
    have b1 : (0 : Int) ≤ (if p x = true then 1 else 0) ∧ (if p x = true then (1 : Int) else 0) ≤ 1 := by
      split <;> omega
    have b2 : (0 : Int) ≤ (if q x = true then 1 else 0) ∧ (if q x = true then (1 : Int) else 0) ≤ 1 := by
      split <;> omega
    rw [ih (count_step p q st x) (by rw [e1]; omega) (by rw [e2]; omega)
      (by rw [e1]; omega) (by rw [e2]; omega), e1, e2]
    refine Prod.ext ?_ ?_
    · simp only
      by_cases hp : p x = true
      · simp only [hp, if_true]; push_cast; ring
      · simp only [hp, Bool.false_eq_true, if_false]; push_cast; ring
    · simp only
      by_cases hq : q x = true
      · simp only [hq, if_true]; push_cast; ring
      · simp only [hq, Bool.false_eq_true, if_false]; push_cast; ring

theorem count_grid (p q : Nat × Nat → Bool) (rows cols : Nat) (hsz : rows * cols < 2147483648) :
    (positions rows cols).foldl (count_step p q) (0, 0)
      = ((((positions rows cols).countP p : Nat) : Int),
          (((positions rows cols).countP q : Nat) : Int)) := by
  rw [count_fold p q (positions rows cols) (0, 0) (le_refl 0) (le_refl 0)
    (by rw [length_positions]; simp only; omega) (by rw [length_positions]; simp only; omega)]
  simp

theorem solved_count_eq (rows cols : Nat) (board : Board) (hsz : rows * cols < 2147483648) :
    solved_count rows cols board
      = ((unrevealed_total rows cols board : Int), (mine_total rows cols board : Int)) := by
  have h : solved_count rows cols board
      = (positions rows cols).foldl
          (count_step (fun p => !is_revealed (board p.1 p.2)) (fun p => is_mine (board p.1 p.2)))
          (0, 0) := by
    unfold solved_count positions
    exact foldl_product (fun i j st =>
      count_step (fun p => !is_revealed (board p.1 p.2)) (fun p => is_mine (board p.1 p.2))
        st (i, j)) _ _ _
  rw [h, count_grid _ _ rows cols hsz]
  rfl

theorem flag_count_eq (rows cols : Nat) (board : Board) (hsz : rows * cols < 2147483648) :
    flag_count rows cols board
      = ((mine_total rows cols board : Int), (flag_total rows cols board : Int)) := by
  have h : flag_count rows cols board
      = (positions rows cols).foldl
          (count_step (fun p => is_mine (board p.1 p.2)) (fun p => is_flag (board p.1 p.2)))
          (0, 0) := by
    unfold flag_count positions
    exact foldl_product (fun i j st =>
      count_step (fun p => is_mine (board p.1 p.2)) (fun p => is_flag (board p.1 p.2))
        st (i, j)) _ _ _
  rw [h, count_grid _ _ rows cols hsz]
  rfl

theorem countP_eq_iff_of_imp {α : Type} (p q : α → Bool) (l : List α)
    (himp : ∀ x ∈ l, p x = true → q x = true) :
    l.countP p = l.countP q ↔ ∀ x ∈ l, q x = true → p x = true := by
  constructor
  · intro heq x hx hq
    by_contra hp
    have := countP_lt_of_imp p q l himp ⟨x, hx, hq, by simpa using hp⟩
    omega
  · intro h
    exact le_antisymm (List.countP_mono_left himp) (List.countP_mono_left h)

/-! ## The win check `is_solved` -/

/-- C6, refuted: on the 3 x 3 board reached by validating `111 / 1MX / 111`
and revealing the mine `(1, 1)`, `is_solved` returns true although the
non-mine cell `(1, 2)` has not been revealed. -/
theorem is_solved_with_unrevealed_safe_cell :
    (postprocess 3 99 3 3 (board_of small_codes)).1 = 1 ∧
    (∀ i < 3, ∀ j < 3,
      (reveal_cell 10 3 3 small_validated 1 1).map (fun p => (p.1, p.2 i j))
        = some (1, small_lost i j)) ∧
    ¬ (is_solved 3 3 small_lost = true ↔
        ∀ i < 3, ∀ j < 3, is_mine (small_lost i j) = false → is_revealed (small_lost i j) = true) := by
  decide

/-- C6, amended: `is_solved` returns true if and only if the number of
unrevealed cells equals the number of mines; on a board on which no mine is
revealed, that is if and only if every non-mine cell has been revealed. -/
theorem is_solved_iff (rows cols : Nat) (board : Board) (hsz : rows * cols < 2147483648) :
    (is_solved rows cols board = true ↔
      unrevealed_total rows cols board = mine_total rows cols board) ∧
    ((∀ i < rows, ∀ j < cols, is_mine (board i j) = true → is_revealed (board i j) = false) →
      (is_solved rows cols board = true ↔
        ∀ i < rows, ∀ j < cols, is_mine (board i j) = false → is_revealed (board i j) = true)) := by
  have h1 : is_solved rows cols board = true ↔
      unrevealed_total rows cols board = mine_total rows cols board := by
    unfold is_solved
    rw [solved_count_eq rows cols board hsz]
    simp only [decide_eq_true_eq]
    constructor
    · intro h; exact_mod_cast h.symm
    · intro h; exact_mod_cast h.symm
  refine ⟨h1, fun hno => ?_⟩
  rw [h1]
  unfold unrevealed_total mine_total
  rw [eq_comm, countP_eq_iff_of_imp (fun p => is_mine (board p.1 p.2))
    (fun p => !is_revealed (board p.1 p.2)) (positions rows cols) (by
      intro p hp hm
      have := (mem_positions rows cols p.1 p.2).mp hp
      simp only [hno p.1 this.1 p.2 this.2 hm, Bool.not_false])]
  constructor
  · intro h i hi j hj hm
    by_contra hr
    have := h (i, j) ((mem_positions rows cols i j).mpr ⟨hi, hj⟩) (by simpa using hr)
    simp only at this
    rw [hm] at this
    exact Bool.noConfusion this
  · intro h p hp hu
    have hin := (mem_positions rows cols p.1 p.2).mp hp
    by_contra hm
    have := h p.1 hin.1 p.2 hin.2 (by simpa using hm)
    rw [this] at hu
    exact Bool.noConfusion hu

theorem is_solved_iff_witness :
    (is_solved 3 3 small_validated = true ↔
      unrevealed_total 3 3 small_validated = mine_total 3 3 small_validated) ∧
    ((∀ i < 3, ∀ j < 3, is_mine (small_validated i j) = true →
        is_revealed (small_validated i j) = false) →
      (is_solved 3 3 small_validated = true ↔
        ∀ i < 3, ∀ j < 3, is_mine (small_validated i j) = false →
          is_revealed (small_validated i j) = true)) :=
  is_solved_iff 3 3 small_validated (by decide)

/-! ## Flagging a cell -/

theorem countP_update {α : Type} (p q : α → Bool) (a : α) (l : List α) (hnd : l.Nodup)
    (ha : a ∈ l) (hagree : ∀ x ∈ l, x ≠ a → q x = p x) (hp : p a = false) (hq : q a = true) :
    l.countP q = l.countP p + 1 := by
  induction l with
  | nil => exact absurd ha (List.not_mem_nil a)
  | cons x l ih =>
    rw [List.countP_cons, List.countP_cons]
    obtain ⟨hx, hnd'⟩ := List.nodup_cons.mp hnd
    by_cases hxa : x = a
    · subst hxa
      have : l.countP q = l.countP p :=
        List.countP_congr (fun y hy => by
          have hne : y ≠ x := fun e => hx (e ▸ hy)
          rw [hagree y (List.mem_cons_of_mem _ hy) hne])
      rw [this, hp, hq]
      simp
    · have hal : a ∈ l := (List.mem_cons.mp ha).resolve_left (fun e => hxa e.symm)
      rw [ih hnd' hal (fun y hy hne => hagree y (List.mem_cons_of_mem _ hy) hne),
        hagree x (List.mem_cons_self _ _) hxa]
      omega

theorem set_apply (board : Board) (row col v : Nat) (p : Nat × Nat) :
    (board.set row col v) p.1 p.2 = if p = (row, col) then v else board p.1 p.2 := by
  unfold Board.set
  by_cases h : p = (row, col)
  · rw [if_pos h, if_pos ⟨congrArg Prod.fst h, congrArg Prod.snd h⟩]
  · rw [if_neg h, if_neg (fun h' => h (Prod.ext h'.1 h'.2))]

theorem countP_set_same (f : Nat → Bool) (rows cols : Nat) (board : Board) (row col v : Nat)
    (h : f v = f (board row col)) :
    (positions rows cols).countP (fun p => f ((board.set row col v) p.1 p.2))
      = (positions rows cols).countP (fun p => f (board p.1 p.2)) := by
  apply List.countP_congr
  intro p _
  rw [set_apply]
  by_cases hp : p = (row, col)
  · rw [if_pos hp, h, hp]
  · rw [if_neg hp]

theorem countP_set_succ (f : Nat → Bool) (rows cols : Nat) (board : Board) (row col v : Nat)
    (hr : row < rows) (hc : col < cols) (h0 : f (board row col) = false) (h1 : f v = true) :
    (positions rows cols).countP (fun p => f ((board.set row col v) p.1 p.2))
      = (positions rows cols).countP (fun p => f (board p.1 p.2)) + 1 := by
  apply countP_update _ _ (row, col) _ (nodup_positions rows cols)
    ((mem_positions rows cols row col).mpr ⟨hr, hc⟩)
  · intro p _ hne
    simp only [set_apply, if_neg hne]
  · exact h0
  · have : (board.set row col v) row col = v := by simp [Board.set]
    simp only [this]; exact h1

theorem mine_total_le (rows cols : Nat) (board : Board) : mine_total rows cols board ≤ rows * cols := by
  unfold mine_total
  rw [← length_positions rows cols]
  exact List.countP_le_length _

theorem flag_total_le (rows cols : Nat) (board : Board) : flag_total rows cols board ≤ rows * cols := by
  unfold flag_total
  rw [← length_positions rows cols]
  exact List.countP_le_length _

theorem flag_toggle_eq (c : Nat) (hc : c < 65536) :
    (if is_flag c then c &&& NOT_BIT_6 else c ||| BIT_6) = c ^^^ BIT_6 := by
  unfold NOT_BIT_6 BIT_6
  by_cases hf : is_flag c = true
  · rw [if_pos hf]; exact and_not_eq_xor c hc hf
  · rw [if_neg hf]; exact or32_eq_xor c (by simpa using hf)

theorem flag_cell_unrevealed (rows cols : Nat) (board : Board) (row col : Nat)
    (hsz : rows * cols < 2147483648) (hcell : board row col < 65536)
    (hu : is_revealed (board row col) = false) :
    flag_cell rows cols board row col =
      ((mine_total rows cols (board.set row col (board row col ^^^ BIT_6)) : Int)
          - (flag_total rows cols (board.set row col (board row col ^^^ BIT_6)) : Int),
        board.set row col (board row col ^^^ BIT_6)) := by
  have hb : (if is_flag (board row col) = true then board.set row col (board row col &&& NOT_BIT_6)
      else board.set row col (board row col ||| BIT_6))
      = board.set row col (board row col ^^^ BIT_6) := by
    rw [← flag_toggle_eq _ hcell]
    split <;> rfl
  unfold flag_cell
  rw [if_neg (by simp [hu])]
  simp only [hb]
  rw [flag_count_eq rows cols _ hsz]
  simp only
  have h1 := mine_total_le rows cols (board.set row col (board row col ^^^ BIT_6))
  have h2 := flag_total_le rows cols (board.set row col (board row col ^^^ BIT_6))
  rw [wrap32_id _ (by omega) (by omega)]

/-- C7: on an in-range coordinate, if the target cell is revealed `flag_cell`
returns the sentinel `INT16_MIN` and leaves the board unchanged; otherwise it
flips the flag bit of the target cell only and returns the number of mine
cells minus the number of flagged cells, both counted over the whole board
after the toggle. -/
theorem flag_cell_toggles (rows cols : Nat) (board : Board) (row col : Nat)
    (hsz : rows * cols < 2147483648) (hr : row < rows) (hc : col < cols)
    (hcell : board row col < 65536) :
    (is_revealed (board row col) = true →
      flag_cell rows cols board row col = (INT16_MIN, board)) ∧
    (is_revealed (board row col) = false →
      ∃ b', flag_cell rows cols board row col
          = ((mine_total rows cols b' : Int) - (flag_total rows cols b' : Int), b') ∧
        b' row col = board row col ^^^ BIT_6 ∧
        (∀ r c, ¬ (r = row ∧ c = col) → b' r c = board r c) ∧
        is_flag (b' row col) = !is_flag (board row col)) := by
  constructor
  · intro h
    unfold flag_cell
    rw [if_pos h]
  · intro hu
    have _hin : (row, col) ∈ positions rows cols := (mem_positions rows cols row col).mpr ⟨hr, hc⟩
    refine ⟨board.set row col (board row col ^^^ BIT_6),
      flag_cell_unrevealed rows cols board row col hsz hcell hu, ?_, ?_, ?_⟩
    · simp [Board.set]
    · intro r c hne
      simp [Board.set, hne]
    · simp only [Board.set, and_self, if_true, BIT_6]
      exact is_flag_xor32 _

theorem flag_cell_toggles_witness :
    (is_revealed (ring_validated 1 1) = true →
      flag_cell 5 5 ring_validated 1 1 = (INT16_MIN, ring_validated)) ∧
    (is_revealed (ring_validated 1 1) = false →
      ∃ b', flag_cell 5 5 ring_validated 1 1
          = ((mine_total 5 5 b' : Int) - (flag_total 5 5 b' : Int), b') ∧
        b' 1 1 = ring_validated 1 1 ^^^ BIT_6 ∧
        (∀ r c, ¬ (r = 1 ∧ c = 1) → b' r c = ring_validated r c) ∧
        is_flag (b' 1 1) = !is_flag (ring_validated 1 1)) :=
  flag_cell_toggles 5 5 ring_validated 1 1 (by decide) (by decide) (by decide) (by decide)

/-- C8: on an in-range cell that is unrevealed and not flagged, calling
`flag_cell` twice on that coordinate restores the whole board to its original
state; the second call returns the mines-minus-flags value the board had
before the first call, and the first call returns that value minus 1. -/
theorem flag_cell_twice (rows cols : Nat) (board : Board) (row col : Nat)
    (hsz : rows * cols < 2147483648) (hr : row < rows) (hc : col < cols)
    (hcell : board row col < 65536)
    (hu : is_revealed (board row col) = false) (hf : is_flag (board row col) = false) :
    (flag_cell rows cols (flag_cell rows cols board row col).2 row col).2 = board ∧
    (flag_cell rows cols (flag_cell rows cols board row col).2 row col).1
      = (mine_total rows cols board : Int) - (flag_total rows cols board : Int) ∧
    (flag_cell rows cols board row col).1
      = (mine_total rows cols board : Int) - (flag_total rows cols board : Int) - 1 := by
  have e1 := flag_cell_unrevealed rows cols board row col hsz hcell hu
  have hcur : (board.set row col (board row col ^^^ BIT_6)) row col = board row col ^^^ BIT_6 := by
    simp [Board.set]
  have hcell2 : (board.set row col (board row col ^^^ BIT_6)) row col < 65536 := by
    rw [hcur]; exact xor32_lt _ hcell
  have hu2 : is_revealed ((board.set row col (board row col ^^^ BIT_6)) row col) = false := by
    rw [hcur]; unfold BIT_6; rw [is_revealed_xor32]; exact hu
  have e2 := flag_cell_unrevealed rows cols _ row col hsz hcell2 hu2
  have hback : (board.set row col (board row col ^^^ BIT_6)).set row col
      ((board.set row col (board row col ^^^ BIT_6)) row col ^^^ BIT_6) = board := by
    funext r c
    rw [hcur]
    unfold BIT_6
    rw [xor32_xor32]
    unfold Board.set
    by_cases h : r = row ∧ c = col
    · rw [if_pos h, h.1, h.2]
    · rw [if_neg h, if_neg h]
  have hm : mine_total rows cols (board.set row col (board row col ^^^ BIT_6))
      = mine_total rows cols board := by
    unfold mine_total
    exact countP_set_same is_mine rows cols board row col _ (by
      unfold is_mine BIT_6; rw [get_val_xor32])
  have hfl : flag_total rows cols (board.set row col (board row col ^^^ BIT_6))
      = flag_total rows cols board + 1 := by
    unfold flag_total
    exact countP_set_succ is_flag rows cols board row col _ hr hc hf (by
      unfold BIT_6; rw [is_flag_xor32, hf]; rfl)
  rw [e1]
  simp only
  rw [e2, hback, hm, hfl]
  refine ⟨rfl, rfl, ?_⟩
  push_cast
  ring

theorem flag_cell_twice_witness :
    (flag_cell 5 5 (flag_cell 5 5 ring_validated 1 1).2 1 1).2 = ring_validated ∧
    (flag_cell 5 5 (flag_cell 5 5 ring_validated 1 1).2 1 1).1
      = (mine_total 5 5 ring_validated : Int) - (flag_total 5 5 ring_validated : Int) ∧
    (flag_cell 5 5 ring_validated 1 1).1
      = (mine_total 5 5 ring_validated : Int) - (flag_total 5 5 ring_validated : Int) - 1 :=
  flag_cell_twice 5 5 ring_validated 1 1 (by decide) (by decide) (by decide) (by decide)
    (by decide) (by decide)

/-! ## Revealed and flagged cells -/

/-- C9, refuted: on the validated 3 x 3 board loaded from `XMX / XXX / XXX`,
after `flag_cell` on `(2, 1)` and then `reveal_cell` on the zero-count cell
`(2, 0)`, the cascade has set the revealed bit of the flagged cell `(2, 1)`
and its flag bit is still set. -/
theorem cascade_reveals_flagged_cell :
    (∀ i < 3, ∀ j < 3, set_cell 0 (code_at top_codes i j) = (true, board_of top_codes i j)) ∧
    (postprocess 3 99 3 3 (board_of top_codes)).1 = 1 ∧
    (play 10 3 3 top_validated [Move.flag 2 1, Move.reveal 2 0]).map
      (fun b => (is_revealed (b 2 1), is_flag (b 2 1))) = some (true, true) := by
  decide

theorem is_revealed_and_not (c : Nat) : is_revealed (c &&& NOT_BIT_6) = is_revealed c := by
  unfold NOT_BIT_6
  rw [is_revealed_testBit, is_revealed_testBit, Nat.testBit_and, testBit_65503]
  simp

theorem is_revealed_or_flag (c : Nat) : is_revealed (c ||| BIT_6) = is_revealed c := by
  unfold BIT_6
  exact is_revealed_or32 c

theorem set_cell_not_both (old val c : Nat) (h : set_cell old val = (true, c)) :
    ¬ (is_revealed c = true ∧ is_flag c = true) := by
  unfold set_cell at h
  simp only at h
  split at h
  · exact absurd (congrArg Prod.fst h) (by simp)
  · split at h
    · obtain ⟨-, rfl⟩ := Prod.mk.inj h; decide
    · split at h
      · obtain ⟨-, rfl⟩ := Prod.mk.inj h; decide
      · split at h
        · obtain ⟨-, rfl⟩ := Prod.mk.inj h; decide
        · split at h
          · obtain ⟨-, rfl⟩ := Prod.mk.inj h; decide
          · split at h
            · obtain ⟨-, rfl⟩ := Prod.mk.inj h; decide
            · split at h
              · rename_i hu
                obtain ⟨-, rfl⟩ := Prod.mk.inj h
                generalize toupper val = u at hu
                obtain ⟨h1, h2⟩ := hu
                interval_cases u <;> decide
              · obtain ⟨-, rfl⟩ := Prod.mk.inj h; decide

theorem reveal_cell_returns (fuel rows cols : Nat) (board : Board) (row col : Nat)
    (hfuel : rows * cols < fuel) :
    ∃ p, reveal_cell fuel rows cols board row col = some p := by
  obtain ⟨ret, b', h, -⟩ := reveal_cell_outcome fuel rows cols board row col
    (lt_of_le_of_lt (unrevealed_total_le rows cols board) hfuel)
  exact ⟨(ret, b'), h⟩

/-- What one `reveal_cell` call does to the board: nothing, or it reveals the
unflagged target alone, or it runs the cascade from an unflagged target with
`get_number` 0 that is not a mine. -/
theorem reveal_cell_board (fuel rows cols : Nat) (board : Board) (row col : Nat)
    (p : Int × Board) (h : reveal_cell fuel rows cols board row col = some p) :
    p.2 = board ∨
    (is_flag (board row col) = false ∧ p.2 = board.set row col (board row col ||| BIT_5)) ∨
    (is_flag (board row col) = false ∧ get_number (board row col) = 0 ∧
      is_mine (board row col) = false ∧ reveals rows cols board p.2) := by
  unfold reveal_cell at h
  by_cases h1 : row ≥ rows
  · rw [if_pos h1] at h
    exact Or.inl (by rw [← Option.some.inj h])
  · rw [if_neg h1] at h
    by_cases h2 : col ≥ cols
    · rw [if_pos h2] at h
      exact Or.inl (by rw [← Option.some.inj h])
    · rw [if_neg h2] at h
      by_cases h3 : (is_revealed (board row col) || is_flag (board row col)) = true
      · rw [if_pos h3] at h
        exact Or.inl (by rw [← Option.some.inj h])
      · rw [if_neg h3] at h
        have hu : is_revealed (board row col) = false := by
          cases hh : is_revealed (board row col)
          · rfl
          · exact absurd (by rw [hh]; rfl) h3
        have hf : is_flag (board row col) = false := by
          cases hh : is_flag (board row col)
          · rfl
          · exact absurd (by rw [hh, Bool.or_true]) h3
        by_cases h4 : (decide (get_number (board row col) ≠ 0) || is_mine (board row col)) = true
        · rw [if_pos h4, reveal_single_fresh _ hu hf] at h
          exact Or.inr (Or.inl ⟨hf, by rw [← Option.some.inj h]⟩)
        · rw [if_neg h4] at h
          obtain ⟨b', hb', hp⟩ := Option.map_eq_some'.mp h
          have hn : get_number (board row col) = 0 := by
            by_contra hne
            exact h4 (by simp [hne])
          have hm : is_mine (board row col) = false := by
            cases hh : is_mine (board row col)
            · rfl
            · exact absurd (by rw [hh, Bool.or_true]) h4
          refine Or.inr (Or.inr ⟨hf, hn, hm, ?_⟩)
          rw [← hp]
          exact reveal_floodfill_reveals rows cols fuel board row col b' hb'

theorem flag_cell_not_both (rows cols : Nat) (board : Board) (row col i j : Nat)
    (h : revealed_and_flagged ((flag_cell rows cols board row col).2 i j) = true) :
    revealed_and_flagged (board i j) = true := by
  unfold flag_cell at h
  by_cases hr : is_revealed (board row col) = true
  · rw [if_pos hr] at h; exact h
  · rw [if_neg hr] at h
    simp only at h
    by_cases hij : i = row ∧ j = col
    · exfalso
      rw [hij.1, hij.2] at h
      have hu : is_revealed (board row col) = false := by simpa using hr
      by_cases hf : is_flag (board row col) = true
      · rw [if_pos hf] at h
        simp only [Board.set, and_self, if_true, revealed_and_flagged, is_revealed_and_not, hu,
          Bool.false_and] at h
        exact Bool.noConfusion h
      · rw [if_neg hf] at h
        simp only [Board.set, and_self, if_true, revealed_and_flagged, is_revealed_or_flag, hu,
          Bool.false_and] at h
        exact Bool.noConfusion h
    · have e : ∀ v, (board.set row col v) i j = board i j := by
        intro v; unfold Board.set; rw [if_neg hij]
      split at h
      · rw [e] at h; exact h
      · rw [e] at h; exact h

/-- One call makes a cell revealed and flagged only as a cascade of
`reveal_cell`, started on another cell, reaching it while flagged and unrevealed. -/
theorem play_move_both (fuel rows cols : Nat) (board : Board) (m : Move) (b1 : Board)
    (h : play_move fuel rows cols board m = some b1) (i j : Nat)
    (hb : revealed_and_flagged (b1 i j) = true) :
    revealed_and_flagged (board i j) = true ∨
    ∃ r c, m = Move.reveal r c ∧ ¬ (r = i ∧ c = j) ∧ get_number (board r c) = 0 ∧
      is_mine (board r c) = false ∧ is_flag (board i j) = true ∧
      is_revealed (board i j) = false ∧ is_revealed (b1 i j) = true := by
  unfold play_move at h
  split at h
  · exact Option.noConfusion h
  · cases m with
    | flag row col =>
      simp only at h
      rw [← Option.some.inj h] at hb
      exact Or.inl (flag_cell_not_both rows cols board row col i j hb)
    | reveal row col =>
      simp only at h
      obtain ⟨p, hp, hp2⟩ := Option.map_eq_some'.mp h
      rcases reveal_cell_board fuel rows cols board row col p hp with h1 | ⟨hf, h1⟩ | ⟨hf, hn, hm, h1⟩
      · rw [← hp2, h1] at hb; exact Or.inl hb
      · rw [← hp2, h1] at hb
        left
        by_cases hij : i = row ∧ j = col
        · exfalso
          rw [hij.1, hij.2] at hb
          simp only [Board.set, and_self, if_true, revealed_and_flagged, BIT_5, is_flag_or16, hf,
            Bool.and_false] at hb
          exact Bool.noConfusion hb
        · unfold Board.set at hb; rw [if_neg hij] at hb; exact hb
      · rw [hp2] at h1
        rcases h1 i j with h2 | ⟨-, -, hu, h2⟩
        · rw [h2] at hb; exact Or.inl hb
        · right
          have hb' := hb
          rw [h2] at hb
          simp only [revealed_and_flagged, is_revealed_or16, is_flag_or16, Bool.true_and] at hb
          refine ⟨row, col, rfl, ?_, hn, hm, hb, hu, ?_⟩
          · rintro ⟨e1, e2⟩
            rw [e1, e2, hb] at hf
            exact Bool.noConfusion hf
          · simp only [revealed_and_flagged, Bool.and_eq_true] at hb'
            exact hb'.1

theorem play_cons (fuel rows cols : Nat) (board : Board) (m : Move) (ms : List Move) (b1 : Board)
    (h : play_move fuel rows cols board m = some b1) :
    play fuel rows cols board (m :: ms) = play fuel rows cols b1 ms := by
  unfold play
  rw [List.foldlM_cons, h]
  rfl

theorem play_cons_some (fuel rows cols : Nat) (board : Board) (m : Move) (ms : List Move)
    (b' : Board) (h : play fuel rows cols board (m :: ms) = some b') :
    ∃ b1, play_move fuel rows cols board m = some b1 ∧ play fuel rows cols b1 ms = some b' := by
  unfold play at h
  rw [List.foldlM_cons] at h
  exact option_bind_some _ _ _ h

theorem play_both (fuel rows cols : Nat) (moves : List Move) :
    ∀ board b', play fuel rows cols board moves = some b' → ∀ i j,
      revealed_and_flagged (b' i j) = true →
      revealed_and_flagged (board i j) = true ∨
      ∃ pre r c post b1 b2, moves = pre ++ Move.reveal r c :: post ∧
        play fuel rows cols board pre = some b1 ∧
        play_move fuel rows cols b1 (Move.reveal r c) = some b2 ∧
        ¬ (r = i ∧ c = j) ∧ get_number (b1 r c) = 0 ∧ is_mine (b1 r c) = false ∧
        is_flag (b1 i j) = true ∧ is_revealed (b1 i j) = false ∧
        is_revealed (b2 i j) = true := by
  induction moves with
  | nil =>
    intro board b' h i j hb
    have : board = b' := Option.some.inj h
    rw [this]; exact Or.inl hb
  | cons m ms ih =>
    intro board b' h i j hb
    obtain ⟨b1, h1, h2⟩ := play_cons_some fuel rows cols board m ms b' h
    rcases ih b1 b' h2 i j hb with hprev | ⟨pre, r, c, post, bx, by2, e, hpre, hmv, hne, hn, hm, hf, hu, hr⟩
    · rcases play_move_both fuel rows cols board m b1 h1 i j hprev with h0 | ⟨r, c, e, hne, hn, hm, hf, hu, hr⟩
      · exact Or.inl h0
      · exact Or.inr ⟨[], r, c, ms, board, b1, by rw [e]; rfl, rfl, by rw [← e]; exact h1,
          hne, hn, hm, hf, hu, hr⟩
    · exact Or.inr ⟨m :: pre, r, c, post, bx, by2, by rw [e]; rfl,
        by rw [play_cons fuel rows cols board m pre b1 h1]; exact hpre, hmv, hne, hn, hm, hf, hu, hr⟩

theorem play_returns (fuel rows cols : Nat) (hfuel : rows * cols < fuel) (moves : List Move) :
    ∀ board, moves.all (Move.defined rows cols) = true →
      ∃ b', play fuel rows cols board moves = some b' := by
  induction moves with
  | nil => intro board _; exact ⟨board, rfl⟩
  | cons m ms ih =>
    intro board hdef
    rw [List.all_cons, Bool.and_eq_true] at hdef
    have h1 : ∃ b1, play_move fuel rows cols board m = some b1 := by
      unfold play_move
      rw [if_neg (by rw [hdef.1]; exact Bool.noConfusion)]
      cases m with
      | flag row col => exact ⟨_, rfl⟩
      | reveal row col =>
        obtain ⟨p, hp⟩ := reveal_cell_returns fuel rows cols board row col hfuel
        exact ⟨p.2, by simp only [hp]; rfl⟩
    obtain ⟨b1, hb1⟩ := h1
    obtain ⟨b', hb'⟩ := ih b1 hdef.2
    exact ⟨b', by rw [play_cons fuel rows cols board m ms b1 hb1]; exact hb'⟩

theorem postprocess_not_both (MIN_SIZE MAX_SIZE rows cols : Nat) (board : Board)
    (hmin : 1 ≤ MIN_SIZE) (hmax : MAX_SIZE * MAX_SIZE < 2147483648)
    (hset : ∀ i < rows, ∀ j < cols, ∃ old val, set_cell old val = (true, board i j))
    (hret : (postprocess MIN_SIZE MAX_SIZE rows cols board).1 ≠ -1) :
    ∀ i < rows, ∀ j < cols,
      revealed_and_flagged ((postprocess MIN_SIZE MAX_SIZE rows cols board).2 i j) = false := by
  intro i hi j hj
  obtain ⟨-, -, -, -, heq⟩ := postprocess_accepts _ _ _ _ _ hmin hmax hret
  obtain ⟨old, val, hsc⟩ := hset i hi j hj
  have hk : get_mins rows cols i j board < 16 := lt_of_le_of_lt (get_mins_le _ _ _ _ _) (by norm_num)
  rw [heq]
  simp only
  rw [counts_written_grid rows cols board i j hi hj]
  unfold revealed_and_flagged
  rw [is_revealed_or _ _ hk, is_flag_or _ _ (by omega)]
  have := set_cell_not_both old val _ hsc
  cases h1 : is_revealed (board i j)
  · rfl
  · cases h2 : is_flag (board i j)
    · rfl
    · exact absurd ⟨h1, h2⟩ this

/-- C9, amended: starting from a board whose cells were built by `set_cell`
and accepted by `postprocess`, every sequence of `reveal_cell` calls and
in-range `flag_cell` calls runs to the end, and afterwards a cell of the grid
has both its revealed bit and its flag bit set only if some `reveal_cell` call
of the sequence, on another cell that was not a mine and had count 0, ran the
flood-fill cascade while this cell was flagged and unrevealed and that call
set its revealed bit. -/
theorem revealed_and_flagged_only_by_cascade (fuel MIN_SIZE MAX_SIZE rows cols : Nat)
    (board : Board) (moves : List Move)
    (hmin : 1 ≤ MIN_SIZE) (hmax : MAX_SIZE * MAX_SIZE < 2147483648)
    (hset : ∀ i < rows, ∀ j < cols, ∃ old val, set_cell old val = (true, board i j))
    (hret : (postprocess MIN_SIZE MAX_SIZE rows cols board).1 ≠ -1)
    (hfuel : rows * cols < fuel)
    (hdef : moves.all (Move.defined rows cols) = true) :
    ∃ b', play fuel rows cols (postprocess MIN_SIZE MAX_SIZE rows cols board).2 moves = some b' ∧
      ∀ i < rows, ∀ j < cols, revealed_and_flagged (b' i j) = true →
        ∃ pre r c post b1 b2, moves = pre ++ Move.reveal r c :: post ∧
          play fuel rows cols (postprocess MIN_SIZE MAX_SIZE rows cols board).2 pre = some b1 ∧
          play_move fuel rows cols b1 (Move.reveal r c) = some b2 ∧
          ¬ (r = i ∧ c = j) ∧ get_number (b1 r c) = 0 ∧ is_mine (b1 r c) = false ∧
          is_flag (b1 i j) = true ∧ is_revealed (b1 i j) = false ∧
          is_revealed (b2 i j) = true := by
  obtain ⟨b', hb'⟩ := play_returns fuel rows cols hfuel moves
    (postprocess MIN_SIZE MAX_SIZE rows cols board).2 hdef
  refine ⟨b', hb', fun i hi j hj hb => ?_⟩
  rcases play_both fuel rows cols moves _ b' hb' i j hb with h0 | h1
  · rw [postprocess_not_both _ _ _ _ _ hmin hmax hset hret i hi j hj] at h0
    exact Bool.noConfusion h0
  · exact h1

theorem revealed_and_flagged_only_by_cascade_witness :
    ∃ b', play 10 3 3 (postprocess 3 99 3 3 (board_of top_codes)).2
        [Move.flag 2 1, Move.reveal 2 0] = some b' ∧
      ∀ i < 3, ∀ j < 3, revealed_and_flagged (b' i j) = true →
        ∃ pre r c post b1 b2, [Move.flag 2 1, Move.reveal 2 0] = pre ++ Move.reveal r c :: post ∧
          play 10 3 3 (postprocess 3 99 3 3 (board_of top_codes)).2 pre = some b1 ∧
          play_move 10 3 3 b1 (Move.reveal r c) = some b2 ∧
          ¬ (r = i ∧ c = j) ∧ get_number (b1 r c) = 0 ∧ is_mine (b1 r c) = false ∧
          is_flag (b1 i j) = true ∧ is_revealed (b1 i j) = false ∧
          is_revealed (b2 i j) = true :=
  revealed_and_flagged_only_by_cascade 10 3 99 3 3 (board_of top_codes)
    [Move.flag 2 1, Move.reveal 2 0] (by decide) (by decide)
    (fun i _ j _ => ⟨0, code_at top_codes i j, by revert i j; decide⟩)
    (by decide) (by decide) (by decide)

/-! ## Termination of the cascade -/

theorem traced_step_erase (fuel rows cols row col : Nat)
    (ih : ∀ st row col, (reveal_floodfill_traced rows cols fuel st row col).map Prod.fst
      = reveal_floodfill fuel rows cols st.1 row col)
    (st : Board × List (Nat × Nat × Nat)) (d : Int × Int) :
    (traced_step rows cols row col (reveal_floodfill_traced rows cols fuel) st d).map Prod.fst
      = floodfill_step fuel rows cols row col st.1 d := by
  unfold traced_step floodfill_step
  by_cases h0 : d = (0, 0)
  · rw [if_pos h0, if_pos h0]; rfl
  · rw [if_neg h0, if_neg h0]
    by_cases hv : valid_pos rows cols (size_add row d.1) (size_add col d.2) = false
    · rw [if_pos hv, if_pos hv]; rfl
    · rw [if_neg hv, if_neg hv]
      by_cases hr : is_revealed (st.1 (size_add row d.1) (size_add col d.2)) = true
      · rw [if_pos hr, if_pos hr]; rfl
      · rw [if_neg hr, if_neg hr]
        by_cases hn : get_number (st.1 (size_add row d.1) (size_add col d.2)) ≠ 0
        · rw [if_pos hn, if_pos hn]; rfl
        · rw [if_neg hn, if_neg hn]
          exact ih _ _ _

theorem traced_fold_erase (fuel rows cols row col : Nat)
    (ih : ∀ st row col, (reveal_floodfill_traced rows cols fuel st row col).map Prod.fst
      = reveal_floodfill fuel rows cols st.1 row col)
    (L : List (Int × Int)) :
    ∀ st, (L.foldlM (traced_step rows cols row col (reveal_floodfill_traced rows cols fuel)) st).map
        Prod.fst
      = L.foldlM (floodfill_step fuel rows cols row col) st.1 := by
  induction L with
  | nil => intro st; rfl
  | cons d L ihL =>
    intro st
    rw [List.foldlM_cons, List.foldlM_cons, ← traced_step_erase fuel rows cols row col ih st d]
    cases traced_step rows cols row col (reveal_floodfill_traced rows cols fuel) st d with
    | none => rfl
    | some st1 => exact ihL st1

/-- Dropping the log of the traced cascade gives `reveal_floodfill`. -/
theorem reveal_floodfill_traced_erase (rows cols : Nat) (fuel : Nat) :
    ∀ st row col, (reveal_floodfill_traced rows cols fuel st row col).map Prod.fst
      = reveal_floodfill fuel rows cols st.1 row col := by
  induction fuel with
  | zero => intro st row col; rw [reveal_floodfill_traced, reveal_floodfill]; rfl
  | succ fuel ih =>
    intro st row col
    rw [reveal_floodfill_traced, reveal_floodfill_succ]
    exact traced_fold_erase fuel rows cols row col ih offset_pairs st

theorem log_bounded_refl (rows cols : Nat) (st : Board × List (Nat × Nat × Nat)) :
    log_bounded rows cols st st :=
  ⟨le_refl _, fun _ he => Or.inl he⟩

theorem log_bounded_trans (rows cols : Nat) (s1 s2 s3 : Board × List (Nat × Nat × Nat))
    (h12 : log_bounded rows cols s1 s2) (h23 : log_bounded rows cols s2 s3) :
    log_bounded rows cols s1 s3 := by
  refine ⟨le_trans h23.1 h12.1, fun e he => ?_⟩
  rcases h23.2 e he with h | h
  · exact h12.2 e h
  · exact Or.inr h

theorem traced_step_cases (rows cols row col : Nat)
    (nested : Board × List (Nat × Nat × Nat) → Nat → Nat → Option (Board × List (Nat × Nat × Nat)))
    (st : Board × List (Nat × Nat × Nat)) (d : Int × Int) :
    traced_step rows cols row col nested st d = some st ∨
    (size_add row d.1 < rows ∧ size_add col d.2 < cols ∧
      is_revealed (st.1 (size_add row d.1) (size_add col d.2)) = false ∧
      (traced_step rows cols row col nested st d =
          some (st.1.set (size_add row d.1) (size_add col d.2)
            (st.1 (size_add row d.1) (size_add col d.2) ||| 16), st.2) ∨
        traced_step rows cols row col nested st d =
          nested
            (st.1.set (size_add row d.1) (size_add col d.2)
              (st.1 (size_add row d.1) (size_add col d.2) ||| 16),
             st.2 ++ [(size_add row d.1, size_add col d.2,
                st.1 (size_add row d.1) (size_add col d.2))])
            (size_add row d.1) (size_add col d.2))) := by
  unfold traced_step
  by_cases h0 : d = (0, 0)
  · exact Or.inl (by rw [if_pos h0])
  · rw [if_neg h0]
    by_cases hv : valid_pos rows cols (size_add row d.1) (size_add col d.2) = false
    · exact Or.inl (by rw [if_pos hv])
    · rw [if_neg hv]
      by_cases hr : is_revealed (st.1 (size_add row d.1) (size_add col d.2)) = true
      · exact Or.inl (by rw [if_pos hr])
      · rw [if_neg hr]
        have hv2 := (valid_pos_iff _ _ _ _).mp (by simpa using hv)
        refine Or.inr ⟨hv2.1, hv2.2, by simpa using hr, ?_⟩
        by_cases hn : get_number (st.1 (size_add row d.1) (size_add col d.2)) ≠ 0
        · exact Or.inl (by rw [if_pos hn])
        · exact Or.inr (by rw [if_neg hn])

theorem traced_fold_bounded (fuel rows cols row col : Nat)
    (ih : ∀ st row col st', reveal_floodfill_traced rows cols fuel st row col = some st' →
      log_bounded rows cols st st')
    (L : List (Int × Int)) :
    ∀ st st',
      L.foldlM (traced_step rows cols row col (reveal_floodfill_traced rows cols fuel)) st = some st' →
      log_bounded rows cols st st' := by
  induction L with
  | nil =>
    intro st st' h
    have : st = st' := Option.some.inj h
    rw [this]; exact log_bounded_refl _ _ _
  | cons d L ihL =>
    intro st st' h
    rw [List.foldlM_cons] at h
    obtain ⟨s1, h1, h2⟩ := option_bind_some _ _ _ h
    refine log_bounded_trans _ _ _ _ _ ?_ (ihL s1 st' h2)
    rcases traced_step_cases rows cols row col (reveal_floodfill_traced rows cols fuel) st d
      with hc | ⟨hr, hc, hu, hc2 | hc3⟩
    · rw [hc] at h1
      rw [← Option.some.inj h1]; exact log_bounded_refl _ _ _
    · rw [hc2] at h1
      rw [← Option.some.inj h1]
      have hlt := unrevealed_total_set rows cols st.1 _ _ hr hc hu
      exact ⟨by simp only; omega, fun e he => Or.inl he⟩
    · rw [hc3] at h1
      have hlt := unrevealed_total_set rows cols st.1 _ _ hr hc hu
      obtain ⟨hb1, hb2⟩ := ih _ _ _ _ h1
      simp only [List.length_append, List.length_singleton] at hb1
      refine ⟨by omega, fun e he => ?_⟩
      rcases hb2 e he with h' | h'
      · rcases List.mem_append.mp h' with h'' | h''
        · exact Or.inl h''
        · rw [List.mem_singleton] at h''
          rw [h'']
          exact Or.inr ⟨hr, hc, hu⟩
      · exact Or.inr h'

theorem reveal_floodfill_traced_bounded (rows cols : Nat) (fuel : Nat) :
    ∀ st row col st', reveal_floodfill_traced rows cols fuel st row col = some st' →
      log_bounded rows cols st st' := by
  induction fuel with
  | zero =>
    intro st row col st' h
    rw [reveal_floodfill_traced] at h
    exact Option.noConfusion h
  | succ fuel ih =>
    intro st row col st' h
    rw [reveal_floodfill_traced] at h
    exact traced_fold_bounded fuel rows cols row col ih offset_pairs st st' h

/-- C10: `reveal_floodfill` terminates for every board and every start
position, as soon as the bound on the depth of nested invocations exceeds the
number of unrevealed cells; the number of its nested invocations plus the
number of cells left unrevealed is at most the number of initially unrevealed
cells, so there are at most that many invocations; at most `rows * cols` cells
are newly revealed; and every nested invocation starts from a cell of the grid
that was unrevealed when it was examined. -/
theorem reveal_floodfill_terminates (fuel rows cols : Nat) (board : Board) (row col : Nat)
    (hfuel : unrevealed_total rows cols board < fuel) :
    ∃ b' log,
      reveal_floodfill_traced rows cols fuel (board, []) row col = some (b', log) ∧
      reveal_floodfill fuel rows cols board row col = some b' ∧
      log.length + unrevealed_total rows cols b' ≤ unrevealed_total rows cols board ∧
      log.length ≤ unrevealed_total rows cols board ∧
      newly_revealed rows cols board b' ≤ rows * cols ∧
      ∀ e ∈ log, e.1 < rows ∧ e.2.1 < cols ∧ is_revealed e.2.2 = false := by
  obtain ⟨b', hb'⟩ := reveal_floodfill_returns rows cols fuel board row col hfuel
  have herase := reveal_floodfill_traced_erase rows cols fuel (board, []) row col
  rw [hb'] at herase
  obtain ⟨st', hst', hfst⟩ := Option.map_eq_some'.mp herase
  obtain ⟨h1, h2⟩ := reveal_floodfill_traced_bounded rows cols fuel (board, []) row col st' hst'
  simp only [List.length_nil, Nat.zero_add] at h1
  refine ⟨b', st'.2, ?_, hb', ?_, ?_, ?_, ?_⟩
  · rw [hst', ← hfst]
  · rw [← hfst]; exact h1
  · omega
  · unfold newly_revealed
    rw [← length_positions rows cols]
    exact List.countP_le_length _
  · intro e he
    rcases h2 e he with h | h
    · exact absurd h (List.not_mem_nil e)
    · exact h

theorem reveal_floodfill_terminates_witness :
    ∃ b' log,
      reveal_floodfill_traced 3 3 10 (top_validated, []) 2 0 = some (b', log) ∧
      reveal_floodfill 10 3 3 top_validated 2 0 = some b' ∧
      log.length + unrevealed_total 3 3 b' ≤ unrevealed_total 3 3 top_validated ∧
      log.length ≤ unrevealed_total 3 3 top_validated ∧
      newly_revealed 3 3 top_validated b' ≤ 3 * 3 ∧
      ∀ e ∈ log, e.1 < 3 ∧ e.2.1 < 3 ∧ is_revealed e.2.2 = false :=
  reveal_floodfill_terminates 10 3 3 top_validated 2 0 (by decide)

/-! ## Frame of `reveal_cell` -/

/-- C11: every call of `reveal_cell`, its flood-fill cascade included, leaves
each cell equal to its previous contents with at most the revealed bit
additionally set: no revealed bit is cleared and no value byte, flag bit or
stored neighbour count changes. -/
theorem reveal_cell_only_sets_revealed (fuel rows cols : Nat) (board : Board) (row col : Nat)
    (hfuel : unrevealed_total rows cols board < fuel) :
    ∃ ret b', reveal_cell fuel rows cols board row col = some (ret, b') ∧
      ∀ r c, (b' r c = board r c ∨ b' r c = board r c ||| BIT_5) ∧
        (is_revealed (board r c) = true → is_revealed (b' r c) = true) ∧
        get_val (b' r c) = get_val (board r c) ∧
        is_flag (b' r c) = is_flag (board r c) ∧
        get_neighbour_mins (b' r c) = get_neighbour_mins (board r c) := by
  obtain ⟨ret, b', h, -⟩ := reveal_cell_outcome fuel rows cols board row col hfuel
  refine ⟨ret, b', h, fun r c => ?_⟩
  have hcell : b' r c = board r c ∨ b' r c = board r c ||| BIT_5 := by
    rcases reveal_cell_board fuel rows cols board row col (ret, b') h with h1 | ⟨-, h1⟩ | ⟨-, -, -, h1⟩
    · simp only at h1; rw [h1]; exact Or.inl rfl
    · simp only at h1
      rw [h1]
      unfold Board.set
      by_cases hrc : r = row ∧ c = col
      · rw [if_pos hrc, hrc.1, hrc.2]; exact Or.inr rfl
      · rw [if_neg hrc]; exact Or.inl rfl
    · rcases h1 r c with h2 | ⟨-, -, -, h2⟩
      · exact Or.inl h2
      · exact Or.inr h2
  refine ⟨hcell, ?_⟩
  rcases hcell with e | e
  · rw [e]; exact ⟨fun h => h, rfl, rfl, rfl⟩
  · rw [e]
    unfold BIT_5
    exact ⟨fun _ => is_revealed_or16 _, get_val_or _ _ (by norm_num), is_flag_or16 _, mins_or16 _⟩

theorem reveal_cell_only_sets_revealed_witness :
    ∃ ret b', reveal_cell 10 3 3 top_validated 2 0 = some (ret, b') ∧
      ∀ r c, (b' r c = top_validated r c ∨ b' r c = top_validated r c ||| BIT_5) ∧
        (is_revealed (top_validated r c) = true → is_revealed (b' r c) = true) ∧
        get_val (b' r c) = get_val (top_validated r c) ∧
        is_flag (b' r c) = is_flag (top_validated r c) ∧
        get_neighbour_mins (b' r c) = get_neighbour_mins (top_validated r c) :=
  reveal_cell_only_sets_revealed 10 3 3 top_validated 2 0 (by decide)

/-! ## The cell constructor `set_cell` -/

theorem is_valid_iff (u : Nat) :
    is_valid u = true ↔
      (u = 88 ∨ u = 77 ∨ u = 70 ∨ u = 87 ∨ u = 46 ∨ (48 ≤ u ∧ u ≤ 56)) := by
  simp [is_valid, or_assoc]

/-- The cell written by `set_cell` for an accepted upper-case code. -/
theorem set_cell_value (cell val : Nat) (h : is_valid (toupper val) = true) :
    set_cell cell val = (true,
      if toupper val = 70 then 19744
      else if toupper val = 77 then 19712
      else if toupper val = 88 then 22528
      else if toupper val = 87 then 11808
      else if toupper val = 46 then 11792
      else toupper val * 256 + 16) := by
  unfold set_cell
  simp only [h, Bool.not_true, Bool.false_eq_true, if_false]
  generalize toupper val = u at h
  rcases (is_valid_iff u).mp h with e | e | e | e | e | ⟨e1, e2⟩
  · subst e; rfl
  · subst e; rfl
  · subst e; rfl
  · subst e; rfl
  · subst e; rfl
  · interval_cases u <;> rfl

theorem set_cell_invalid (cell val : Nat) (h : is_valid (toupper val) = false) :
    set_cell cell val = (false, cell) := by
  unfold set_cell
  simp [h]

/-- Past the `NULL` check, `set_cell` returns true exactly when `toupper(val)`
is in the vocabulary and otherwise leaves the cell unchanged; on success the
new cell depends only on `toupper(val)`, its stored neighbour count is 0, and
its kind, revealed bit and flag bit are those of the code. -/
theorem set_cell_content_spec (cell val : Nat) :
    ((set_cell cell val).1 = true ↔
      (toupper val = 88 ∨ toupper val = 77 ∨ toupper val = 70 ∨ toupper val = 87 ∨
        toupper val = 46 ∨ (48 ≤ toupper val ∧ toupper val ≤ 56))) ∧
    ((set_cell cell val).1 = false → (set_cell cell val).2 = cell) ∧
    ((set_cell cell val).1 = true →
      (∀ cell2 val2, toupper val2 = toupper val →
        (set_cell cell2 val2).2 = (set_cell cell val).2) ∧
      get_neighbour_mins (set_cell cell val).2 = 0 ∧
      (toupper val = 77 → is_mine (set_cell cell val).2 = true ∧
        is_revealed (set_cell cell val).2 = false ∧ is_flag (set_cell cell val).2 = false) ∧
      (toupper val = 70 → is_mine (set_cell cell val).2 = true ∧
        is_revealed (set_cell cell val).2 = false ∧ is_flag (set_cell cell val).2 = true) ∧
      (toupper val = 88 → is_mine (set_cell cell val).2 = false ∧
        is_revealed (set_cell cell val).2 = false ∧ is_flag (set_cell cell val).2 = false) ∧
      (toupper val = 87 → is_mine (set_cell cell val).2 = false ∧
        is_revealed (set_cell cell val).2 = false ∧ is_flag (set_cell cell val).2 = true) ∧
      (toupper val = 46 ∨ (48 ≤ toupper val ∧ toupper val ≤ 56) →
        is_mine (set_cell cell val).2 = false ∧
        is_revealed (set_cell cell val).2 = true ∧ is_flag (set_cell cell val).2 = false)) := by
  by_cases hv : is_valid (toupper val) = true
  · have hs := set_cell_value cell val hv
    refine ⟨?_, ?_, ?_⟩
    · rw [hs]; exact ⟨fun _ => (is_valid_iff _).mp hv, fun _ => rfl⟩
    · rw [hs]; intro h; exact Bool.noConfusion h
    · intro _
      refine ⟨?_, ?_, ?_, ?_, ?_, ?_, ?_⟩
      · intro cell2 val2 he
        rw [hs, set_cell_value cell2 val2 (by rw [he]; exact hv), he]
      · exact set_cell_low_bits cell val _ (by rw [hs])
      · intro e; rw [hs, e]; decide
      · intro e; rw [hs, e]; decide
      · intro e; rw [hs, e]; decide
      · intro e; rw [hs, e]; decide
      · intro e
        rw [hs]
        generalize toupper val = u at e
        rcases e with e | ⟨e1, e2⟩
        · subst e; decide
        · interval_cases u <;> decide
  · have hv2 : is_valid (toupper val) = false := by simpa using hv
    have hs := set_cell_invalid cell val hv2
    refine ⟨?_, ?_, ?_⟩
    · rw [hs]
      exact ⟨fun h => Bool.noConfusion h, fun h => absurd ((is_valid_iff _).mpr h) hv⟩
    · intro _; rw [hs]
    · rw [hs]; intro h; exact Bool.noConfusion h

/-- On a pointer to a cell, `set_cell_ptr` is `set_cell` on the content of the
cell. -/
theorem set_cell_ptr_some (cell val : Nat) :
    set_cell_ptr (some cell) val = ((set_cell cell val).1, some (set_cell cell val).2) := by
  unfold set_cell_ptr set_cell
  simp only
  split_ifs <;> rfl

/-- C12, counterexample: on the `NULL` pointer `set_cell` returns false for
`'X'`, although `toupper('X')` is `'X'`, a character of the vocabulary. -/
theorem set_cell_null_rejects_vocabulary :
    toupper 88 = 88 ∧ is_valid (toupper 88) = true ∧ (set_cell_ptr none 88).1 = false := by
  decide

/-- C12, amended: on the `NULL` pointer `set_cell` returns false for every
character and writes nothing.  On a pointer to a cell, `set_cell` returns true
exactly when `toupper(val)` is one of `'X'`, `'M'`, `'F'`, `'W'`, `'.'`, `'0'`
to `'8'`, and otherwise returns false leaving the cell unchanged; on success
the new cell depends only on `toupper(val)`, its stored neighbour count is 0,
and it is a mine for `'M'` and `'F'`, flagged for `'F'` and `'W'`, revealed for
`'.'` and the digits, and nothing else. -/
theorem set_cell_ptr_vocabulary (cell val : Nat) :
    set_cell_ptr none val = (false, none) ∧
    ((set_cell_ptr (some cell) val).1 = true ↔
      (toupper val = 88 ∨ toupper val = 77 ∨ toupper val = 70 ∨ toupper val = 87 ∨
        toupper val = 46 ∨ (48 ≤ toupper val ∧ toupper val ≤ 56))) ∧
    ((set_cell_ptr (some cell) val).1 = false →
      (set_cell_ptr (some cell) val).2 = some cell) ∧
    ((set_cell_ptr (some cell) val).1 = true →
      ∃ new, (set_cell_ptr (some cell) val).2 = some new ∧
        (∀ cell2 val2, toupper val2 = toupper val →
          (set_cell_ptr (some cell2) val2).2 = some new) ∧
        get_neighbour_mins new = 0 ∧
        (toupper val = 77 →
          is_mine new = true ∧ is_revealed new = false ∧ is_flag new = false) ∧
        (toupper val = 70 →
          is_mine new = true ∧ is_revealed new = false ∧ is_flag new = true) ∧
        (toupper val = 88 →
          is_mine new = false ∧ is_revealed new = false ∧ is_flag new = false) ∧
        (toupper val = 87 →
          is_mine new = false ∧ is_revealed new = false ∧ is_flag new = true) ∧
        (toupper val = 46 ∨ (48 ≤ toupper val ∧ toupper val ≤ 56) →
          is_mine new = false ∧ is_revealed new = true ∧ is_flag new = false)) := by
  obtain ⟨h1, h2, h3⟩ := set_cell_content_spec cell val
  rw [set_cell_ptr_some]
  refine ⟨rfl, h1, ?_, ?_⟩
  · intro h
    exact congrArg some (h2 h)
  · intro h
    obtain ⟨k1, k2, k3⟩ := h3 h
    refine ⟨(set_cell cell val).2, rfl, fun cell2 val2 he => ?_, k2, k3⟩
    rw [set_cell_ptr_some]
    exact congrArg some (k1 cell2 val2 he)

/-! ## The presentation code `show_cell` -/

/-- C17: for a cell whose stored neighbour count is at most 8, `show_cell`
returns `'M'` for a revealed mine, `' '` for a revealed non-mine with count 0,
the digit `'1'` to `'8'` for a revealed non-mine with count 1 to 8, `'F'` for
an unrevealed flagged cell and `'X'` for an unrevealed unflagged cell; and any
two unrevealed cells with the same flag bit get the same code, whatever their
kind and stored count. -/
theorem show_cell_codes (cell other : Nat) (hcount : get_neighbour_mins cell ≤ 8) :
    (is_revealed cell = true → is_mine cell = true → show_cell cell = 77) ∧
    (is_revealed cell = true → is_mine cell = false → get_neighbour_mins cell = 0 →
      show_cell cell = 32) ∧
    (is_revealed cell = true → is_mine cell = false → 1 ≤ get_neighbour_mins cell →
      show_cell cell = 48 + get_neighbour_mins cell ∧ 49 ≤ show_cell cell ∧ show_cell cell ≤ 56) ∧
    (is_revealed cell = false → is_flag cell = true → show_cell cell = 70) ∧
    (is_revealed cell = false → is_flag cell = false → show_cell cell = 88) ∧
    (is_revealed cell = false → is_revealed other = false → is_flag cell = is_flag other →
      show_cell cell = show_cell other) := by
  refine ⟨?_, ?_, ?_, ?_, ?_, ?_⟩
  · intro hr hm
    simp [show_cell, hr, hm]
  · intro hr hm h0
    simp [show_cell, hr, hm, h0]
  · intro hr hm h1
    have hne : get_neighbour_mins cell ≠ 0 := by omega
    have e : show_cell cell = 48 + get_neighbour_mins cell := by
      simp only [show_cell, hr, hm, Bool.false_and, Bool.false_eq_true, if_false, if_true, hne]
      omega
    rw [e]
    omega
  · intro hr hf
    simp [show_cell, hr, hf]
  · intro hr hf
    simp [show_cell, hr, hf]
  · intro hr hr2 hf
    cases h : is_flag cell
    · rw [h] at hf
      simp [show_cell, hr, hr2, h, ← hf]
    · rw [h] at hf
      simp [show_cell, hr, hr2, h, ← hf]

theorem show_cell_codes_witness :
    (is_revealed 19744 = true → is_mine 19744 = true → show_cell 19744 = 77) ∧
    (is_revealed 19744 = true → is_mine 19744 = false → get_neighbour_mins 19744 = 0 →
      show_cell 19744 = 32) ∧
    (is_revealed 19744 = true → is_mine 19744 = false → 1 ≤ get_neighbour_mins 19744 →
      show_cell 19744 = 48 + get_neighbour_mins 19744 ∧ 49 ≤ show_cell 19744 ∧
        show_cell 19744 ≤ 56) ∧
    (is_revealed 19744 = false → is_flag 19744 = true → show_cell 19744 = 70) ∧
    (is_revealed 19744 = false → is_flag 19744 = false → show_cell 19744 = 88) ∧
    (is_revealed 19744 = false → is_revealed 11813 = false → is_flag 19744 = is_flag 11813 →
      show_cell 19744 = show_cell 11813) :=
  show_cell_codes 19744 11813 (by decide)

/-! ## The neighbour scan at the edges -/

theorem or_small_high_bits (cell k : Nat) (hk : k < 16) : (cell ||| k) >>> 4 = cell >>> 4 := by
  have h0 : k >>> 4 = 0 := by
    rw [Nat.shiftRight_eq_div_pow]; exact Nat.div_eq_of_lt (by simpa using hk)
  rw [shr_or, h0, Nat.or_zero]

theorem get_mins_grid_only (rows cols i j : Nat) (b1 b2 : Board)
    (h : ∀ r < rows, ∀ c < cols, b2 r c = b1 r c) :
    get_mins rows cols i j b2 = get_mins rows cols i j b1 := by
  rw [get_mins_eq_countP, get_mins_eq_countP]
  congr 1
  funext d
  unfold mins_counts
  by_cases hv : valid_pos rows cols (size_add i d.1) (size_add j d.2) = true
  · have hv2 := (valid_pos_iff _ _ _ _).mp hv
    rw [h _ hv2.1 _ hv2.2]
  · have : valid_pos rows cols (size_add i d.1) (size_add j d.2) = false := by simpa using hv
    rw [this, Bool.false_and, Bool.false_and]

theorem size_add_wraps (n i : Nat) (d : Int) (hd : d = -1 ∨ d = 0 ∨ d = 1)
    (hn : n < 18446744073709551616) (hneg : (i : Int) + d < 0) :
    size_add i d = 18446744073709551615 ∧ ¬ size_add i d < n := by
  unfold size_add
  norm_num
  rcases hd with h | h | h <;> subst h <;> omega

/-- C20: on an in-range position `get_mins` returns the number of pairs
`(dr, dc)` of `{-1, 0, 1}^2` other than `(0, 0)` for which `(i + dr, j + dc)`
lies inside the grid and holds a mine; a position off the top or left edge has
its index wrapped to `2 ^ 64 - 1`, is rejected by `valid_pos` and is neither
counted nor read (the result does not depend on cells outside the grid); and
the result is at most 8, so or-ing it into a cell changes neither the revealed
bit, nor the flag bit, nor any bit above the low 4 count bits. -/
theorem get_mins_counts_neighbours (rows cols i j : Nat) (board : Board)
    (hi : i < rows) (hj : j < cols)
    (hr : rows < 18446744073709551616) (hc : cols < 18446744073709551616) :
    get_mins rows cols i j board = adjacent_mines rows cols board i j ∧
    (∀ d ∈ neighbour_offsets, (i : Int) + d.1 < 0 →
      size_add i d.1 = 18446744073709551615 ∧
      valid_pos rows cols (size_add i d.1) (size_add j d.2) = false ∧
      mins_counts rows cols i j board d = false) ∧
    (∀ d ∈ neighbour_offsets, (j : Int) + d.2 < 0 →
      size_add j d.2 = 18446744073709551615 ∧
      valid_pos rows cols (size_add i d.1) (size_add j d.2) = false ∧
      mins_counts rows cols i j board d = false) ∧
    (∀ other : Board, (∀ r < rows, ∀ c < cols, other r c = board r c) →
      get_mins rows cols i j other = get_mins rows cols i j board) ∧
    get_mins rows cols i j board ≤ 8 ∧
    (∀ cell, is_revealed (cell ||| get_mins rows cols i j board) = is_revealed cell ∧
      is_flag (cell ||| get_mins rows cols i j board) = is_flag cell ∧
      get_val (cell ||| get_mins rows cols i j board) = get_val cell ∧
      (cell ||| get_mins rows cols i j board) >>> 4 = cell >>> 4) := by
  have hle := get_mins_le rows cols i j board
  have hoff : ∀ d ∈ neighbour_offsets,
      (d.1 = -1 ∨ d.1 = 0 ∨ d.1 = 1) ∧ (d.2 = -1 ∨ d.2 = 0 ∨ d.2 = 1) := by
    intro d hd
    simp [neighbour_offsets] at hd
    rcases hd with h | h | h | h | h | h | h | h <;> subst h <;> simp
  refine ⟨get_mins_eq_adjacent rows cols i j board hi hj hr hc, ?_, ?_,
    fun other h => get_mins_grid_only rows cols i j board other h, hle, fun cell => ?_⟩
  · intro d hd hneg
    obtain ⟨e, hnot⟩ := size_add_wraps rows i d.1 (hoff d hd).1 hr hneg
    have hv : valid_pos rows cols (size_add i d.1) (size_add j d.2) = false := by
      simp [valid_pos, hnot]
    exact ⟨e, hv, by unfold mins_counts; rw [hv, Bool.false_and]⟩
  · intro d hd hneg
    obtain ⟨e, hnot⟩ := size_add_wraps cols j d.2 (hoff d hd).2 hc hneg
    have hv : valid_pos rows cols (size_add i d.1) (size_add j d.2) = false := by
      simp [valid_pos, hnot]
    exact ⟨e, hv, by unfold mins_counts; rw [hv, Bool.false_and]⟩
  · exact ⟨is_revealed_or _ _ (by omega), is_flag_or _ _ (by omega), get_val_or _ _ (by omega),
      or_small_high_bits _ _ (by omega)⟩

theorem get_mins_counts_neighbours_witness :
    get_mins 5 5 0 1 ring_board = adjacent_mines 5 5 ring_board 0 1 ∧
    (∀ d ∈ neighbour_offsets, ((0 : Nat) : Int) + d.1 < 0 →
      size_add 0 d.1 = 18446744073709551615 ∧
      valid_pos 5 5 (size_add 0 d.1) (size_add 1 d.2) = false ∧
      mins_counts 5 5 0 1 ring_board d = false) ∧
    (∀ d ∈ neighbour_offsets, ((1 : Nat) : Int) + d.2 < 0 →
      size_add 1 d.2 = 18446744073709551615 ∧
      valid_pos 5 5 (size_add 0 d.1) (size_add 1 d.2) = false ∧
      mins_counts 5 5 0 1 ring_board d = false) ∧
    (∀ other : Board, (∀ r < 5, ∀ c < 5, other r c = ring_board r c) →
      get_mins 5 5 0 1 other = get_mins 5 5 0 1 ring_board) ∧
    get_mins 5 5 0 1 ring_board ≤ 8 ∧
    (∀ cell, is_revealed (cell ||| get_mins 5 5 0 1 ring_board) = is_revealed cell ∧
      is_flag (cell ||| get_mins 5 5 0 1 ring_board) = is_flag cell ∧
      get_val (cell ||| get_mins 5 5 0 1 ring_board) = get_val cell ∧
      (cell ||| get_mins 5 5 0 1 ring_board) >>> 4 = cell >>> 4) :=
  get_mins_counts_neighbours 5 5 0 1 ring_board (by decide) (by decide) (by decide) (by decide)

/-! ## What `postprocess` writes -/

/-- C13, evaluated on a grid of 16-bit cells whose low 4 bits are not 0: the
validated 3 x 3 board `XMX / XXX / XXX` receives a second mine at `(1, 0)`
through `set_cell` and `postprocess` runs again; it succeeds (returns 2), the
true count of `(0, 0)` is now 2, and the stored count is 3, the bitwise or of
the old count 1 and the new count 2. -/
theorem postprocess_ors_into_old_count :
    (∀ i < 3, ∀ j < 3, replanted_board i j < 65536) ∧
    get_neighbour_mins (replanted_board 0 0) = 1 ∧
    (postprocess 3 99 3 3 replanted_board).1 = 2 ∧
    adjacent_mines 3 3 (postprocess 3 99 3 3 replanted_board).2 0 0 = 2 ∧
    get_neighbour_mins ((postprocess 3 99 3 3 replanted_board).2 0 0) = 3 := by
  decide

/-- A grid without mines and with a mismatching digit (`XXX / XXX / XX5`):
`postprocess` returns -1 and every count written before the mismatch is 0. -/
theorem postprocess_mineless_wrong_digit :
    (postprocess 3 99 3 3 (board_of mineless_wrong_digit_codes)).1 = -1 ∧
    mine_total 3 3 (board_of mineless_wrong_digit_codes) = 0 ∧
    digit_mismatch 3 3 (board_of mineless_wrong_digit_codes) ∧
    (∀ r < 3, ∀ c < 3, (postprocess 3 99 3 3 (board_of mineless_wrong_digit_codes)).2 r c
      = board_of mineless_wrong_digit_codes r c) :=
  ⟨by decide, by decide, ⟨2, by decide, 2, by decide, by decide⟩, by decide⟩

/-! ## The loader `load_board` -/

theorem row_major_unique (cols r c row col : Nat) (hc : c < cols) (hcol : col < cols)
    (h : r * cols + c = row * cols + col) : r = row ∧ c = col := by
  have h1 : (r * cols + c) / cols = r := by
    rw [Nat.add_comm, Nat.add_mul_div_right _ _ (by omega), Nat.div_eq_of_lt hc, Nat.zero_add]
  have h2 : (row * cols + col) / cols = row := by
    rw [Nat.add_comm, Nat.add_mul_div_right _ _ (by omega), Nat.div_eq_of_lt hcol, Nat.zero_add]
  have hr : r = row := by rw [← h1, ← h2, h]
  subst hr
  exact ⟨rfl, by omega⟩

theorem grid_from_nil (cols : Nat) (board : Board) (base : Nat) :
    grid_from cols board base [] = board := by
  funext r c
  unfold grid_from
  rw [if_neg]
  simp only [List.length_nil, Nat.add_zero]
  omega

theorem grid_from_cons (cols : Nat) (board : Board) (row col ch : Nat) (w : List Nat)
    (hcol : col < cols) (hv : is_valid (toupper ch) = true) :
    grid_from cols (board.set row col (set_cell (board row col) ch).2) (row * cols + col + 1) w
      = grid_from cols board (row * cols + col) (ch :: w) := by
  funext r c
  unfold grid_from
  simp only [List.length_cons]
  by_cases hc : c < cols
  · by_cases hk : r * cols + c = row * cols + col
    · obtain ⟨e1, e2⟩ := row_major_unique cols r c row col hc hcol hk
      subst e1; subst e2
      rw [if_neg (by omega), if_pos ⟨hc, by omega, by omega⟩]
      simp only [Board.set, and_self, if_true, Nat.sub_self, List.getD_cons_zero]
      rw [set_cell_value _ ch hv, set_cell_value 0 ch hv]
    · have hne : ¬ (r = row ∧ c = col) := by
        rintro ⟨e1, e2⟩; apply hk; rw [e1, e2]
      by_cases hin : row * cols + col + 1 ≤ r * cols + c ∧
          r * cols + c < row * cols + col + 1 + w.length
      · rw [if_pos ⟨hc, hin.1, hin.2⟩, if_pos ⟨hc, by omega, by omega⟩]
        have : r * cols + c - (row * cols + col) = (r * cols + c - (row * cols + col + 1)) + 1 := by
          omega
        rw [this, List.getD_cons_succ]
      · rw [if_neg (fun h => hin ⟨h.2.1, h.2.2⟩), if_neg (fun h => hin ⟨by omega, by omega⟩)]
        simp only [Board.set, if_neg hne]
  · rw [if_neg (fun h => hc h.1), if_neg (fun h => hc h.1)]
    have hne : ¬ (r = row ∧ c = col) := by
      rintro ⟨-, e2⟩; apply hc; rw [e2]; exact hcol
    simp only [Board.set, if_neg hne]

/-- The loop of `load_board` skips the characters outside the vocabulary and
stores the first `chars_to_load` valid ones in row-major order. -/
theorem load_loop_spec (cols : Nat) (input : List Nat) :
    ∀ ctl row col board, (0 < ctl → col < cols) →
      load_loop cols input ctl row col board
        = (ctl - min (valid_chars input).length ctl,
            grid_from cols board (row * cols + col) ((valid_chars input).take ctl)) := by
  induction input with
  | nil =>
    intro ctl row col board _
    simp [load_loop, valid_chars, grid_from_nil]
  | cons ch rest ih =>
    intro ctl row col board hinv
    unfold load_loop
    by_cases h0 : ctl = 0
    · subst h0
      simp [grid_from_nil]
    · rw [if_neg h0]
      have hcol := hinv (by omega)
      by_cases hv : is_valid (toupper ch) = true
      · have hvc : valid_chars (ch :: rest) = ch :: valid_chars rest := by
          simp [valid_chars, List.filter_cons, hv]
        have hst : (set_cell (board row col) ch).1 = true := by
          rw [set_cell_value _ ch hv]
        simp only [hv, Bool.not_true, Bool.false_eq_true, if_false, hst, if_true]
        obtain ⟨n, hn⟩ : ∃ n, ctl = n + 1 := ⟨ctl - 1, by omega⟩
        subst hn
        simp only [Nat.add_sub_cancel]
        have hpos : (if col + 1 ≥ cols then row + 1 else row) * cols
            + (if col + 1 ≥ cols then 0 else col + 1) = row * cols + col + 1 := by
          by_cases hw : col + 1 ≥ cols
          · have : col + 1 = cols := by omega
            rw [if_pos hw, if_pos hw, Nat.add_mul, Nat.one_mul]
            omega
          · rw [if_neg hw, if_neg hw]; omega
        rw [ih n _ _ _ (by
          intro _
          by_cases hw : col + 1 ≥ cols
          · rw [if_pos hw]; omega
          · rw [if_neg hw]; omega), hpos, hvc, List.take_succ_cons,
          grid_from_cons cols board row col ch _ hcol hv]
        simp only [List.length_cons]
        congr 1
        omega
      · have hv2 : is_valid (toupper ch) = false := by simpa using hv
        have hvc : valid_chars (ch :: rest) = valid_chars rest := by
          simp [valid_chars, List.filter_cons, hv2]
        simp only [hv2, Bool.not_false, if_true]
        rw [ih ctl row col board hinv, hvc]

theorem grid_from_zero (cols : Nat) (board : Board) (valid : List Nat) (k : Nat)
    (hcols : 0 < cols) (hk : k < valid.length) :
    grid_from cols board 0 valid (k / cols) (k % cols) = (set_cell 0 (valid.getD k 0)).2 := by
  unfold grid_from
  have e : k / cols * cols + k % cols = k := by
    rw [Nat.mul_comm]; exact Nat.div_add_mod k cols
  rw [if_pos ⟨Nat.mod_lt _ hcols, by omega, by omega⟩, e, Nat.sub_zero]

theorem grid_from_outside (rows cols : Nat) (board : Board) (valid : List Nat) (r c : Nat)
    (hlen : valid.length ≤ rows * cols) (hout : ¬ (r < rows ∧ c < cols)) :
    grid_from cols board 0 valid r c = board r c := by
  unfold grid_from
  rw [if_neg]
  rintro ⟨hc, -, hlt⟩
  apply hout
  refine ⟨?_, hc⟩
  by_contra hr
  have : rows * cols ≤ r * cols := Nat.mul_le_mul_right cols (by omega)
  omega

/-- C16: with standard input a finite list of characters, `load_board` skips
every character whose upper-case code is outside the vocabulary and stores
`set_cell` of the `k`-th valid character at row `k / cols`, column `k % cols`;
when the input holds at least `rows * cols` valid characters it returns the
result of `postprocess` on the grid of the first `rows * cols` of them, and
when it holds fewer it returns -1 with the board as loaded so far, on which
`postprocess` has not run. -/
theorem load_board_row_major (MIN_SIZE MAX_SIZE rows cols : Nat) (board : Board)
    (input : List Nat) (hsz : rows * cols < 18446744073709551616) :
    (∀ valid : List Nat, ∀ k < valid.length, 0 < cols →
      grid_from cols board 0 valid (k / cols) (k % cols) = (set_cell 0 (valid.getD k 0)).2) ∧
    (∀ valid : List Nat, valid.length ≤ rows * cols → ∀ r c, ¬ (r < rows ∧ c < cols) →
      grid_from cols board 0 valid r c = board r c) ∧
    (rows * cols ≤ (valid_chars input).length →
      load_board MIN_SIZE MAX_SIZE rows cols board input
        = postprocess MIN_SIZE MAX_SIZE rows cols
            (grid_from cols board 0 ((valid_chars input).take (rows * cols)))) ∧
    ((valid_chars input).length < rows * cols →
      load_board MIN_SIZE MAX_SIZE rows cols board input
        = (-1, grid_from cols board 0 (valid_chars input))) := by
  have hloop := load_loop_spec cols input (rows * cols) 0 0 board (by
    intro h
    by_contra hc
    have : cols = 0 := by omega
    rw [this, Nat.mul_zero] at h
    exact absurd h (Nat.lt_irrefl 0))
  simp only [Nat.zero_mul, Nat.add_zero] at hloop
  refine ⟨fun valid k hk hcols => grid_from_zero cols board valid k hcols hk,
    fun valid hlen r c hout => grid_from_outside rows cols board valid r c hlen hout, ?_, ?_⟩
  · intro hge
    unfold load_board
    simp only [Nat.mod_eq_of_lt hsz, hloop]
    rw [if_neg (by simp only [ne_eq, Decidable.not_not]; omega)]
  · intro hlt
    unfold load_board
    simp only [Nat.mod_eq_of_lt hsz, hloop]
    rw [if_pos (by omega), List.take_of_length_le (by omega)]

theorem load_board_row_major_witness :
    (∀ valid : List Nat, ∀ k < valid.length, 0 < 3 →
      grid_from 3 (fun _ _ => 0) 0 valid (k / 3) (k % 3) = (set_cell 0 (valid.getD k 0)).2) ∧
    (∀ valid : List Nat, valid.length ≤ 3 * 3 → ∀ r c, ¬ (r < 3 ∧ c < 3) →
      grid_from 3 (fun _ _ => 0) 0 valid r c = (fun _ _ => 0 : Board) r c) ∧
    (3 * 3 ≤ (valid_chars [120, 10, 77, 88, 32, 88, 88, 88, 10, 88, 88, 88, 10, 88]).length →
      load_board 3 99 3 3 (fun _ _ => 0) [120, 10, 77, 88, 32, 88, 88, 88, 10, 88, 88, 88, 10, 88]
        = postprocess 3 99 3 3
            (grid_from 3 (fun _ _ => 0) 0
              ((valid_chars [120, 10, 77, 88, 32, 88, 88, 88, 10, 88, 88, 88, 10, 88]).take
                (3 * 3)))) ∧
    ((valid_chars [120, 10, 77, 88, 32, 88, 88, 88, 10, 88, 88, 88, 10, 88]).length < 3 * 3 →
      load_board 3 99 3 3 (fun _ _ => 0) [120, 10, 77, 88, 32, 88, 88, 88, 10, 88, 88, 88, 10, 88]
        = (-1, grid_from 3 (fun _ _ => 0) 0
            (valid_chars [120, 10, 77, 88, 32, 88, 88, 88, 10, 88, 88, 88, 10, 88]))) :=
  load_board_row_major 3 99 3 3 (fun _ _ => 0)
    [120, 10, 77, 88, 32, 88, 88, 88, 10, 88, 88, 88, 10, 88] (by decide)

/-! ## The generator `generate_random_board` -/

theorem planted_false (index : Nat) (mine_rows mine_cols : Nat → Nat) (new_row new_col : Nat)
    (h : mine_already_planted index mine_rows mine_cols new_row new_col = false) :
    ∀ l < index, ¬ (mine_rows l = new_row ∧ mine_cols l = new_col) := by
  unfold mine_already_planted at h
  rw [List.any_eq_false] at h
  intro l hl hcontra
  apply h l (List.mem_range.mpr hl)
  simp [hcontra.1, hcontra.2]

theorem sampled_ok_extend (rows cols index : Nat) (mine_rows mine_cols : Nat → Nat)
    (new_row new_col : Nat) (hok : sampled_ok rows cols index mine_rows mine_cols)
    (hr : new_row < rows) (hc : new_col < cols)
    (h1 : ¬ (new_row = 0 ∧ new_col = 0))
    (h2 : ¬ (new_row = rows - 1 ∧ new_col = 0))
    (h3 : ¬ (new_row = rows - 1 ∧ new_col = cols - 1))
    (h4 : ¬ (new_row = 0 ∧ new_col = cols - 1))
    (h5 : ∀ l < index, ¬ (mine_rows l = new_row ∧ mine_cols l = new_col)) :
    sampled_ok rows cols (index + 1)
      (fun k => if k = index then new_row else mine_rows k)
      (fun k => if k = index then new_col else mine_cols k) := by
  intro k hk
  by_cases hki : k = index
  · subst hki
    simp only [if_true]
    refine ⟨hr, hc, h1, h2, h3, h4, fun l hl => ?_⟩
    have : l ≠ k := by omega
    simp only [if_neg this]
    exact h5 l hl
  · have hk2 : k < index := by omega
    obtain ⟨a1, a2, a3, a4, a5, a6, a7⟩ := hok k hk2
    simp only [if_neg hki]
    refine ⟨a1, a2, a3, a4, a5, a6, fun l hl => ?_⟩
    have : l ≠ index := by omega
    simp only [if_neg this]
    exact a7 l hl

/-- The sampling loop, when it finishes, leaves `mines` positions inside the
grid that are no corners and pairwise distinct. -/
theorem sample_loop_ok (rows cols mines : Nat) (hr1 : 1 ≤ rows) (hc1 : 1 ≤ cols)
    (hr : rows < 18446744073709551616) (hc : cols < 18446744073709551616)
    (draws : List (Nat × Nat)) :
    ∀ index mine_rows mine_cols, index ≤ mines →
      sampled_ok rows cols index mine_rows mine_cols →
      ∀ arrays, sample_loop rows cols mines draws index mine_rows mine_cols = some arrays →
        sampled_ok rows cols mines arrays.1 arrays.2 := by
  have er := size_add_pred rows hr1 hr
  have ec := size_add_pred cols hc1 hc
  induction draws with
  | nil =>
    intro index mr mc hle hok arrays h
    unfold sample_loop at h
    by_cases hlt : index < mines
    · rw [if_pos hlt] at h; exact Option.noConfusion h
    · rw [if_neg hlt] at h
      have : index = mines := by omega
      rw [← Option.some.inj h, ← this]
      exact hok
  | cons draw rest ih =>
    intro index mr mc hle hok arrays h
    unfold sample_loop at h
    by_cases hlt : index < mines
    · rw [if_neg (not_not.mpr hlt)] at h
      simp only at h
      have hnr : draw.1 % rows < rows := Nat.mod_lt _ (by omega)
      have hnc : draw.2 % cols < cols := Nat.mod_lt _ (by omega)
      by_cases hp : mine_already_planted index mr mc (draw.1 % rows) (draw.2 % cols) = true
      · rw [if_pos hp] at h; exact ih index mr mc hle hok arrays h
      · rw [if_neg hp] at h
        by_cases g1 : draw.1 % rows = 0 ∧ draw.2 % cols = 0
        · rw [if_pos g1] at h; exact ih index mr mc hle hok arrays h
        · rw [if_neg g1] at h
          by_cases g2 : draw.1 % rows = size_add rows (-1) ∧ draw.2 % cols = 0
          · rw [if_pos g2] at h; exact ih index mr mc hle hok arrays h
          · rw [if_neg g2] at h
            by_cases g3 : draw.1 % rows = size_add rows (-1) ∧ draw.2 % cols = size_add cols (-1)
            · rw [if_pos g3] at h; exact ih index mr mc hle hok arrays h
            · rw [if_neg g3] at h
              by_cases g4 : draw.1 % rows = 0 ∧ draw.2 % cols = size_add cols (-1)
              · rw [if_pos g4] at h; exact ih index mr mc hle hok arrays h
              · rw [if_neg g4] at h
                rw [er] at g2 g3
                rw [ec] at g3 g4
                exact ih (index + 1) _ _ (by omega)
                  (sampled_ok_extend rows cols index mr mc _ _ hok hnr hnc g1 g2 g3 g4
                    (planted_false index mr mc _ _ (by simpa using hp)))
                  arrays h
    · rw [if_pos hlt] at h
      have : index = mines := by omega
      rw [← Option.some.inj h, ← this]
      exact hok

theorem foldl_set_const (v : Nat) (L : List (Nat × Nat)) :
    ∀ b : Board, L.foldl (fun b p => b.set p.1 p.2 v) b
      = fun r c => if (r, c) ∈ L then v else b r c := by
  induction L with
  | nil => intro b; funext r c; simp
  | cons p L ih =>
    intro b
    rw [List.foldl_cons, ih]
    funext r c
    by_cases hin : (r, c) ∈ L
    · rw [if_pos hin, if_pos (List.mem_cons_of_mem _ hin)]
    · rw [if_neg hin]
      by_cases hp : (r, c) = p
      · rw [if_pos (by rw [hp]; exact List.mem_cons_self _ _)]
        simp [Board.set, ← hp]
      · rw [if_neg (by
          intro h
          rcases List.mem_cons.mp h with h' | h'
          · exact hp h'
          · exact hin h')]
        unfold Board.set
        rw [if_neg]
        rintro ⟨e1, e2⟩
        apply hp
        rw [e1, e2]

theorem init_board_eq (rows cols : Nat) (board : Board) :
    init_board rows cols board
      = fun r c => if r < rows ∧ c < cols then 22528 else board r c := by
  have h : init_board rows cols board
      = (positions rows cols).foldl (fun b p => b.set p.1 p.2 22528) board := by
    unfold init_board positions
    rw [foldl_product (fun i j (b : Board) => b.set i j (set_cell (b i j) 88).2)]
    congr 1
  rw [h, foldl_set_const]
  funext r c
  simp only [mem_positions]

theorem plant_mines_eq (mines : Nat) (mine_rows mine_cols : Nat → Nat) (board : Board) :
    plant_mines mines mine_rows mine_cols board
      = fun r c =>
          if (r, c) ∈ (List.range mines).map (fun k => (mine_rows k, mine_cols k)) then 19712
          else board r c := by
  have h : plant_mines mines mine_rows mine_cols board
      = ((List.range mines).map (fun k => (mine_rows k, mine_cols k))).foldl
          (fun b p => b.set p.1 p.2 19712) board := by
    unfold plant_mines
    rw [List.foldl_map]
    congr 1
  rw [h, foldl_set_const]

theorem countP_mem_of_nodup {α : Type} (q : α → Bool) (L P : List α) (hL : L.Nodup)
    (hP : P.Nodup) (hsub : ∀ x ∈ P, x ∈ L) (hq : ∀ x ∈ L, (q x = true ↔ x ∈ P)) :
    L.countP q = P.length := by
  rw [List.countP_eq_length_filter]
  apply List.Perm.length_eq
  rw [List.perm_ext_iff_of_nodup (hL.filter _) hP]
  intro a
  rw [List.mem_filter]
  constructor
  · intro h; exact (hq a h.1).mp h.2
  · intro h; exact ⟨hsub a h, (hq a (hsub a h)).mpr h⟩
theorem sampled_nodup (rows cols mines : Nat) (mine_rows mine_cols : Nat → Nat)
    (hok : sampled_ok rows cols mines mine_rows mine_cols) :
    ((List.range mines).map (fun k => (mine_rows k, mine_cols k))).Nodup := by
  apply List.Nodup.map_on _ (List.nodup_range mines)
  intro x hx y hy hxy
  have hx' := List.mem_range.mp hx
  have hy' := List.mem_range.mp hy
  have e1 : mine_rows x = mine_rows y := congrArg Prod.fst hxy
  have e2 : mine_cols x = mine_cols y := congrArg Prod.snd hxy
  rcases Nat.lt_trichotomy x y with h | h | h
  · exact absurd ⟨e1, e2⟩ ((hok y hy').2.2.2.2.2.2 x h)
  · exact h
  · exact absurd ⟨e1.symm, e2.symm⟩ ((hok x hx').2.2.2.2.2.2 y h)

theorem sampled_distinct (rows cols mines : Nat) (mine_rows mine_cols : Nat → Nat)
    (hok : sampled_ok rows cols mines mine_rows mine_cols) :
    ∀ k < mines, ∀ l < mines, k ≠ l →
      ¬ (mine_rows k = mine_rows l ∧ mine_cols k = mine_cols l) := by
  intro k hk l hl hne hcontra
  rcases Nat.lt_trichotomy k l with h | h | h
  · exact (hok l hl).2.2.2.2.2.2 k h hcontra
  · exact hne h
  · exact (hok k hk).2.2.2.2.2.2 l h ⟨hcontra.1.symm, hcontra.2.symm⟩

theorem mem_sampled (mines : Nat) (mine_rows mine_cols : Nat → Nat) (r c : Nat) :
    (r, c) ∈ (List.range mines).map (fun k => (mine_rows k, mine_cols k)) ↔
      ∃ k < mines, mine_rows k = r ∧ mine_cols k = c := by
  rw [List.mem_map]
  constructor
  · rintro ⟨k, hk, e⟩
    exact ⟨k, List.mem_range.mp hk, congrArg Prod.fst e, congrArg Prod.snd e⟩
  · rintro ⟨k, hk, e1, e2⟩
    exact ⟨k, List.mem_range.mpr hk, by rw [e1, e2]⟩

/-- The board built by `generate_random_board` before validation: mines on the
sampled positions, unrevealed blanks on the rest of the grid. -/
theorem planted_board_cell (rows cols mines : Nat) (mine_rows mine_cols : Nat → Nat)
    (board : Board) (r c : Nat) (hr : r < rows) (hc : c < cols) :
    plant_mines mines mine_rows mine_cols (init_board rows cols board) r c
      = if (∃ k < mines, mine_rows k = r ∧ mine_cols k = c) then 19712 else 22528 := by
  rw [plant_mines_eq, init_board_eq]
  simp only [mem_sampled, hr, hc, and_self, if_true]

theorem planted_board_bits (rows cols mines : Nat) (mine_rows mine_cols : Nat → Nat)
    (board : Board) (r c : Nat) (hr : r < rows) (hc : c < cols) :
    (is_mine (plant_mines mines mine_rows mine_cols (init_board rows cols board) r c) = true ↔
      ∃ k < mines, mine_rows k = r ∧ mine_cols k = c) ∧
    is_revealed (plant_mines mines mine_rows mine_cols (init_board rows cols board) r c) = false ∧
    is_flag (plant_mines mines mine_rows mine_cols (init_board rows cols board) r c) = false ∧
    get_neighbour_mins
      (plant_mines mines mine_rows mine_cols (init_board rows cols board) r c) = 0 := by
  rw [planted_board_cell rows cols mines mine_rows mine_cols board r c hr hc]
  by_cases h : ∃ k < mines, mine_rows k = r ∧ mine_cols k = c
  · rw [if_pos h]
    exact ⟨⟨fun _ => h, fun _ => by decide⟩, by decide, by decide, by decide⟩
  · rw [if_neg h]
    exact ⟨⟨fun hm => absurd hm (by decide), fun hm => absurd hm h⟩, by decide, by decide,
      by decide⟩

theorem planted_mine_total (rows cols mines : Nat) (mine_rows mine_cols : Nat → Nat)
    (board : Board) (hok : sampled_ok rows cols mines mine_rows mine_cols) :
    mine_total rows cols (plant_mines mines mine_rows mine_cols (init_board rows cols board))
      = mines := by
  have hcount := countP_mem_of_nodup
    (fun p => is_mine (plant_mines mines mine_rows mine_cols (init_board rows cols board) p.1 p.2))
    (positions rows cols)
    ((List.range mines).map (fun k => (mine_rows k, mine_cols k)))
    (nodup_positions rows cols) (sampled_nodup rows cols mines mine_rows mine_cols hok)
    (by
      intro p hp
      obtain ⟨k, hk, e1, e2⟩ := (mem_sampled mines mine_rows mine_cols p.1 p.2).mp hp
      have := hok k hk
      exact (mem_positions rows cols p.1 p.2).mpr ⟨by rw [← e1]; exact this.1,
        by rw [← e2]; exact this.2.1⟩)
    (by
      intro p hp
      have hin := (mem_positions rows cols p.1 p.2).mp hp
      simp only
      rw [(planted_board_bits rows cols mines mine_rows mine_cols board p.1 p.2 hin.1 hin.2).1]
      exact (mem_sampled mines mine_rows mine_cols p.1 p.2).symm)
  rw [List.length_map, List.length_range] at hcount
  exact hcount

theorem planted_no_corner (rows cols mines : Nat) (mine_rows mine_cols : Nat → Nat)
    (board : Board) (hr1 : 1 ≤ rows) (hc1 : 1 ≤ cols)
    (hok : sampled_ok rows cols mines mine_rows mine_cols) :
    corner_mine rows cols (plant_mines mines mine_rows mine_cols (init_board rows cols board))
      = false := by
  have key : ∀ r c, r < rows → c < cols →
      (∀ k < mines, ¬ (mine_rows k = r ∧ mine_cols k = c)) →
      is_mine (plant_mines mines mine_rows mine_cols (init_board rows cols board) r c) = false := by
    intro r c hr hc hno
    cases hm : is_mine (plant_mines mines mine_rows mine_cols (init_board rows cols board) r c)
    · rfl
    · obtain ⟨k, hk, e⟩ :=
        (planted_board_bits rows cols mines mine_rows mine_cols board r c hr hc).1.mp hm
      exact absurd e (hno k hk)
  unfold corner_mine
  rw [key 0 0 (by omega) (by omega) (fun k hk => (hok k hk).2.2.1),
    key (rows - 1) 0 (by omega) (by omega) (fun k hk => (hok k hk).2.2.2.1),
    key 0 (cols - 1) (by omega) (by omega) (fun k hk => (hok k hk).2.2.2.2.2.1),
    key (rows - 1) (cols - 1) (by omega) (by omega) (fun k hk => (hok k hk).2.2.2.2.1)]
  rfl

theorem planted_no_mismatch (rows cols mines : Nat) (mine_rows mine_cols : Nat → Nat)
    (board : Board) :
    ¬ digit_mismatch rows cols
      (plant_mines mines mine_rows mine_cols (init_board rows cols board)) := by
  rintro ⟨i, hi, j, hj, h⟩
  unfold digit_differs at h
  rw [(planted_board_bits rows cols mines mine_rows mine_cols board i j hi hj).2.1] at h
  simp at h

/-- C15: with the random source an arbitrary sequence of draws, for `rows` and
`cols` within `[MIN_SIZE, MAX_SIZE]`, `mines >= 1` and a sequence on which the
sampling loop finishes, `generate_random_board` returns `mines`; the board
holds exactly `mines` mine cells, which are the sampled positions, pairwise
distinct and inside the grid; no corner is a mine; every cell is unrevealed
and unflagged; and every stored neighbour count is the true adjacency count. -/
theorem generate_random_board_valid (MIN_SIZE MAX_SIZE rows cols : Nat) (board : Board)
    (mines : Nat) (draws : List (Nat × Nat))
    (hmin : 1 ≤ MIN_SIZE) (hmax : MAX_SIZE * MAX_SIZE < 2147483648)
    (hsize : size_out_of_range MIN_SIZE MAX_SIZE rows cols = false)
    (hmines : 1 ≤ mines)
    (hfin : (sample_loop rows cols mines draws 0 (fun _ => 0) (fun _ => 0)).isSome = true) :
    ∃ (b' : Board) (mine_rows mine_cols : Nat → Nat),
      generate_random_board MIN_SIZE MAX_SIZE rows cols board mines draws
        = some ((mines : Int), b') ∧
      mine_total rows cols b' = mines ∧
      (∀ k < mines, mine_rows k < rows ∧ mine_cols k < cols) ∧
      (∀ k < mines, ∀ l < mines, k ≠ l →
        ¬ (mine_rows k = mine_rows l ∧ mine_cols k = mine_cols l)) ∧
      (∀ i < rows, ∀ j < cols,
        (is_mine (b' i j) = true ↔ ∃ k < mines, mine_rows k = i ∧ mine_cols k = j)) ∧
      corner_mine rows cols b' = false ∧
      (∀ i < rows, ∀ j < cols, is_revealed (b' i j) = false ∧ is_flag (b' i j) = false ∧
        get_neighbour_mins (b' i j) = adjacent_mines rows cols b' i j) := by
  obtain ⟨h1, h2, h3, h4⟩ := size_in_range _ _ _ _ hsize
  obtain ⟨-, hr, hc⟩ := size_bounds MAX_SIZE rows cols hmax h2 h4
  obtain ⟨arrays, harr⟩ := Option.isSome_iff_exists.mp hfin
  have hok := sample_loop_ok rows cols mines (by omega) (by omega) hr hc draws 0
    (fun _ => 0) (fun _ => 0) (Nat.zero_le _) (fun k hk => absurd hk (Nat.not_lt_zero k))
    arrays harr
  have htotal := planted_mine_total rows cols mines arrays.1 arrays.2 board hok
  have hpost := postprocess_of_consistent MIN_SIZE MAX_SIZE rows cols
    (plant_mines mines arrays.1 arrays.2 (init_board rows cols board)) hmin hmax hsize
    (planted_no_corner rows cols mines arrays.1 arrays.2 board (by omega) (by omega) hok)
    (planted_no_mismatch rows cols mines arrays.1 arrays.2 board)
  rw [htotal, if_neg (by omega)] at hpost
  have hval := counts_written_val rows cols
    (plant_mines mines arrays.1 arrays.2 (init_board rows cols board)) (positions rows cols)
  have hmine : ∀ r c, is_mine (counts_written rows cols
      (plant_mines mines arrays.1 arrays.2 (init_board rows cols board))
      (plant_mines mines arrays.1 arrays.2 (init_board rows cols board)) (positions rows cols) r c)
      = is_mine (plant_mines mines arrays.1 arrays.2 (init_board rows cols board) r c) := by
    intro r c
    unfold is_mine
    rw [hval r c]
  refine ⟨counts_written rows cols
      (plant_mines mines arrays.1 arrays.2 (init_board rows cols board))
      (plant_mines mines arrays.1 arrays.2 (init_board rows cols board)) (positions rows cols),
    arrays.1, arrays.2, ?_, ?_, fun k hk => ⟨(hok k hk).1, (hok k hk).2.1⟩,
    sampled_distinct rows cols mines arrays.1 arrays.2 hok, ?_, ?_, ?_⟩
  · unfold generate_random_board
    rw [harr]
    simp only
    rw [hpost]
  · refine Eq.trans ?_ htotal
    unfold mine_total
    exact List.countP_congr (fun p _ => by rw [hmine])
  · intro i hi j hj
    rw [hmine]
    exact (planted_board_bits rows cols mines arrays.1 arrays.2 board i j hi hj).1
  · rw [← planted_no_corner rows cols mines arrays.1 arrays.2 board (by omega) (by omega) hok]
    unfold corner_mine
    simp only [hmine]
  · intro i hi j hj
    obtain ⟨-, b1, b2, b3⟩ := planted_board_bits rows cols mines arrays.1 arrays.2 board i j hi hj
    have hk : get_mins rows cols i j
        (plant_mines mines arrays.1 arrays.2 (init_board rows cols board)) < 16 :=
      lt_of_le_of_lt (get_mins_le _ _ _ _ _) (by norm_num)
    rw [adjacent_mines_congr rows cols _ _ i j hval, counts_written_grid rows cols _ i j hi hj,
      is_revealed_or _ _ hk, is_flag_or _ _ (by omega), mins_or _ _ hk, b1, b2, b3, Nat.zero_or,
      get_mins_eq_adjacent rows cols i j _ hi hj hr hc]
    exact ⟨rfl, rfl, rfl⟩

theorem generate_random_board_valid_witness :
    ∃ (b' : Board) (mine_rows mine_cols : Nat → Nat),
      generate_random_board 3 99 5 5 (fun _ _ => 0) 3
          [(0, 0), (7, 8), (12, 3), (7, 8), (4, 4), (1, 1), (3, 0)]
        = some (((3 : Nat) : Int), b') ∧
      mine_total 5 5 b' = 3 ∧
      (∀ k < 3, mine_rows k < 5 ∧ mine_cols k < 5) ∧
      (∀ k < 3, ∀ l < 3, k ≠ l →
        ¬ (mine_rows k = mine_rows l ∧ mine_cols k = mine_cols l)) ∧
      (∀ i < 5, ∀ j < 5,
        (is_mine (b' i j) = true ↔ ∃ k < 3, mine_rows k = i ∧ mine_cols k = j)) ∧
      corner_mine 5 5 b' = false ∧
      (∀ i < 5, ∀ j < 5, is_revealed (b' i j) = false ∧ is_flag (b' i j) = false ∧
        get_neighbour_mins (b' i j) = adjacent_mines 5 5 b' i j) :=
  generate_random_board_valid 3 99 5 5 (fun _ _ => 0) 3
    [(0, 0), (7, 8), (12, 3), (7, 8), (4, 4), (1, 1), (3, 0)]
    (by decide) (by decide) (by decide) (by decide) (by decide)

/-! ## The cascade and the zero region -/

theorem floodfill_step_eq_order (fuel rows cols row col : Nat) (board : Board) (d : Int × Int) :
    floodfill_step fuel rows cols row col board d
      = order_step rows cols row col (reveal_floodfill fuel rows cols) board d := rfl

/-- The source's cascade is the cascade with the scan order of the two nested loops. -/
theorem reveal_floodfill_eq_order (rows cols : Nat) (fuel : Nat) :
    ∀ board row col, reveal_floodfill fuel rows cols board row col
      = reveal_floodfill_order offset_pairs rows cols fuel board row col := by
  induction fuel with
  | zero => intro board row col; rw [reveal_floodfill, reveal_floodfill_order]
  | succ fuel ih =>
    intro board row col
    rw [reveal_floodfill_succ, reveal_floodfill_order]
    have : reveal_floodfill fuel rows cols = reveal_floodfill_order offset_pairs rows cols fuel := by
      funext b r c; exact ih b r c
    rw [← this]
    rfl

theorem order_step_cases (rows cols row col : Nat) (nested : Board → Nat → Nat → Option Board)
    (board : Board) (d : Int × Int) :
    ((d = (0, 0) ∨ ¬ (size_add row d.1 < rows ∧ size_add col d.2 < cols) ∨
        is_revealed (board (size_add row d.1) (size_add col d.2)) = true) ∧
      order_step rows cols row col nested board d = some board) ∨
    (d ≠ (0, 0) ∧ size_add row d.1 < rows ∧ size_add col d.2 < cols ∧
      is_revealed (board (size_add row d.1) (size_add col d.2)) = false ∧
      ((get_number (board (size_add row d.1) (size_add col d.2)) ≠ 0 ∧
        order_step rows cols row col nested board d =
          some (board.set (size_add row d.1) (size_add col d.2)
            (board (size_add row d.1) (size_add col d.2) ||| 16))) ∨
        (get_number (board (size_add row d.1) (size_add col d.2)) = 0 ∧
         order_step rows cols row col nested board d =
          nested
            (board.set (size_add row d.1) (size_add col d.2)
              (board (size_add row d.1) (size_add col d.2) ||| 16))
            (size_add row d.1) (size_add col d.2)))) := by
  unfold order_step
  by_cases h0 : d = (0, 0)
  · exact Or.inl ⟨Or.inl h0, by rw [if_pos h0]⟩
  · rw [if_neg h0]
    by_cases hv : valid_pos rows cols (size_add row d.1) (size_add col d.2) = false
    · refine Or.inl ⟨Or.inr (Or.inl ?_), by rw [if_pos hv]⟩
      intro h
      rw [(valid_pos_iff _ _ _ _).mpr h] at hv
      exact Bool.noConfusion hv
    · rw [if_neg hv]
      by_cases hr : is_revealed (board (size_add row d.1) (size_add col d.2)) = true
      · exact Or.inl ⟨Or.inr (Or.inr hr), by rw [if_pos hr]⟩
      · rw [if_neg hr]
        have hv2 := (valid_pos_iff _ _ _ _).mp (by simpa using hv)
        refine Or.inr ⟨h0, hv2.1, hv2.2, by simpa using hr, ?_⟩
        by_cases hn : get_number (board (size_add row d.1) (size_add col d.2)) ≠ 0
        · exact Or.inl ⟨hn, by rw [if_pos hn]⟩
        · exact Or.inr ⟨by simpa using hn, by rw [if_neg hn]⟩

theorem order_fold_reveals (order : List (Int × Int)) (fuel rows cols row col : Nat)
    (ih : ∀ board row col b', reveal_floodfill_order order rows cols fuel board row col = some b' →
      reveals rows cols board b')
    (L : List (Int × Int)) :
    ∀ board b',
      L.foldlM (order_step rows cols row col (reveal_floodfill_order order rows cols fuel)) board
        = some b' →
      reveals rows cols board b' := by
  induction L with
  | nil =>
    intro board b' h
    have : board = b' := Option.some.inj h
    rw [this]; exact reveals_refl _ _ _
  | cons d L ihL =>
    intro board b' h
    rw [List.foldlM_cons] at h
    obtain ⟨b1, h1, h2⟩ := option_bind_some _ _ _ h
    refine reveals_trans _ _ _ _ _ ?_ (ihL b1 b' h2)
    rcases order_step_cases rows cols row col (reveal_floodfill_order order rows cols fuel) board d
      with ⟨-, hc⟩ | ⟨-, hr, hc, hu, ⟨-, hc2⟩ | ⟨-, hc3⟩⟩
    · rw [hc] at h1
      rw [← Option.some.inj h1]; exact reveals_refl _ _ _
    · rw [hc2] at h1
      rw [← Option.some.inj h1]; exact reveals_set _ _ _ _ _ hr hc hu
    · rw [hc3] at h1
      exact reveals_trans _ _ _ _ _ (reveals_set _ _ _ _ _ hr hc hu) (ih _ _ _ _ h1)

theorem reveal_floodfill_order_reveals (order : List (Int × Int)) (rows cols : Nat) (fuel : Nat) :
    ∀ board row col b', reveal_floodfill_order order rows cols fuel board row col = some b' →
      reveals rows cols board b' := by
  induction fuel with
  | zero =>
    intro board row col b' h
    rw [reveal_floodfill_order] at h
    exact Option.noConfusion h
  | succ fuel ih =>
    intro board row col b' h
    rw [reveal_floodfill_order] at h
    exact order_fold_reveals order fuel rows cols row col ih order board b' h

theorem order_fold_returns (order : List (Int × Int)) (fuel rows cols row col : Nat)
    (ih : ∀ board row col, unrevealed_total rows cols board < fuel →
      ∃ b', reveal_floodfill_order order rows cols fuel board row col = some b')
    (L : List (Int × Int)) :
    ∀ board, unrevealed_total rows cols board < fuel + 1 →
      ∃ b', L.foldlM
        (order_step rows cols row col (reveal_floodfill_order order rows cols fuel)) board
          = some b' := by
  induction L with
  | nil => intro board _; exact ⟨board, rfl⟩
  | cons d L ihL =>
    intro board hb
    rw [List.foldlM_cons]
    have hbind : ∀ (x : Board) (g : Board → Option Board), (some x >>= g) = g x := fun _ _ => rfl
    rcases order_step_cases rows cols row col (reveal_floodfill_order order rows cols fuel) board d
      with ⟨-, hc⟩ | ⟨-, hr, hc, hu, ⟨-, hc2⟩ | ⟨-, hc3⟩⟩
    · rw [hc, hbind]; exact ihL board hb
    · rw [hc2, hbind]
      exact ihL _ (lt_trans (unrevealed_total_set rows cols board _ _ hr hc hu) hb)
    · have hlt := unrevealed_total_set rows cols board _ _ hr hc hu
      obtain ⟨b1, hb1⟩ := ih (board.set (size_add row d.1) (size_add col d.2)
        (board (size_add row d.1) (size_add col d.2) ||| 16))
        (size_add row d.1) (size_add col d.2) (by omega)
      rw [hc3, hb1, hbind]
      have hmono := unrevealed_total_mono rows cols _ _
        (reveal_floodfill_order_reveals order rows cols fuel _ _ _ _ hb1)
      exact ihL b1 (by omega)

theorem reveal_floodfill_order_returns (order : List (Int × Int)) (rows cols : Nat) (fuel : Nat) :
    ∀ board row col, unrevealed_total rows cols board < fuel →
      ∃ b', reveal_floodfill_order order rows cols fuel board row col = some b' := by
  induction fuel with
  | zero => intro board row col h; exact absurd h (Nat.not_lt_zero _)
  | succ fuel ih =>
    intro board row col h
    rw [reveal_floodfill_order]
    exact order_fold_returns order fuel rows cols row col ih order board h

theorem offset_range (d : Int × Int) (hd : d ∈ offset_pairs) :
    (d.1 = -1 ∨ d.1 = 0 ∨ d.1 = 1) ∧ (d.2 = -1 ∨ d.2 = 0 ∨ d.2 = 1) := by
  simp [offset_pairs] at hd
  rcases hd with h | h | h | h | h | h | h | h | h <;> subst h <;> simp

theorem neighbour_offsets_sub (d : Int × Int) (hd : d ∈ neighbour_offsets) : d ∈ offset_pairs := by
  simp [neighbour_offsets] at hd
  rcases hd with h | h | h | h | h | h | h | h <;> subst h <;> simp [offset_pairs]

/-- An in-grid neighbour computed by the code is 8-adjacent. -/
theorem neighbour_adjacent (rows cols : Nat) (p : Nat × Nat) (d : Int × Int)
    (hp1 : p.1 < rows) (hp2 : p.2 < cols)
    (hrows : rows < 18446744073709551616) (hcols : cols < 18446744073709551616)
    (hd : d ∈ offset_pairs) (hne : d ≠ (0, 0))
    (hq1 : size_add p.1 d.1 < rows) (hq2 : size_add p.2 d.2 < cols) :
    adjacent8 p (size_add p.1 d.1, size_add p.2 d.2) := by
  obtain ⟨h1, h2⟩ := offset_range d hd
  obtain ⟨a1, a2⟩ := size_add_valid rows p.1 d.1 h1 hp1 hrows
  obtain ⟨b1, b2⟩ := size_add_valid cols p.2 d.2 h2 hp2 hcols
  have e1 := a2 (a1.mp hq1)
  have e2 := b2 (b1.mp hq2)
  have r1 := a1.mp hq1
  have r2 := b1.mp hq2
  have hne' : ¬ (d.1 = 0 ∧ d.2 = 0) := fun h => hne (Prod.ext h.1 h.2)
  unfold adjacent8
  refine ⟨?_, ?_, ?_, ?_, ?_⟩
  · intro heq
    have q1 : p.1 = size_add p.1 d.1 := congrArg Prod.fst heq
    have q2 : p.2 = size_add p.2 d.2 := congrArg Prod.snd heq
    apply hne'
    constructor <;> omega
  all_goals (simp only; omega)

/-- Every 8-adjacent cell of the grid is a neighbour computed by the code. -/
theorem adjacent_neighbour (rows cols : Nat) (p q : Nat × Nat)
    (hq1 : q.1 < rows) (hq2 : q.2 < cols)
    (hrows : rows < 18446744073709551616) (hcols : cols < 18446744073709551616)
    (hadj : adjacent8 p q) :
    ∃ d ∈ neighbour_offsets, size_add p.1 d.1 = q.1 ∧ size_add p.2 d.2 = q.2 ∧
      (p.1 : Int) + d.1 = (q.1 : Int) ∧ (p.2 : Int) + d.2 = (q.2 : Int) := by
  obtain ⟨hne, h1, h2, h3, h4⟩ := hadj
  have hne' : ¬ (p.1 = q.1 ∧ p.2 = q.2) := fun h => hne (Prod.ext h.1 h.2)
  refine ⟨((q.1 : Int) - (p.1 : Int), (q.2 : Int) - (p.2 : Int)), ?_, ?_, ?_, ?_, ?_⟩
  · have c1 : (q.1 : Int) - (p.1 : Int) = -1 ∨ (q.1 : Int) - (p.1 : Int) = 0 ∨
        (q.1 : Int) - (p.1 : Int) = 1 := by omega
    have c2 : (q.2 : Int) - (p.2 : Int) = -1 ∨ (q.2 : Int) - (p.2 : Int) = 0 ∨
        (q.2 : Int) - (p.2 : Int) = 1 := by omega
    have c3 : ¬ ((q.1 : Int) - (p.1 : Int) = 0 ∧ (q.2 : Int) - (p.2 : Int) = 0) := by
      intro h; apply hne'; constructor <;> omega
    rcases c1 with e1 | e1 | e1 <;> rcases c2 with e2 | e2 | e2 <;>
      first
        | (exfalso; exact c3 ⟨e1, e2⟩)
        | (rw [e1, e2]; simp [neighbour_offsets])
  · unfold size_add
    simp only
    norm_num
    omega
  · unfold size_add
    simp only
    norm_num
    omega
  · simp only; omega
  · simp only; omega

theorem get_number_or16 (c : Nat) : get_number (c ||| 16) = get_number c := by
  unfold get_number
  rw [get_val_or c 16 (by norm_num), mins_or16]

theorem reveals_get_number (rows cols : Nat) (b1 b2 : Board) (h : reveals rows cols b1 b2)
    (r c : Nat) : get_number (b2 r c) = get_number (b1 r c) := by
  rcases h r c with e | ⟨-, -, -, e⟩
  · rw [e]
  · rw [e, get_number_or16]

theorem reveals_is_mine (rows cols : Nat) (b1 b2 : Board) (h : reveals rows cols b1 b2)
    (r c : Nat) : is_mine (b2 r c) = is_mine (b1 r c) := by
  rcases h r c with e | ⟨-, -, -, e⟩
  · rw [e]
  · rw [e]; exact is_mine_or _ 16 (by norm_num)

theorem reveals_keeps (rows cols : Nat) (b1 b2 : Board) (h : reveals rows cols b1 b2)
    (r c : Nat) (hr : is_revealed (b1 r c) = true) : is_revealed (b2 r c) = true := by
  rcases h r c with e | ⟨-, -, -, e⟩
  · rw [e]; exact hr
  · rw [e]; exact is_revealed_or16 _

theorem reveals_unrevealed (rows cols : Nat) (b1 b2 : Board) (h : reveals rows cols b1 b2)
    (r c : Nat) (hu : is_revealed (b2 r c) = false) : is_revealed (b1 r c) = false := by
  cases h1 : is_revealed (b1 r c)
  · rfl
  · rw [reveals_keeps rows cols b1 b2 h r c h1] at hu
    exact Bool.noConfusion hu

/-- A cell whose revealed bit is newly set lies inside the grid. -/
theorem reveals_new_in_grid (rows cols : Nat) (b1 b2 : Board) (h : reveals rows cols b1 b2)
    (r c : Nat) (hu : is_revealed (b1 r c) = false) (hr : is_revealed (b2 r c) = true) :
    r < rows ∧ c < cols := by
  rcases h r c with e | ⟨h1, h2, -, -⟩
  · rw [e, hu] at hr; exact Bool.noConfusion hr
  · exact ⟨h1, h2⟩

theorem passable_mono (rows cols : Nat) (b1 b2 : Board) (h : reveals rows cols b1 b2)
    (q : Nat × Nat) (hq : passable rows cols b2 q) : passable rows cols b1 q := by
  obtain ⟨h1, h2, h3, h4⟩ := hq
  exact ⟨h1, h2, reveals_unrevealed rows cols b1 b2 h _ _ h3,
    by rw [← reveals_get_number rows cols b1 b2 h]; exact h4⟩

theorem zero_region_mono (rows cols : Nat) (b1 b2 : Board) (h : reveals rows cols b1 b2)
    (start z : Nat × Nat) (hz : zero_region rows cols b2 start z) :
    zero_region rows cols b1 start z := by
  induction hz with
  | base => exact zero_region.base
  | step p q _ hadj hpass ih =>
    exact zero_region.step p q ih hadj (passable_mono rows cols b1 b2 h q hpass)

theorem zero_region_trans (rows cols : Nat) (board : Board) (start p z : Nat × Nat)
    (hp : zero_region rows cols board start p) (hz : zero_region rows cols board p z) :
    zero_region rows cols board start z := by
  induction hz with
  | base => exact hp
  | step a b _ hadj hpass ih => exact zero_region.step a b ih hadj hpass

theorem set_other (board : Board) (i j v r c : Nat) (h : ¬ (r = i ∧ c = j)) :
    (board.set i j v) r c = board r c := by
  unfold Board.set
  rw [if_neg h]

theorem set_same (board : Board) (i j v : Nat) : (board.set i j v) i j = v := by
  unfold Board.set
  rw [if_pos ⟨rfl, rfl⟩]

theorem neighbours_revealed_mono (rows cols : Nat) (b1 b2 : Board) (h : reveals rows cols b1 b2)
    (p : Nat × Nat) (hp : neighbours_revealed rows cols b1 p) :
    neighbours_revealed rows cols b2 p :=
  fun q hq1 hq2 hadj => reveals_keeps rows cols b1 b2 h _ _ (hp q hq1 hq2 hadj)

/-- Soundness inside one invocation: whatever the loops newly reveal is
8-adjacent to a cell of the zero region of the invocation's start. -/
theorem order_fold_sound (order : List (Int × Int)) (fuel rows cols : Nat) (p : Nat × Nat)
    (hp1 : p.1 < rows) (hp2 : p.2 < cols)
    (hrows : rows < 18446744073709551616) (hcols : cols < 18446744073709551616)
    (ih : ∀ board (q : Nat × Nat) b', q.1 < rows → q.2 < cols →
      reveal_floodfill_order order rows cols fuel board q.1 q.2 = some b' →
      ∀ r c, is_revealed (board r c) = false → is_revealed (b' r c) = true →
        ∃ z, zero_region rows cols board q z ∧ adjacent8 z (r, c))
    (b : Board) (L : List (Int × Int)) (hL : ∀ d ∈ L, d ∈ offset_pairs) :
    ∀ cur b', reveals rows cols b cur →
      L.foldlM (order_step rows cols p.1 p.2 (reveal_floodfill_order order rows cols fuel)) cur
        = some b' →
      ∀ r c, is_revealed (cur r c) = false → is_revealed (b' r c) = true →
        ∃ z, zero_region rows cols b p z ∧ adjacent8 z (r, c) := by
  induction L with
  | nil =>
    intro cur b' _ h r c hu hr
    have : cur = b' := Option.some.inj h
    rw [← this, hu] at hr
    exact Bool.noConfusion hr
  | cons d L ihL =>
    intro cur b' hbc h r c hu hr
    rw [List.foldlM_cons] at h
    obtain ⟨cur1, h1, h2⟩ := option_bind_some _ _ _ h
    have hdL : ∀ d' ∈ L, d' ∈ offset_pairs := fun d' hd' => hL d' (List.mem_cons_of_mem _ hd')
    have hd := hL d (List.mem_cons_self _ _)
    rcases order_step_cases rows cols p.1 p.2 (reveal_floodfill_order order rows cols fuel) cur d
      with ⟨-, hc⟩ | ⟨hne, hq1, hq2, hqu, ⟨-, hc2⟩ | ⟨hn, hc3⟩⟩
    · rw [hc] at h1
      rw [← Option.some.inj h1] at h2
      exact ihL hdL cur b' hbc h2 r c hu hr
    · rw [hc2] at h1
      have hset := reveals_set rows cols cur _ _ hq1 hq2 hqu
      rw [← Option.some.inj h1] at h2
      by_cases hrc : r = size_add p.1 d.1 ∧ c = size_add p.2 d.2
      · rw [hrc.1, hrc.2]
        exact ⟨p, zero_region.base,
          neighbour_adjacent rows cols p d hp1 hp2 hrows hcols hd hne hq1 hq2⟩
      · exact ihL hdL _ b' (reveals_trans _ _ _ _ _ hbc hset) h2 r c
          (by rw [set_other _ _ _ _ _ _ hrc]; exact hu) hr
    · rw [hc3] at h1
      have hset := reveals_set rows cols cur _ _ hq1 hq2 hqu
      have hb1 := reveals_trans _ _ _ _ _ hbc hset
      have hnest := reveal_floodfill_order_reveals order rows cols fuel _ _ _ _ h1
      have hadj := neighbour_adjacent rows cols p d hp1 hp2 hrows hcols hd hne hq1 hq2
      by_cases hrc : r = size_add p.1 d.1 ∧ c = size_add p.2 d.2
      · rw [hrc.1, hrc.2]
        exact ⟨p, zero_region.base, hadj⟩
      · cases hcur1 : is_revealed (cur1 r c)
        · exact ihL hdL cur1 b' (reveals_trans _ _ _ _ _ hb1 hnest) h2 r c hcur1 hr
        · obtain ⟨z, hz, hzadj⟩ := ih _ (size_add p.1 d.1, size_add p.2 d.2) cur1 hq1 hq2 h1 r c
            (by rw [set_other _ _ _ _ _ _ hrc]; exact hu) hcur1
          have hq : zero_region rows cols b p (size_add p.1 d.1, size_add p.2 d.2) :=
            zero_region.step p _ zero_region.base hadj
              ⟨hq1, hq2, reveals_unrevealed rows cols b cur hbc _ _ hqu,
                by rw [← reveals_get_number rows cols b cur hbc]; exact hn⟩
          exact ⟨z, zero_region_trans rows cols b p _ z hq
            (zero_region_mono rows cols b _ hb1 _ z hz), hzadj⟩

/-- Soundness of the cascade: every cell it newly reveals is 8-adjacent to a
cell of the zero region of its start. -/
theorem reveal_floodfill_order_sound (order : List (Int × Int))
    (hsub : ∀ d ∈ order, d ∈ offset_pairs) (rows cols : Nat)
    (hrows : rows < 18446744073709551616) (hcols : cols < 18446744073709551616) (fuel : Nat) :
    ∀ board (q : Nat × Nat) b', q.1 < rows → q.2 < cols →
      reveal_floodfill_order order rows cols fuel board q.1 q.2 = some b' →
      ∀ r c, is_revealed (board r c) = false → is_revealed (b' r c) = true →
        ∃ z, zero_region rows cols board q z ∧ adjacent8 z (r, c) := by
  induction fuel with
  | zero =>
    intro board q b' _ _ h
    rw [reveal_floodfill_order] at h
    exact Option.noConfusion h
  | succ fuel ih =>
    intro board q b' hq1 hq2 h
    rw [reveal_floodfill_order] at h
    exact order_fold_sound order fuel rows cols q hq1 hq2 hrows hcols ih board order hsub
      board b' (reveals_refl _ _ _) h

/-- Completeness inside one invocation: every scanned neighbour inside the
grid ends up revealed, and every cell with `get_number` 0 that the loops newly
reveal has all its neighbours revealed at the end. -/
theorem order_fold_complete (order : List (Int × Int)) (fuel rows cols : Nat) (p : Nat × Nat)
    (ih : ∀ board (q : Nat × Nat) b', q.1 < rows → q.2 < cols →
      reveal_floodfill_order order rows cols fuel board q.1 q.2 = some b' →
      neighbours_revealed rows cols b' q ∧
      ∀ x : Nat × Nat, is_revealed (board x.1 x.2) = false → is_revealed (b' x.1 x.2) = true →
        get_number (board x.1 x.2) = 0 → neighbours_revealed rows cols b' x)
    (L : List (Int × Int)) :
    ∀ cur b',
      L.foldlM (order_step rows cols p.1 p.2 (reveal_floodfill_order order rows cols fuel)) cur
        = some b' →
      (∀ d ∈ L, d ≠ (0, 0) → size_add p.1 d.1 < rows → size_add p.2 d.2 < cols →
        is_revealed (b' (size_add p.1 d.1) (size_add p.2 d.2)) = true) ∧
      (∀ x : Nat × Nat, is_revealed (cur x.1 x.2) = false → is_revealed (b' x.1 x.2) = true →
        get_number (cur x.1 x.2) = 0 → neighbours_revealed rows cols b' x) := by
  induction L with
  | nil =>
    intro cur b' h
    have e : cur = b' := Option.some.inj h
    refine ⟨fun d hd => absurd hd (List.not_mem_nil d), fun x hu hr _ => ?_⟩
    rw [← e, hu] at hr
    exact Bool.noConfusion hr
  | cons d L ihL =>
    intro cur b' h
    have hall := order_fold_reveals order fuel rows cols p.1 p.2
      (reveal_floodfill_order_reveals order rows cols fuel) (d :: L) cur b' h
    rw [List.foldlM_cons] at h
    obtain ⟨cur1, h1, h2⟩ := option_bind_some _ _ _ h
    obtain ⟨i1, i2⟩ := ihL cur1 b' h2
    have hrest := order_fold_reveals order fuel rows cols p.1 p.2
      (reveal_floodfill_order_reveals order rows cols fuel) L cur1 b' h2
    rcases order_step_cases rows cols p.1 p.2 (reveal_floodfill_order order rows cols fuel) cur d
      with ⟨hwhy, hc⟩ | ⟨hne, hq1, hq2, hqu, ⟨hn, hc2⟩ | ⟨hn, hc3⟩⟩
    · rw [hc] at h1
      have e : cur = cur1 := Option.some.inj h1
      constructor
      · intro d' hd' hne' hv1 hv2
        rcases List.mem_cons.mp hd' with hd | hd
        · subst hd
          rcases hwhy with w | w | w
          · exact absurd w hne'
          · exact absurd ⟨hv1, hv2⟩ w
          · exact reveals_keeps rows cols cur b' hall _ _ w
        · exact i1 d' hd hne' hv1 hv2
      · intro x hu hr hn
        exact i2 x (by rw [← e]; exact hu) hr (by rw [← e]; exact hn)
    · rw [hc2] at h1
      have e := Option.some.inj h1
      have hset := reveals_set rows cols cur _ _ hq1 hq2 hqu
      constructor
      · intro d' hd' hne' hv1 hv2
        rcases List.mem_cons.mp hd' with hd | hd
        · subst hd
          apply reveals_keeps rows cols cur1 b' hrest
          rw [← e, set_same]
          exact is_revealed_or16 _
        · exact i1 d' hd hne' hv1 hv2
      · intro x hu hr hn0
        by_cases hx : x.1 = size_add p.1 d.1 ∧ x.2 = size_add p.2 d.2
        · rw [hx.1, hx.2] at hn0
          exact absurd hn0 hn
        · exact i2 x (by rw [← e, set_other _ _ _ _ _ _ hx]; exact hu) hr
            (by rw [← e, set_other _ _ _ _ _ _ hx]; exact hn0)
    · rw [hc3] at h1
      have hset := reveals_set rows cols cur _ _ hq1 hq2 hqu
      have hnest := reveal_floodfill_order_reveals order rows cols fuel _ _ _ _ h1
      obtain ⟨j1, j2⟩ := ih _ (size_add p.1 d.1, size_add p.2 d.2) cur1 hq1 hq2 h1
      constructor
      · intro d' hd' hne' hv1 hv2
        rcases List.mem_cons.mp hd' with hd | hd
        · subst hd
          apply reveals_keeps rows cols cur1 b' hrest
          apply reveals_keeps rows cols _ cur1 hnest
          rw [set_same]
          exact is_revealed_or16 _
        · exact i1 d' hd hne' hv1 hv2
      · intro x hu hr hn0
        cases hx1 : is_revealed (cur1 x.1 x.2)
        · exact i2 x hx1 hr (by
            rw [reveals_get_number rows cols cur cur1
              (reveals_trans _ _ _ _ _ hset hnest)]; exact hn0)
        · apply neighbours_revealed_mono rows cols cur1 b' hrest
          by_cases hx : x.1 = size_add p.1 d.1 ∧ x.2 = size_add p.2 d.2
          · have : x = (size_add p.1 d.1, size_add p.2 d.2) := Prod.ext hx.1 hx.2
            rw [this]; exact j1
          · exact j2 x (by rw [set_other _ _ _ _ _ _ hx]; exact hu) hx1
              (by rw [set_other _ _ _ _ _ _ hx]; exact hn0)

/-- Completeness of the cascade: when it returns, all neighbours of its start
are revealed, and so are all neighbours of every cell with `get_number` 0 that
it newly revealed. -/
theorem reveal_floodfill_order_complete (order : List (Int × Int))
    (hcov : ∀ d ∈ neighbour_offsets, d ∈ order) (rows cols : Nat)
    (hrows : rows < 18446744073709551616) (hcols : cols < 18446744073709551616) (fuel : Nat) :
    ∀ board (q : Nat × Nat) b', q.1 < rows → q.2 < cols →
      reveal_floodfill_order order rows cols fuel board q.1 q.2 = some b' →
      neighbours_revealed rows cols b' q ∧
      ∀ x : Nat × Nat, is_revealed (board x.1 x.2) = false → is_revealed (b' x.1 x.2) = true →
        get_number (board x.1 x.2) = 0 → neighbours_revealed rows cols b' x := by
  induction fuel with
  | zero =>
    intro board q b' _ _ h
    rw [reveal_floodfill_order] at h
    exact Option.noConfusion h
  | succ fuel ih =>
    intro board q b' hq1 hq2 h
    rw [reveal_floodfill_order] at h
    obtain ⟨k1, k2⟩ := order_fold_complete order fuel rows cols q ih order board b' h
    refine ⟨fun y hy1 hy2 hadj => ?_, k2⟩
    obtain ⟨d, hd, e1, e2, f1, f2⟩ := adjacent_neighbour rows cols q y hy1 hy2 hrows hcols hadj
    have hne : d ≠ (0, 0) := by
      intro h0
      rw [h0] at f1 f2
      simp only [add_zero] at f1 f2
      exact hadj.1 (Prod.ext (by exact_mod_cast f1) (by exact_mod_cast f2))
    have := k1 d (hcov d hd) hne (by rw [e1]; exact hy1) (by rw [e2]; exact hy2)
    rw [e1, e2] at this
    exact this

theorem zero_region_neighbours_revealed (rows cols : Nat) (board b' : Board)
    (start : Nat × Nat)
    (k1 : neighbours_revealed rows cols b' start)
    (k2 : ∀ x : Nat × Nat, is_revealed (board x.1 x.2) = false → is_revealed (b' x.1 x.2) = true →
      get_number (board x.1 x.2) = 0 → neighbours_revealed rows cols b' x)
    (z : Nat × Nat) (hz : zero_region rows cols board start z) :
    neighbours_revealed rows cols b' z := by
  induction hz with
  | base => exact k1
  | step p q _ hadj hpass ih =>
    obtain ⟨h1, h2, h3, h4⟩ := hpass
    exact k2 q h3 (ih q h1 h2 hadj) h4

/-- The cells newly revealed by the cascade are exactly the initially
unrevealed cells of the grid that are 8-adjacent to a cell of the zero region
of the start. -/
theorem reveal_floodfill_order_new (order : List (Int × Int))
    (hsub : ∀ d ∈ order, d ∈ offset_pairs) (hcov : ∀ d ∈ neighbour_offsets, d ∈ order)
    (rows cols : Nat) (hrows : rows < 18446744073709551616)
    (hcols : cols < 18446744073709551616) (fuel : Nat) (board : Board) (row col : Nat)
    (hr : row < rows) (hc : col < cols) (b' : Board)
    (h : reveal_floodfill_order order rows cols fuel board row col = some b') (r c : Nat) :
    (is_revealed (b' r c) = true ∧ is_revealed (board r c) = false) ↔
      cascade_reaches rows cols board (row, col) (r, c) := by
  have hrev := reveal_floodfill_order_reveals order rows cols fuel board row col b' h
  constructor
  · rintro ⟨h1, h2⟩
    obtain ⟨g1, g2⟩ := reveals_new_in_grid rows cols board b' hrev r c h2 h1
    exact ⟨g1, g2, h2, reveal_floodfill_order_sound order hsub rows cols hrows hcols fuel board
      (row, col) b' hr hc h r c h2 h1⟩
  · rintro ⟨g1, g2, h2, z, hz, hadj⟩
    obtain ⟨k1, k2⟩ := reveal_floodfill_order_complete order hcov rows cols hrows hcols fuel
      board (row, col) b' hr hc h
    exact ⟨zero_region_neighbours_revealed rows cols board b' (row, col) k1 k2 z hz (r, c) g1 g2
      hadj, h2⟩

theorem reveal_floodfill_order_board (order : List (Int × Int))
    (hsub : ∀ d ∈ order, d ∈ offset_pairs) (hcov : ∀ d ∈ neighbour_offsets, d ∈ order)
    (rows cols : Nat) (hrows : rows < 18446744073709551616)
    (hcols : cols < 18446744073709551616) (fuel : Nat) (board : Board) (row col : Nat)
    (hr : row < rows) (hc : col < cols) (b' : Board)
    (h : reveal_floodfill_order order rows cols fuel board row col = some b') (r c : Nat) :
    (cascade_reaches rows cols board (row, col) (r, c) → b' r c = board r c ||| BIT_5) ∧
    (¬ cascade_reaches rows cols board (row, col) (r, c) → b' r c = board r c) := by
  have hrev := reveal_floodfill_order_reveals order rows cols fuel board row col b' h
  have hnew := reveal_floodfill_order_new order hsub hcov rows cols hrows hcols fuel board row col
    hr hc b' h r c
  constructor
  · intro hreach
    obtain ⟨h1, h2⟩ := hnew.mpr hreach
    rcases hrev r c with e | ⟨-, -, -, e⟩
    · rw [e, h2] at h1; exact Bool.noConfusion h1
    · exact e
  · intro hno
    rcases hrev r c with e | ⟨-, -, hu, e⟩
    · exact e
    · exact absurd (hnew.mp ⟨by rw [e]; exact is_revealed_or16 _, hu⟩) hno

/-- C18: from an in-range start, with Z the cells reachable from the start
(start included) by 8-adjacent steps through cells that were unrevealed before
the call and have `get_number` 0, `reveal_floodfill` returns and the cells
whose revealed bit is newly set are exactly the initially unrevealed cells of
the grid that are 8-adjacent to some cell of Z, flagged or not; such a cell
receives the revealed bit and nothing else changes; cells with a nonzero
`get_number` are not in Z, so the cascade does not continue through them; and
scanning the neighbours in any other order `order` gives the same board. -/
theorem reveal_floodfill_zero_region (fuel rows cols : Nat) (board : Board) (row col : Nat)
    (order : List (Int × Int)) (hperm : order.Perm offset_pairs)
    (hr : row < rows) (hc : col < cols)
    (hrows : rows < 18446744073709551616) (hcols : cols < 18446744073709551616)
    (hfuel : unrevealed_total rows cols board < fuel) :
    ∃ b', reveal_floodfill fuel rows cols board row col = some b' ∧
      reveal_floodfill_order order rows cols fuel board row col = some b' ∧
      (∀ r c, (is_revealed (b' r c) = true ∧ is_revealed (board r c) = false) ↔
        cascade_reaches rows cols board (row, col) (r, c)) ∧
      (∀ r c, cascade_reaches rows cols board (row, col) (r, c) →
        b' r c = board r c ||| BIT_5) ∧
      (∀ r c, ¬ cascade_reaches rows cols board (row, col) (r, c) → b' r c = board r c) := by
  obtain ⟨b1, hb1⟩ := reveal_floodfill_returns rows cols fuel board row col hfuel
  obtain ⟨b2, hb2⟩ := reveal_floodfill_order_returns order rows cols fuel board row col hfuel
  have hb1' := hb1
  rw [reveal_floodfill_eq_order] at hb1'
  have s1 : ∀ d ∈ offset_pairs, d ∈ offset_pairs := fun _ h => h
  have s2 : ∀ d ∈ order, d ∈ offset_pairs := fun d hd => hperm.mem_iff.mp hd
  have c2 : ∀ d ∈ neighbour_offsets, d ∈ order :=
    fun d hd => hperm.mem_iff.mpr (neighbour_offsets_sub d hd)
  have k1 := reveal_floodfill_order_board offset_pairs s1 neighbour_offsets_sub rows cols hrows
    hcols fuel board row col hr hc b1 hb1'
  have k2 := reveal_floodfill_order_board order s2 c2 rows cols hrows hcols fuel board row col
    hr hc b2 hb2
  have heq : b2 = b1 := by
    funext r c
    by_cases hreach : cascade_reaches rows cols board (row, col) (r, c)
    · rw [(k1 r c).1 hreach, (k2 r c).1 hreach]
    · rw [(k1 r c).2 hreach, (k2 r c).2 hreach]
  refine ⟨b1, hb1, by rw [hb2, heq], fun r c => ?_, fun r c => (k1 r c).1, fun r c => (k1 r c).2⟩
  exact reveal_floodfill_order_new offset_pairs s1 neighbour_offsets_sub rows cols hrows hcols
    fuel board row col hr hc b1 hb1' r c

theorem reveal_floodfill_zero_region_witness :
    ∃ b', reveal_floodfill 10 3 3 top_validated 2 0 = some b' ∧
      reveal_floodfill_order
        [(1, 1), (1, 0), (1, -1), (0, 1), (0, 0), (0, -1), (-1, 1), (-1, 0), (-1, -1)]
        3 3 10 top_validated 2 0 = some b' ∧
      (∀ r c, (is_revealed (b' r c) = true ∧ is_revealed (top_validated r c) = false) ↔
        cascade_reaches 3 3 top_validated (2, 0) (r, c)) ∧
      (∀ r c, cascade_reaches 3 3 top_validated (2, 0) (r, c) →
        b' r c = top_validated r c ||| BIT_5) ∧
      (∀ r c, ¬ cascade_reaches 3 3 top_validated (2, 0) (r, c) → b' r c = top_validated r c) :=
  reveal_floodfill_zero_region 10 3 3 top_validated 2 0
    [(1, 1), (1, 0), (1, -1), (0, 1), (0, 0), (0, -1), (-1, 1), (-1, 0), (-1, -1)]
    (List.reverse_perm offset_pairs) (by decide) (by decide) (by decide) (by decide) (by decide)

/-! ## Mines and the cascade -/

theorem no_adjacent_mine (rows cols : Nat) (board : Board) (p q : Nat × Nat)
    (hq1 : q.1 < rows) (hq2 : q.2 < cols)
    (hrows : rows < 18446744073709551616) (hcols : cols < 18446744073709551616)
    (h0 : adjacent_mines rows cols board p.1 p.2 = 0) (hadj : adjacent8 p q) :
    is_mine (board q.1 q.2) = false := by
  obtain ⟨d, hd, -, -, f1, f2⟩ := adjacent_neighbour rows cols p q hq1 hq2 hrows hcols hadj
  unfold adjacent_mines at h0
  rw [List.countP_eq_zero] at h0
  have hnot := h0 d hd
  unfold mine_at_offset at hnot
  rw [f1, f2] at hnot
  cases hm : is_mine (board q.1 q.2)
  · rfl
  · exfalso
    apply hnot
    simp only [Int.toNat_ofNat, hm, Bool.and_true, Bool.and_eq_true, decide_eq_true_eq]
    omega

theorem get_number_zero_count (c : Nat) (hm : is_mine c = false) (hn : get_number c = 0) :
    get_neighbour_mins c = 0 := by
  unfold get_number at hn
  unfold is_mine at hm
  rw [hm] at hn
  simpa using hn

/-- On a board with exact counts, the zero region of a non-mine cell with count
0 holds only non-mine cells with count 0. -/
theorem zero_region_safe (rows cols : Nat) (board : Board) (start : Nat × Nat)
    (hrows : rows < 18446744073709551616) (hcols : cols < 18446744073709551616)
    (hexact : ∀ i < rows, ∀ j < cols,
      get_neighbour_mins (board i j) = adjacent_mines rows cols board i j)
    (hs1 : start.1 < rows) (hs2 : start.2 < cols)
    (hsm : is_mine (board start.1 start.2) = false)
    (hs0 : get_neighbour_mins (board start.1 start.2) = 0)
    (z : Nat × Nat) (hz : zero_region rows cols board start z) :
    z.1 < rows ∧ z.2 < cols ∧ is_mine (board z.1 z.2) = false ∧
      get_neighbour_mins (board z.1 z.2) = 0 := by
  induction hz with
  | base => exact ⟨hs1, hs2, hsm, hs0⟩
  | step p q _ hadj hpass ih =>
    obtain ⟨p1, p2, -, p4⟩ := ih
    obtain ⟨q1, q2, -, q4⟩ := hpass
    have hnm := no_adjacent_mine rows cols board p q q1 q2 hrows hcols
      (by rw [← hexact p.1 p1 p.2 p2]; exact p4) hadj
    exact ⟨q1, q2, hnm, get_number_zero_count _ hnm q4⟩

/-- The three outcomes of `reveal_cell` with their return values. -/
theorem reveal_cell_cases (fuel rows cols : Nat) (board : Board) (row col : Nat)
    (p : Int × Board) (h : reveal_cell fuel rows cols board row col = some p) :
    p = (-1, board) ∨
    (row < rows ∧ col < cols ∧
      p = (if is_mine (board row col) then 1 else 0,
        board.set row col (board row col ||| BIT_5))) ∨
    (row < rows ∧ col < cols ∧ get_number (board row col) = 0 ∧
      is_mine (board row col) = false ∧ p.1 = 0 ∧
      reveal_floodfill fuel rows cols board row col = some p.2) := by
  unfold reveal_cell at h
  by_cases h1 : row ≥ rows
  · rw [if_pos h1] at h
    exact Or.inl (Option.some.inj h).symm
  · rw [if_neg h1] at h
    by_cases h2 : col ≥ cols
    · rw [if_pos h2] at h
      exact Or.inl (Option.some.inj h).symm
    · rw [if_neg h2] at h
      by_cases h3 : (is_revealed (board row col) || is_flag (board row col)) = true
      · rw [if_pos h3] at h
        exact Or.inl (Option.some.inj h).symm
      · rw [if_neg h3] at h
        have hu : is_revealed (board row col) = false := by
          cases hh : is_revealed (board row col)
          · rfl
          · exact absurd (by rw [hh]; rfl) h3
        have hf : is_flag (board row col) = false := by
          cases hh : is_flag (board row col)
          · rfl
          · exact absurd (by rw [hh, Bool.or_true]) h3
        by_cases h4 : (decide (get_number (board row col) ≠ 0) || is_mine (board row col)) = true
        · rw [if_pos h4, reveal_single_fresh _ hu hf] at h
          exact Or.inr (Or.inl ⟨by omega, by omega, (Option.some.inj h).symm⟩)
        · rw [if_neg h4] at h
          obtain ⟨b', hb', hp⟩ := Option.map_eq_some'.mp h
          have hn : get_number (board row col) = 0 := by
            by_contra hne
            exact h4 (by simp [hne])
          have hm : is_mine (board row col) = false := by
            cases hh : is_mine (board row col)
            · rfl
            · exact absurd (by rw [hh, Bool.or_true]) h4
          refine Or.inr (Or.inr ⟨by omega, by omega, hn, hm, ?_, ?_⟩)
          · rw [← hp]
          · rw [← hp]; exact hb'

/-- C19: on a board whose stored neighbour counts are exact, `reveal_cell` on an
in-range non-mine cell returns a value other than 1 and leaves every mine cell
exactly as it was, so the revealed mines are the same before and after the
call: the cascade only reaches cells 8-adjacent to non-mine cells with count
0. -/
theorem reveal_cell_spares_mines (fuel rows cols : Nat) (board : Board) (row col : Nat)
    (hrows : rows < 18446744073709551616) (hcols : cols < 18446744073709551616)
    (hexact : ∀ i < rows, ∀ j < cols,
      get_neighbour_mins (board i j) = adjacent_mines rows cols board i j)
    (hr : row < rows) (hc : col < cols) (hsafe : is_mine (board row col) = false)
    (hfuel : unrevealed_total rows cols board < fuel) :
    ∃ ret b', reveal_cell fuel rows cols board row col = some (ret, b') ∧
      ret ≠ 1 ∧
      (∀ r c, is_mine (board r c) = true → b' r c = board r c) ∧
      (∀ r c, (is_mine (b' r c) = true ∧ is_revealed (b' r c) = true) ↔
        (is_mine (board r c) = true ∧ is_revealed (board r c) = true)) := by
  obtain ⟨ret, b', h, -⟩ := reveal_cell_outcome fuel rows cols board row col hfuel
  have key : ret ≠ 1 ∧ ∀ r c, is_mine (board r c) = true → b' r c = board r c := by
    rcases reveal_cell_cases fuel rows cols board row col (ret, b') h with e | ⟨-, -, e⟩ |
        ⟨-, -, hn, hm, e1, e2⟩
    · obtain ⟨e1, e2⟩ := Prod.mk.inj e
      exact ⟨by rw [e1]; decide, fun r c _ => by rw [e2]⟩
    · obtain ⟨e1, e2⟩ := Prod.mk.inj e
      rw [hsafe] at e1
      refine ⟨by rw [e1]; decide, fun r c hmine => ?_⟩
      rw [e2]
      apply set_other
      rintro ⟨a1, a2⟩
      rw [a1, a2, hsafe] at hmine
      exact Bool.noConfusion hmine
    · simp only at e1 e2
      refine ⟨by rw [e1]; decide, fun r c hmine => ?_⟩
      have hrev := reveal_floodfill_reveals rows cols fuel board row col b' e2
      rcases hrev r c with e | ⟨g1, g2, hu, e⟩
      · exact e
      · exfalso
        rw [reveal_floodfill_eq_order] at e2
        obtain ⟨z, hz, hadj⟩ := reveal_floodfill_order_sound offset_pairs (fun _ hd => hd) rows cols
          hrows hcols fuel board (row, col) b' hr hc e2 r c hu
          (by rw [e]; exact is_revealed_or16 _)
        obtain ⟨z1, z2, -, z4⟩ := zero_region_safe rows cols board (row, col) hrows hcols hexact
          hr hc hsafe (get_number_zero_count _ hsafe hn) z hz
        have := no_adjacent_mine rows cols board z (r, c) g1 g2 hrows hcols
          (by rw [← hexact z.1 z1 z.2 z2]; exact z4) hadj
        simp only at this
        rw [this] at hmine
        exact Bool.noConfusion hmine
  have hframe : ∀ r c, is_mine (b' r c) = is_mine (board r c) := by
    intro r c
    rcases reveal_cell_board fuel rows cols board row col (ret, b') h with h1 | ⟨-, h1⟩ |
        ⟨-, -, -, h1⟩
    · simp only at h1; rw [h1]
    · simp only at h1
      rw [h1]
      by_cases hrc : r = row ∧ c = col
      · rw [hrc.1, hrc.2, set_same]; exact is_mine_or _ _ (by decide)
      · rw [set_other _ _ _ _ _ _ hrc]
    · exact reveals_is_mine rows cols board b' h1 r c
  refine ⟨ret, b', h, key.1, key.2, fun r c => ?_⟩
  rw [hframe]
  constructor
  · rintro ⟨m, rv⟩
    rw [key.2 r c m] at rv
    exact ⟨m, rv⟩
  · rintro ⟨m, rv⟩
    rw [key.2 r c m]
    exact ⟨m, rv⟩

theorem reveal_cell_spares_mines_witness :
    ∃ ret b', reveal_cell 26 5 5 ring_validated 0 0 = some (ret, b') ∧
      ret ≠ 1 ∧
      (∀ r c, is_mine (ring_validated r c) = true → b' r c = ring_validated r c) ∧
      (∀ r c, (is_mine (b' r c) = true ∧ is_revealed (b' r c) = true) ↔
        (is_mine (ring_validated r c) = true ∧ is_revealed (ring_validated r c) = true)) :=
  reveal_cell_spares_mines 26 5 5 ring_validated 0 0 (by decide) (by decide)
    (by decide) (by decide) (by decide) (by decide) (by decide)

end Minesweeper
